import Mathlib

/-!
# GeeCache: LRU engine, consistent-hash ring and cache group

A shallow embedding of the cache core of the repository
(`geecache/lru/lru.go`, `geecache/consistenthash/consistenthash.go`,
`geecache/cache.go`, `geecache/geecache.go`) together with the properties
proved about it.

Conventions of the embedding.

* A Go `string` is a Lean `String`; `len(s)` is the UTF-8 byte size.
* A Go `[]byte` is a `List UInt8`.
* `int64` byte counters are unbounded `Int`: a counter is a sum of lengths
  of values held in memory, far below `2^63`.  For value types whose `Len()`
  is arbitrary, `lru.Cache.Add64` and `lru.Cache.RemoveOldest64` are the same
  methods on the `int64` counter, which wraps around.
* A `*list.Element` is an address (`Nat`) into an element store; the
  recency list is the list of addresses from front to back.
* A Go map is a function into `Option`.
* A loop that may fail to terminate is run with fuel and yields `none`
  when the fuel does not suffice.
-/

namespace lru

/-- Go interface `Value`: anything with a `Len() int`. -/
class Value (V : Type) where
  Len : V → Int

/-- Go `len(s)` for a string: its number of bytes. -/
def len (s : String) : Int := (s.utf8ByteSize : Int)

/-- The payload `*entry` of a list element. -/
structure entry (V : Type) where
  key : String
  value : V

/-- The struct `Cache`.  `mem` holds every allocated list element, `next` is
the first address not yet allocated, `ll` is the recency list (front first),
`cache` the map from key to element.  `OnEvicted` tells whether the callback
is non-nil and `evicted` records the calls made to it, oldest first. -/
structure Cache (V : Type) where
  maxBytes : Int
  nbytes : Int
  mem : Nat → entry V
  next : Nat
  ll : List Nat
  cache : String → Option Nat
  OnEvicted : Bool
  evicted : List (String × V)

/-- The `list.List.MoveToFront`: moves `e` to the front when it is an element
of the list and does nothing otherwise. -/
def MoveToFront (l : List Nat) (e : Nat) : List Nat :=
  if e ∈ l then e :: l.erase e else l

/-- The `list.List.Remove`: unlinks `e` when it is an element of the list. -/
def Remove (l : List Nat) (e : Nat) : List Nat := l.erase e

/-- The `list.List.Back`: last element or nil. -/
def Back (l : List Nat) : Option Nat := l.getLast?

/-- The constructor `New`; the zero value of `V` fills unallocated memory. -/
def New {V : Type} [Inhabited V] (maxBytes : Int) (onEvicted : Bool) : Cache V :=
  { maxBytes := maxBytes
    nbytes := 0
    mem := fun _ => { key := "", value := default }
    next := 0
    ll := []
    cache := fun _ => none
    OnEvicted := onEvicted
    evicted := [] }

namespace Cache

variable {V : Type} [Value V]

/-- The method `RemoveOldest`. -/
def RemoveOldest (c : Cache V) : Cache V :=
  match Back c.ll with
  | some ele =>
    let kv := c.mem ele
    { c with
      ll := Remove c.ll ele
      cache := fun k => if k = kv.key then none else c.cache k
      nbytes := c.nbytes - (len kv.key + Value.Len kv.value)
      evicted := if c.OnEvicted then c.evicted ++ [(kv.key, kv.value)] else c.evicted }
  | none => c

/-- The body of `Add` before its eviction loop (the `if`/`else` on
`c.cache[key]`). -/
def insert (c : Cache V) (key : String) (value : V) : Cache V :=
  match c.cache key with
  | some ele =>
    let kv := c.mem ele
    { c with
      ll := MoveToFront c.ll ele
      nbytes := c.nbytes + (Value.Len value - Value.Len kv.value)
      mem := fun a => if a = ele then { key := kv.key, value := value } else c.mem a }
  | none =>
    let ele := c.next
    { c with
      mem := fun a => if a = ele then { key := key, value := value } else c.mem a
      next := c.next + 1
      ll := ele :: c.ll
      cache := fun k => if k = key then some ele else c.cache k
      nbytes := c.nbytes + (len key + Value.Len value) }

/-- The loop `for c.maxBytes != 0 && c.maxBytes < c.nbytes { c.RemoveOldest() }`
run for at most `fuel` iterations; `none` when the condition still holds
after them. -/
def evict : Nat → Cache V → Option (Cache V)
  | 0, c => if c.maxBytes ≠ 0 ∧ c.maxBytes < c.nbytes then none else some c
  | fuel + 1, c =>
    if c.maxBytes ≠ 0 ∧ c.maxBytes < c.nbytes then evict fuel c.RemoveOldest else some c

/-- The method `Add`.  The loop gets one unit of fuel per list element, which
is all it can use (`evict_fuel_complete`); `none` means `Add` does not return. -/
def Add (c : Cache V) (key : String) (value : V) : Option (Cache V) :=
  evict (c.insert key value).ll.length (c.insert key value)

/-- The method `Get`; the pair `(value, ok)` is an `Option`. -/
def Get (c : Cache V) (key : String) : Option V × Cache V :=
  match c.cache key with
  | some ele => (some (c.mem ele).value, { c with ll := MoveToFront c.ll ele })
  | none => (none, c)

/-- The method `Len`. -/
def Len (c : Cache V) : Int := (c.ll.length : Int)

/-- The entries of the recency list, front first, as `(key, value)` pairs. -/
def entries (c : Cache V) : List (String × V) :=
  c.ll.map fun e => ((c.mem e).key, (c.mem e).value)

/-- Bytes charged for the element at address `e` of the store `mem`. -/
def cost (mem : Nat → entry V) (e : Nat) : Int :=
  len (mem e).key + Value.Len (mem e).value

end Cache

/-- One call on a cache. -/
inductive Op (V : Type) where
  | add (key : String) (value : V)
  | get (key : String)
  | removeOldest

namespace Cache

variable {V : Type} [Value V]

/-- Effect of one call; `none` when the call does not return. -/
def step (c : Cache V) : Op V → Option (Cache V)
  | .add k v => c.Add k v
  | .get k => some (c.Get k).2
  | .removeOldest => some c.RemoveOldest

/-- Effect of a sequence of calls, left to right. -/
def run (c : Cache V) : List (Op V) → Option (Cache V)
  | [] => some c
  | op :: ops => (c.step op).bind fun c1 => run c1 ops

/-- Representation invariant of a cache. -/
structure WF (c : Cache V) : Prop where
  nodup : c.ll.Nodup
  alloc : ∀ e ∈ c.ll, e < c.next
  index : ∀ k e, c.cache k = some e ↔ e ∈ c.ll ∧ (c.mem e).key = k
  bytes : c.nbytes = (c.ll.map (cost c.mem)).sum

end Cache

end lru

namespace consistenthash

/-- Go type `Hash func(data []byte) uint32`.  The result of a call is
reduced modulo `2^32` where it is used, as a `uint32` is. -/
abbrev Hash := String → Nat

/-- One step of the bitwise CRC-32 (reflected polynomial `0xEDB88320`). -/
def crcStep (crc : Nat) : Nat :=
  if crc % 2 = 1 then (crc / 2) ^^^ 0xEDB88320 else crc / 2

/-- CRC-32 update with one byte. -/
def crcByte (crc : Nat) (b : UInt8) : Nat :=
  crcStep^[8] (crc ^^^ b.toNat)

/-- Library function `crc32.ChecksumIEEE`, the default hash of `New`. -/
def ChecksumIEEE : Hash := fun data =>
  (data.toUTF8.data.toList.foldl crcByte 0xFFFFFFFF) ^^^ 0xFFFFFFFF

/-- The struct `Map`: hash function, replica factor, ring positions and the
map from position to peer.  Positions are `int(uint32)` values with a 64-bit
`int`, hence naturals below `2^32`. -/
structure Map where
  hash : Hash
  replicas : Int
  keys : List Nat
  hashMap : Nat → Option String

/-- The constructor `New`; `fn = none` is a nil hash. -/
def New (replicas : Int) (fn : Option Hash) : Map :=
  { replicas := replicas
    hash := match fn with
      | some f => f
      | none => ChecksumIEEE
    keys := []
    hashMap := fun _ => none }

/-- Library function `strconv.Itoa` on a loop counter. -/
def Itoa (i : Nat) : String := toString i

/-- Library function `sort.Ints`: the ascending rearrangement. -/
def sortInts (l : List Nat) : List Nat := l.insertionSort (· ≤ ·)

/-- Body of the inner loop of `Add` for replica number `i` of peer `key`. -/
def addReplica (m : Map) (key : String) (i : Nat) : Map :=
  let hash := m.hash (Itoa i ++ key) % 4294967296
  { m with
    keys := m.keys ++ [hash]
    hashMap := fun h => if h = hash then some key else m.hashMap h }

/-- Inner loop of `Add`: `for i := 0; i < m.replicas; i++`. -/
def addKey (m : Map) (key : String) : Map :=
  (List.range m.replicas.toNat).foldl (fun m1 i => addReplica m1 key i) m

/-- The method `Add`. -/
def Add (m : Map) (keys : List String) : Map :=
  let m1 := keys.foldl addKey m
  { m1 with keys := sortInts m1.keys }

/-- Loop of the library function `sort.Search` on the interval `[i, j)`. -/
def searchLoop (f : Nat → Bool) : Nat → Nat → Nat → Nat
  | 0, i, _ => i
  | fuel + 1, i, j =>
    if i < j then
      let h := (i + j) / 2
      if !f h then searchLoop f fuel (h + 1) j else searchLoop f fuel i h
    else i

/-- Library function `sort.Search`: binary search on `[0, n)`.  The interval
shrinks in every iteration, so `n` iterations are enough. -/
def Search (n : Nat) (f : Nat → Bool) : Nat := searchLoop f n 0 n

/-- The method `Get`. -/
def Get (m : Map) (key : String) : String :=
  if m.keys.length = 0 then ""
  else
    let hash := m.hash key % 4294967296
    let idx := Search m.keys.length fun i => decide (hash ≤ m.keys.getD i 0)
    (m.hashMap (m.keys.getD (idx % m.keys.length) 0)).getD ""

/-- Ring obtained from `New(replicas, fn)` by a sequence of `Add` calls. -/
def ring (replicas : Int) (fn : Option Hash) (calls : List (List String)) : Map :=
  calls.foldl Add (New replicas fn)

/-- Ring positions one peer contributes on the map `m`:
`int(hash(Itoa(i) + peer))` for `i` in `[0, replicas)`. -/
def positions (m : Map) (peer : String) : List Nat :=
  (List.range m.replicas.toNat).map fun i => m.hash (Itoa i ++ peer) % 4294967296

/-- Smallest element of a list of positions. -/
def smallest : List Nat → Option Nat
  | [] => none
  | p :: ps => some (ps.foldl min p)

/-- Reference definition of `Get`, after the specification: the empty id on
an empty ring; otherwise the peer mapped to the smallest position that is at
least `hash(key)`, and the peer mapped to the smallest position of the ring
when there is none. -/
def GetRef (m : Map) (key : String) : String :=
  if m.keys = [] then ""
  else
    let h := m.hash key % 4294967296
    match smallest (m.keys.filter fun p => decide (h ≤ p)) with
    | some p => (m.hashMap p).getD ""
    | none =>
      match smallest m.keys with
      | some p => (m.hashMap p).getD ""
      | none => ""

/-- The position `x` is the one a clockwise lookup of `h` selects among
`keys`: the least position at or after `h`, or the least position of all when
every position lies before `h`. -/
def IsPick (keys : List Nat) (h x : Nat) : Prop :=
  x ∈ keys ∧
    ((h ≤ x ∧ ∀ y ∈ keys, h ≤ y → x ≤ y) ∨ ((∀ y ∈ keys, y < h) ∧ ∀ y ∈ keys, x ≤ y))

/-- Value of one decimal digit, `none` for any other character. -/
def digit (c : Char) : Option Nat :=
  if 48 ≤ c.toNat ∧ c.toNat ≤ 57 then some (c.toNat - 48) else none

/-- Value of a string of decimal digits, `none` when empty or when a
character is not a digit. -/
def digits : List Char → Option Nat
  | [] => none
  | cs => cs.foldl (fun acc c => acc.bind fun n => (digit c).map fun d => n * 10 + d) (some 0)

/-- Library function `strconv.Atoi` with the error dropped (`i, _ := ...`):
an optional sign and decimal digits, `0` on a syntax error, the nearest
`int64` when out of range. -/
def Atoi (s : String) : Int :=
  let signed : Option Int :=
    match s.toList with
    | '-' :: cs => (digits cs).map fun n => - (n : Int)
    | '+' :: cs => (digits cs).map fun n => (n : Int)
    | cs => (digits cs).map fun n => (n : Int)
  match signed with
  | none => 0
  | some n => max (-9223372036854775808) (min n 9223372036854775807)

/-- Hash function of `TestHashing`: `uint32(Atoi(string(key)))`. -/
def atoiHash : Hash := fun key => (Atoi key % 4294967296).toNat

end consistenthash

namespace singleflight

/-- The struct `call`: `wg` is the counter of its wait group, `val` and `err`
hold what `fn` returned (nil until then). -/
structure call (α : Type) where
  wg : Nat
  val : Option α
  err : Option String

/-- The struct `Group`; `m = none` is the nil map before the first `Do`.  The
mutex is not modelled: calls are sequential. -/
structure Group (α : Type) where
  m : Option (String → Option (call α))

/-- The entry `g.m[key]`; a nil map has none. -/
def Group.inflight {α : Type} (g : Group α) (key : String) : Option (call α) :=
  match g.m with
  | none => none
  | some m0 => m0 key

/-- The method `Do`, run by one goroutine while no other goroutine runs.
`fn` returns `(interface{}, error)` and may act on the outside world `W`.
With an entry for `key` in the map the caller waits on its wait group, which
returns at once when the counter is zero and never otherwise (`none`).  The
`time.Sleep` and the prints of the source leave no trace in the state. -/
def Group.Do {α W : Type} (g : Group α) (key : String)
    (fn : W → (Option α × Option String) × W) (w : W) :
    Option ((Option α × Option String) × Group α × W) :=
  let m : String → Option (call α) :=
    match g.m with
    | none => fun _ => none
    | some m0 => m0
  match m key with
  | some c => if c.wg = 0 then some ((c.val, c.err), { m := some m }, w) else none
  | none =>
    let m1 : String → Option (call α) :=
      fun k => if k = key then some { wg := 1, val := none, err := none } else m k
    let r := fn w
    some (r.1, { m := some fun k => if k = key then none else m1 k }, r.2)

end singleflight

namespace geecache

/-- The struct `ByteView`: an immutable view of bytes. -/
structure ByteView where
  b : List UInt8
deriving DecidableEq

/-- The zero value `ByteView{}`. -/
instance : Inhabited ByteView := ⟨{ b := [] }⟩

/-- The method `ByteView.Len`, which makes a `ByteView` an `lru.Value`. -/
instance : lru.Value ByteView := ⟨fun v => (v.b.length : Int)⟩

/-- The function `cloneBytes`: a copy with the same content. -/
def cloneBytes (b : List UInt8) : List UInt8 := b

/-- The struct `cache`: the LRU engine (nil until the first `add`) and its
byte budget.  The mutex is not modelled: calls are sequential. -/
structure cache where
  lru : Option (lru.Cache ByteView)
  cacheBytes : Int

/-- The method `cache.add`; `none` when `lru.Add` does not return. -/
def cache.add (c : cache) (key : String) (value : ByteView) : Option cache :=
  let l : lru.Cache ByteView :=
    match c.lru with
    | none => lru.New c.cacheBytes false
    | some l0 => l0
  (l.Add key value).map fun l1 => { c with lru := some l1 }

/-- The method `cache.get`. -/
def cache.get (c : cache) (key : String) : Option ByteView × cache :=
  match c.lru with
  | none => (none, c)
  | some l => ((l.Get key).1, { c with lru := some (l.Get key).2 })

/-- Go interface `Getter`: the origin loader.  It returns `([]byte, error)`
and may act on the outside world `W`. -/
abbrev Getter (W : Type) := String → W → (List UInt8 × Option String) × W

/-- Go interface `PeerGetter`: `Get(group, key)`. -/
structure PeerGetter (W : Type) where
  Get : String → String → W → (List UInt8 × Option String) × W

/-- Go interface `PeerPicker`: `PickPeer(key)` returns `(peer, ok)`. -/
structure PeerPicker (W : Type) where
  PickPeer : String → W → Option (PeerGetter W) × W

/-- The struct `Group`; `peers = none` is a nil picker. -/
structure Group (W : Type) where
  name : String
  getter : Getter W
  mainCache : cache
  peers : Option (PeerPicker W)
  loader : singleflight.Group ByteView

/-- Result of a `Group` method: the returned `(ByteView, error)`, the group
and the outside world afterwards; `none` when the call does not return. -/
abbrev Outcome (W : Type) := Option ((ByteView × Option String) × Group W × W)

/-- The function `NewGroup` (the group it returns). -/
def NewGroup {W : Type} (name : String) (cacheBytes : Int) (getter : Getter W) : Group W :=
  { name := name
    getter := getter
    mainCache := { lru := none, cacheBytes := cacheBytes }
    peers := none
    loader := { m := none } }

namespace Group

variable {W : Type}

/-- The method `populateCache`. -/
def populateCache (g : Group W) (key : String) (value : ByteView) : Option (Group W) :=
  (g.mainCache.add key value).map fun mc => { g with mainCache := mc }

/-- The method `getLocally`. -/
def getLocally (g : Group W) (key : String) (w : W) : Outcome W :=
  match g.getter key w with
  | ((_, some err), w1) => some (({ b := [] }, some err), g, w1)
  | ((bytes, none), w1) =>
    let value : ByteView := { b := cloneBytes bytes }
    (g.populateCache key value).map fun g1 => ((value, none), g1, w1)

/-- The method `getFromPeer`. -/
def getFromPeer (g : Group W) (peer : PeerGetter W) (key : String) (w : W) :
    (ByteView × Option String) × W :=
  match peer.Get g.name key w with
  | ((_, some err), w1) => (({ b := [] }, some err), w1)
  | ((bytes, none), w1) => (({ b := bytes }, none), w1)

/-- The method `load`, up to its `return g.getLocally(key)`; the statements
after that return are never executed. -/
def load (g : Group W) (key : String) (w : W) : Outcome W :=
  match g.peers with
  | some peers =>
    match peers.PickPeer key w with
    | (some peer, w1) =>
      match g.getFromPeer peer key w1 with
      | ((value, none), w2) => some ((value, none), g, w2)
      | ((_, some _), w2) => g.getLocally key w2
    | (none, w1) => g.getLocally key w1
  | none => g.getLocally key w

/-- The method `Get`. -/
def Get (g : Group W) (key : String) (w : W) : Outcome W :=
  if key = "" then some (({ b := [] }, some "key is required"), g, w)
  else
    match g.mainCache.get key with
    | (some v, mc) => some ((v, none), { g with mainCache := mc }, w)
    | (none, mc) => load { g with mainCache := mc } key w

end Group

/-- Invariant of the `cache` wrapper: an engine, once created, is well formed
and carries the budget of the wrapper. -/
def cache.WF (c : cache) : Prop :=
  ∀ l, c.lru = some l → l.WF ∧ l.maxBytes = c.cacheBytes

/-- The map `db` of `main.go`. -/
def db : List (String × String) := [("Tom", "630"), ("Jack", "589"), ("Sam", "567")]

/-- Conversion `[]byte(s)`. -/
def bytesOf (s : String) : List UInt8 := s.toUTF8.data.toList

/-- The getter of `createGroup`; the outside world is the log, to which
`log.Println("[SlowDB] search key", key)` appends a line. -/
def dbGetter : Getter (List String) := fun key log =>
  match db.lookup key with
  | some v => ((bytesOf v, none), log ++ ["[SlowDB] search key " ++ key])
  | none => (([], some (key ++ " not exist")), log ++ ["[SlowDB] search key " ++ key])

/-- The function `createGroup` of `main.go`; `2<<10` is `2048`. -/
def createGroup : Group (List String) := NewGroup "scores" 2048 dbGetter

/-- A peer used as a running example: it answers every request with the
bytes of "630" and leaves a line in the log. -/
def samplePeer : PeerGetter (List String) :=
  { Get := fun group key log => ((bytesOf "630", none), log ++ ["peer " ++ group ++ "/" ++ key]) }

/-- A picker used as a running example: key "Tom" belongs to `samplePeer`,
every other key to the local node. -/
def samplePicker : PeerPicker (List String) :=
  { PickPeer := fun key log => if key = "Tom" then (some samplePeer, log) else (none, log) }

/-- The group of `createGroup` with `samplePicker` registered. -/
def sampleGroup : Group (List String) := { createGroup with peers := some samplePicker }

end geecache

namespace lru

/-- Two calls used as a running example: `Add("a", 3 bytes)` and
`Add("bb", 4 bytes)`. -/
def sampleOps : List (Op geecache.ByteView) :=
  [.add "a" { b := [1, 2, 3] }, .add "bb" { b := [1, 2, 3, 4] }]

/-- The cache with budget 10 after `sampleOps`: entries `bb`, `a`, 10 bytes. -/
def sample : Cache geecache.ByteView :=
  ((New 10 false).insert "a" { b := [1, 2, 3] }).insert "bb" { b := [1, 2, 3, 4] }

end lru

namespace geecache

/-- The method `ByteView.ByteSlice`: a copy of the bytes. -/
def ByteView.ByteSlice (v : ByteView) : List UInt8 := cloneBytes v.b

namespace Group

variable {W : Type}

/-- The method `RegisterPeers`; `peers = none` is a nil picker and `.error`
a panic with its message. -/
def RegisterPeers (g : Group W) (peers : Option (PeerPicker W)) : Except String (Group W) :=
  match g.peers with
  | some _ => .error "RegisterPeerPicker called more than once"
  | none => .ok { g with peers := peers }

/-- The peer stage of `load` does not serve `key`: no picker is registered,
or `PickPeer` is not ok, or the picked peer's `Get` fails.  `w1` is the
outside world after that stage. -/
def notServedByPeer (g : Group W) (key : String) (w w1 : W) : Prop :=
  (g.peers = none ∧ w1 = w) ∨
  (∃ picker, g.peers = some picker ∧ picker.PickPeer key w = (none, w1)) ∨
  (∃ picker peer w0 bytes err, g.peers = some picker ∧
    picker.PickPeer key w = (some peer, w0) ∧ peer.Get g.name key w0 = ((bytes, some err), w1))

end Group

/-- Where a goroutine stands inside `Group.Get(key)`.  Between two of these
points it runs one section that other goroutines cannot split: the cache
lookup (under the cache mutex), the peer and origin calls of `load`, and the
cache update of `populateCache` (under the cache mutex). -/
inductive Caller where
  | start (key : String)
  | missed (key : String)
  | loaded (key : String) (value : ByteView)
  | returned (value : ByteView) (err : Option String)
deriving DecidableEq

namespace Group

variable {W : Type}

/-- The origin call of `getLocally` made by a goroutine that missed. -/
def advanceOrigin (g : Group W) (key : String) (w : W) : Option (Caller × Group W × W) :=
  match g.getter key w with
  | ((_, some err), w1) => some (.returned { b := [] } (some err), g, w1)
  | ((bytes, none), w1) => some (.loaded key { b := cloneBytes bytes }, g, w1)

/-- One section of `Group.Get` run by a goroutine standing at `c`, on the
shared group and outside world; `none` when the section does not return. -/
def advance (g : Group W) (w : W) : Caller → Option (Caller × Group W × W)
  | .start key =>
    if key = "" then some (.returned { b := [] } (some "key is required"), g, w)
    else
      match g.mainCache.get key with
      | (some v, mc) => some (.returned v none, { g with mainCache := mc }, w)
      | (none, mc) => some (.missed key, { g with mainCache := mc }, w)
  | .missed key =>
    match g.peers with
    | some peers =>
      match peers.PickPeer key w with
      | (some peer, w1) =>
        match g.getFromPeer peer key w1 with
        | ((value, none), w2) => some (.returned value none, g, w2)
        | ((_, some _), w2) => g.advanceOrigin key w2
      | (none, w1) => g.advanceOrigin key w1
    | none => g.advanceOrigin key w
  | .loaded key value =>
    (g.populateCache key value).map fun g1 => (.returned value none, g1, w)
  | .returned value err => some (.returned value err, g, w)

/-- A run of several goroutines inside `Group.Get` on one group: `schedule`
names, step by step, the goroutine that runs its next section. -/
def interleave (g : Group W) (w : W) (callers : List Caller) :
    List Nat → Option (List Caller × Group W × W)
  | [] => some (callers, g, w)
  | i :: schedule =>
    match callers.get? i with
    | none => interleave g w callers schedule
    | some c =>
      match g.advance w c with
      | none => none
      | some (c1, g1, w1) => interleave g1 w1 (callers.set i c1) schedule

end Group

/-- The constant `defaultBasePath`. -/
def defaultBasePath : String := "/_geecache/"

/-- The constant `defaultReplicas`. -/
def defaultReplicas : Int := 50

/-- The struct `httpGetter`. -/
structure httpGetter where
  baseURL : String
deriving DecidableEq

/-- The struct `HTTPPool`; `peers = none` is a nil ring and a key without
entry in `httpGetters` yields a nil getter.  The mutex is not modelled. -/
structure HTTPPool where
  self : String
  basePath : String
  peers : Option consistenthash.Map
  httpGetters : String → Option httpGetter

/-- The function `NewHTTPPool`. -/
def NewHTTPPool (self : String) : HTTPPool :=
  { self := self
    basePath := defaultBasePath
    peers := none
    httpGetters := fun _ => none }

namespace HTTPPool

/-- The method `Set`. -/
def Set (p : HTTPPool) (peers : List String) : HTTPPool :=
  { p with
    peers := some (consistenthash.Add (consistenthash.New defaultReplicas none) peers)
    httpGetters := peers.foldl
      (fun hg peer => fun k => if k = peer then some { baseURL := peer ++ p.basePath } else hg k)
      (fun _ => none) }

/-- The method `PickPeer`, returning `(peer, ok)`.  With a nil ring the call
`p.peers.Get(key)` reads a field through a nil pointer and panics (`.error`). -/
def PickPeer (p : HTTPPool) (key : String) : Except String (Option httpGetter × Bool) :=
  match p.peers with
  | none => .error "invalid memory address or nil pointer dereference"
  | some m =>
    if consistenthash.Get m key ≠ "" ∧ consistenthash.Get m key ≠ p.self then
      .ok (p.httpGetters (consistenthash.Get m key), true)
    else .ok (none, false)

end HTTPPool

/-- The package variable `groups`: group name to group. -/
abbrev Groups (W : Type) := String → Option (Group W)

/-- The function `GetGroup`. -/
def GetGroup {W : Type} (groups : Groups W) (name : String) : Option (Group W) := groups name

/-- What a handler wrote to the `http.ResponseWriter`. -/
structure Response where
  status : Nat
  contentType : String
  body : List UInt8
deriving DecidableEq

/-- Library function `http.Error`. -/
def httpError (msg : String) (code : Nat) : Response :=
  { status := code
    contentType := "text/plain; charset=utf-8"
    body := bytesOf (msg ++ "\n") }

/-- Library function `strings.SplitN(s, "/", 2)`: `none` when the result has
one part (no slash in `s`), else the parts before and after the first slash. -/
def splitSlash : List Char → Option (List Char × List Char)
  | [] => none
  | c :: cs =>
    if c = '/' then some ([], cs)
    else (splitSlash cs).map fun parts => (c :: parts.1, parts.2)

/-- Outcome of `ServeHTTP`: a panic, a call that does not return, or a
response together with the groups and the outside world afterwards. -/
inductive Served (W : Type) where
  | panic (msg : String)
  | hang
  | response (r : Response) (groups : Groups W) (w : W)

/-- The method `HTTPPool.ServeHTTP` on a request for `path` (`r.URL.Path`). -/
def HTTPPool.ServeHTTP {W : Type} (p : HTTPPool) (groups : Groups W) (path : String) (w : W) :
    Served W :=
  if ¬ (p.basePath.toList.isPrefixOf path.toList = true) then
    .panic ("HTTPPool serving unexpected path: " ++ path)
  else
    match splitSlash (path.toList.drop p.basePath.length) with
    | none => .response (httpError "bad request" 400) groups w
    | some (groupName, key) =>
      match GetGroup groups (String.mk groupName) with
      | none => .response (httpError ("no such group: " ++ String.mk groupName) 404) groups w
      | some group =>
        match group.Get (String.mk key) w with
        | none => .hang
        | some ((_, some err), g1, w1) =>
          .response (httpError err 500)
            (fun n => if n = String.mk groupName then some g1 else groups n) w1
        | some ((view, none), g1, w1) =>
          .response { status := 200, contentType := "application/octet-stream",
                      body := view.ByteSlice }
            (fun n => if n = String.mk groupName then some g1 else groups n) w1

/-- The groups after `createGroup` of `main.go`: only "scores". -/
def sampleGroups : Groups (List String) :=
  fun n => if n = "scores" then some createGroup else none

end geecache

namespace geerpc

/-- The variable `ErrShutdown`, an error being its message. -/
def ErrShutdown : String := "connection is shut down"

/-- The struct `Call`, without its argument, reply and channel. -/
structure Call where
  Seq : Nat
  ServiceMethod : String
  Error : Option String
deriving DecidableEq

/-- The struct `Client`, without its codec, option and header; `seq` is a
`uint64` and `pending` a map from sequence number to call.  The mutexes are
not modelled: each method runs as one step. -/
structure Client where
  seq : Nat
  pending : Nat → Option Call
  closing : Bool
  shutdown : Bool

/-- The function `newClientCodec` (the client it returns). -/
def newClientCodec : Client :=
  { seq := 1
    pending := fun _ => none
    closing := false
    shutdown := false }

namespace Client

/-- The method `Close`; `ccClose` is what `client.cc.Close()` returns. -/
def Close (client : Client) (ccClose : Option String) : Option String × Client :=
  if client.closing then (some ErrShutdown, client)
  else (ccClose, { client with closing := true })

/-- The method `IsAvailable`. -/
def IsAvailable (client : Client) : Bool := !client.shutdown && !client.closing

/-- The method `registerCall`: the returned `(seq, err)`, the call as the
method left it, and the client afterwards.  `client.seq++` wraps at `2^64`. -/
def registerCall (client : Client) (call : Call) : (Nat × Option String) × Call × Client :=
  if client.closing || client.shutdown then ((0, some ErrShutdown), call, client)
  else
    ((client.seq, none), { call with Seq := client.seq },
      { client with
        pending := fun s => if s = client.seq then some { call with Seq := client.seq }
          else client.pending s
        seq := (client.seq + 1) % 18446744073709551616 })

/-- The method `removeCall`. -/
def removeCall (client : Client) (seq : Nat) : Option Call × Client :=
  (client.pending seq,
    { client with pending := fun s => if s = seq then none else client.pending s })

/-- The method `terminateCalls`, up to the sends on the channels. -/
def terminateCalls (client : Client) (err : String) : Client :=
  { client with
    shutdown := true
    pending := fun s => (client.pending s).map fun call => { call with Error := some err } }

end Client

/-- One call of a method that touches the sequence number or the pending
map of a client. -/
inductive ClientOp where
  | register (call : Call)
  | remove (seq : Nat)
  | close (ccClose : Option String)
  | terminate (err : String)

namespace Client

/-- Effect of one call: the client afterwards and, for a `registerCall` that
succeeded, the sequence number it returned. -/
def step (client : Client) : ClientOp → Client × Option Nat
  | .register call =>
    match client.registerCall call with
    | ((seq, none), _, c1) => (c1, some seq)
    | ((_, some _), _, c1) => (c1, none)
  | .remove seq => ((client.removeCall seq).2, none)
  | .close ccClose => ((client.Close ccClose).2, none)
  | .terminate err => (client.terminateCalls err, none)

/-- Effect of a sequence of calls: the client afterwards and the sequence
numbers returned by the successful `registerCall`s, in order. -/
def run (client : Client) : List ClientOp → Client × List Nat
  | [] => (client, [])
  | op :: ops =>
    match (client.step op).2 with
    | some seq => ((run (client.step op).1 ops).1, seq :: (run (client.step op).1 ops).2)
    | none => run (client.step op).1 ops

end Client

end geerpc

/-!
# GeeRPC: server dispatch, dialing, registry and discovery

A shallow embedding of `geerpc/server.go` (`findService`, `ServeConn`,
`serveCodec`, `handleRequest`), `geerpc/client.go` (`NewClient`,
`NewHTTPClient`, `XDial`), `geerpc/registry/registry.go` and
`geerpc/xclient/discovery.go`, `discovery_gee.go`, and two more definitions
about the eviction loop of `lru.Cache.Add`.

Further conventions.

* Library functions on strings with a one-byte separator (`strings.Split`,
  `strings.LastIndex`) work on the list of characters of the string: cutting
  a string at an ASCII character gives the same pieces as cutting it at the
  byte offset of that character.
* A `time.Time` and a `time.Duration` are integers (nanoseconds).
* What a function writes to a connection is recorded in a list of events.
-/

namespace lru

/-- A value type used as an example: Go `type Size int` with
`func (s Size) Len() int { return int(s) }`.  Its `Len()` is the integer it
holds, of either sign. -/
structure Size where
  n : Int
  deriving DecidableEq, Inhabited

instance : Value Size := ⟨fun s => s.n⟩

/-- A cache of `Size` values with budget 10 after `Add("a", Size(-100))`: one
entry, charged `1 + (-100) = -99` bytes. -/
def signedSample : Cache Size := (New 10 false).insert "a" { n := -100 }

namespace Cache

variable {V : Type} [Value V]

/-- Number of `RemoveOldest` calls the loop of `Add` makes, with the fuel of
`evict`; `none` when the loop condition still holds after `fuel` calls. -/
def evictCalls : Nat → Cache V → Option Nat
  | 0, c => if c.maxBytes ≠ 0 ∧ c.maxBytes < c.nbytes then none else some 0
  | fuel + 1, c =>
    if c.maxBytes ≠ 0 ∧ c.maxBytes < c.nbytes then
      (evictCalls fuel c.RemoveOldest).map (· + 1)
    else some 0

end Cache

end lru

namespace strings

/-- Library function `strings.LastIndex(s, sep)` for a one-character `sep`:
the index of the last `sep` in `s`, scanning from the end, or `-1`. -/
def LastIndex (s : List Char) (sep : Char) : Int :=
  if sep ∈ s then ((s.length - 1 - s.reverse.indexOf sep : Nat) : Int) else -1

/-- Pieces of a list of characters between the occurrences of `sep`. -/
def splitChars (sep : Char) : List Char → List (List Char)
  | [] => [[]]
  | c :: cs =>
    if c = sep then [] :: splitChars sep cs
    else
      match splitChars sep cs with
      | [] => [[c]]
      | p :: ps => (c :: p) :: ps

/-- Library function `strings.Split(s, sep)` for a one-character `sep`: the
substrings between the occurrences of `sep`, one more than there are
occurrences. -/
def Split (s : String) (sep : Char) : List String :=
  (splitChars sep s.toList).map String.mk

/-- Library function `strings.Join(elems, sep)`. -/
def Join : List String → String → String
  | [], _ => ""
  | [a], _ => a
  | a :: b :: rest, sep => a ++ sep ++ Join (b :: rest) sep

/-- Library function `unicode.IsSpace`: the white space characters that
`strings.TrimSpace` removes. -/
def isSpace (c : Char) : Bool :=
  c = '\t' || c = '\n' || c = Char.ofNat 0x0B || c = Char.ofNat 0x0C || c = '\r' || c = ' ' ||
  c = Char.ofNat 0x85 || c = Char.ofNat 0xA0 || c = Char.ofNat 0x1680 ||
  (0x2000 ≤ c.toNat && c.toNat ≤ 0x200A) || c = Char.ofNat 0x2028 || c = Char.ofNat 0x2029 ||
  c = Char.ofNat 0x202F || c = Char.ofNat 0x205F || c = Char.ofNat 0x3000

/-- Library function `strings.TrimSpace`: `s` without its leading and
trailing white space. -/
def TrimSpace (s : String) : String :=
  String.mk ((s.toList.dropWhile isSpace).reverse.dropWhile isSpace).reverse

end strings

namespace geerpc

namespace codec

/-- The struct `Header` of a request or response frame. -/
structure Header where
  ServiceMethod : String
  Seq : Nat
  Error : String
  deriving DecidableEq, Inhabited

/-- The codec types `GobType` and `JsonType`. -/
def GobType : String := "application/gob"

def JsonType : String := "application/json"

/-- A codec made by one of the constructors of `NewCodecFuncMap`. -/
inductive Codec where
  | GobCodec
  deriving DecidableEq

/-- The map `NewCodecFuncMap` after `init`: only `GobType` has a
constructor. -/
def NewCodecFuncMap (t : String) : Option Codec :=
  if t = GobType then some .GobCodec else none

end codec

/-- The constant `MagicNumber`. -/
def MagicNumber : Int := 0x3bef5c

/-- The duration `time.Second`, in nanoseconds. -/
def Second : Int := 1000000000

/-- The struct `Option` of `server.go` (named `RPCOption` here, Lean has an
`Option` of its own): what client and server agree on for a connection. -/
structure RPCOption where
  MagicNumber : Int
  CodecType : String
  ConnectTimeout : Int
  HandleTimeout : Int
  deriving DecidableEq

/-- The variable `DefaultOption`; it sets no `HandleTimeout`. -/
def DefaultOption : RPCOption :=
  { MagicNumber := MagicNumber
    CodecType := codec.GobType
    ConnectTimeout := Second * 10
    HandleTimeout := 0 }

/-- The struct `methodType`: the descriptor of a registered method, that is
its name and the types of its two arguments. -/
structure methodType where
  method : String
  ArgType : String
  ReplyType : String
  deriving DecidableEq

/-- The struct `service`: a registered receiver and its methods by name. -/
structure service where
  name : String
  method : String → Option methodType

/-- The struct `Server`: the map from service name to service. -/
structure Server where
  serviceMap : String → Option service

/-- The method `findService`, with its three results `(svc, mtype, err)`. -/
def Server.findService (server : Server) (serviceMethod : String) :
    Option service × Option methodType × Option String :=
  let dot := strings.LastIndex serviceMethod.toList '.'
  if dot < 0 then
    (none, none, some ("rpc server: service/method request ill-formed: " ++ serviceMethod))
  else
    let serviceName := String.mk (serviceMethod.toList.take dot.toNat)
    let methodName := String.mk (serviceMethod.toList.drop (dot.toNat + 1))
    match server.serviceMap serviceName with
    | none => (none, none, some ("rpc server: can't find service " ++ serviceName))
    | some svc =>
      match svc.method methodName with
      | none => (some svc, none, some ("rpc server: can't find method " ++ methodName))
      | some mtype => (some svc, some mtype, none)

/-- The service `Foo` of `main.go`, with its methods `Sum` and `Sleep`. -/
def Foo : service :=
  { name := "Foo"
    method := fun m =>
      if m = "Sum" then some { method := "Sum", ArgType := "Args", ReplyType := "*int" }
      else if m = "Sleep" then some { method := "Sleep", ArgType := "Args", ReplyType := "*int" }
      else none }

/-- A server on which `Foo` is registered. -/
def sampleServer : Server := { serviceMap := fun n => if n = "Foo" then some Foo else none }

/-- The watchdog that `serveCodec` starts for a request: how long it waits
and the error it reports. -/
structure Watchdog where
  timeout : Int
  message : String
  deriving DecidableEq

/-- The part of `serveCodec` that sets up the watchdog of a request:
`timeout := time.Second * 2`, and the error text
`fmt.Sprintf("rpc server: request handle timeout: expect within %s", timeout)`,
in which a duration of two seconds prints as `2s`. -/
def Server.serveCodec (_server : Server) (_cc : codec.Codec) : Watchdog :=
  { timeout := Second * 2
    message := "rpc server: request handle timeout: expect within 2s" }

/-- The method `ServeConn`.  `decoded` is what decoding the option frame of
the connection gives.  The result is `none` when `ServeConn` returns without
serving, and otherwise the codec it hands to `serveCodec` with the watchdog
`serveCodec` uses for the requests of the connection. -/
def Server.ServeConn (server : Server) (decoded : Except String RPCOption) :
    Option (codec.Codec × Watchdog) :=
  match decoded with
  | .error _ => none
  | .ok opt =>
    if opt.MagicNumber ≠ MagicNumber then none
    else
      match codec.NewCodecFuncMap opt.CodecType with
      | none => none
      | some cc => some (cc, server.serveCodec cc)

/-- The body of a response frame: the placeholder `invalidRequest` or the
reply value. -/
inductive Body where
  | invalidRequest
  | reply (replyv : String)
  deriving DecidableEq

/-- One request in flight in `serveCodec`: the header `req.h` that
`handleRequest` and the watchdog share, whether the channel `cn` is closed,
and the frames written to the connection so far, oldest first. -/
structure Dispatch where
  h : codec.Header
  cn : Bool
  written : List (codec.Header × Body)
  deriving DecidableEq

/-- The request as `serveCodec` has read it, before any goroutine ran. -/
def Dispatch.start (h : codec.Header) : Dispatch := { h := h, cn := false, written := [] }

/-- The method `sendResponse`: writes the frame `(h, body)`. -/
def Dispatch.sendResponse (d : Dispatch) (body : Body) : Dispatch :=
  { d with written := d.written ++ [(d.h, body)] }

/-- The method `handleRequest` from the return of `req.svc.call` on: `err` is
what the call returned and `replyv` the reply it filled in.  The deferred
function closes `cn`. -/
def Dispatch.handleRequest (d : Dispatch) (err : Option String) (replyv : String) : Dispatch :=
  match err with
  | some e =>
    { Dispatch.sendResponse { d with h := { d.h with Error := e } } .invalidRequest with
      cn := true }
  | none => { d.sendResponse (.reply replyv) with cn := true }

/-- The watchdog goroutine of `serveCodec`, a `select` on the timer and on
`cn`.  `fired` tells that the timer branch is taken; the other branch can be
taken once `cn` is closed; `none` when the goroutine is still blocked. -/
def Dispatch.watchdog (d : Dispatch) (w : Watchdog) (fired : Bool) : Option Dispatch :=
  if fired then
    some (Dispatch.sendResponse { d with h := { d.h with Error := w.message } } .invalidRequest)
  else if d.cn then some d
  else none

/-- The constants `connected` and `defaultRPCPath`. -/
def connected : String := "200 Connected to Gee RPC"

def defaultRPCPath : String := "/_geeprc_"

/-- What happens on a `net.Conn`, in order. -/
inductive ConnEvent where
  | write (s : String)
  | readResponse
  | close
  deriving DecidableEq

/-- The function `NewClient`.  `encode` stands for `json.Encoder.Encode` on
the option; `conn` is the events on the connection so far. -/
def NewClient (encode : RPCOption → Except String String) (conn : List ConnEvent)
    (opt : RPCOption) : List ConnEvent × Except String Client :=
  match codec.NewCodecFuncMap opt.CodecType with
  | none => (conn, .error ("invalid codec type " ++ opt.CodecType))
  | some _ =>
    match encode opt with
    | .error err => (conn ++ [.close], .error err)
    | .ok frame => (conn ++ [.write frame], .ok newClientCodec)

/-- The function `NewHTTPClient`.  `resp` is what `http.ReadResponse` gives:
an error or the status of the response. -/
def NewHTTPClient (encode : RPCOption → Except String String) (conn : List ConnEvent)
    (resp : Except String String) (opt : RPCOption) : List ConnEvent × Except String Client :=
  let conn1 := conn ++ [.write ("CONNECT " ++ defaultRPCPath ++ " HTTP/1.0\n\n")]
  let conn2 := conn1 ++ [.readResponse]
  match resp with
  | .ok status =>
    if status = connected then NewClient encode conn2 opt
    else (conn2, .error ("unexpected HTTP response: " ++ status))
  | .error err => (conn2, .error err)

/-- The call `XDial` ends with: `DialHTTP(network, address, opts...)` or
`Dial(network, address, opts...)`. -/
inductive Dialed where
  | DialHTTP (network address : String) (opts : List RPCOption)
  | Dial (network address : String) (opts : List RPCOption)
  deriving DecidableEq

/-- The function `XDial`: the dial call it makes, or the error it returns
without dialing. -/
def XDial (rpcAddr : String) (opts : List RPCOption) : Except String Dialed :=
  let parts := strings.Split rpcAddr '@'
  if parts.length ≠ 2 then
    .error ("rpc client err: wrong format '" ++ rpcAddr ++ "', expect protocol@addr")
  else
    let protocol := parts.getD 0 ""
    let addr := parts.getD 1 ""
    if protocol = "http" then .ok (.DialHTTP "tcp" addr opts)
    else .ok (.Dial protocol addr opts)

namespace registry

/-- The struct `ServerItem`. -/
structure ServerItem where
  Addr : String
  start : Int
  deriving DecidableEq

/-- The struct `GeeRegistry`.  The map `servers` is the list of its values;
the key of an item is its `Addr`, as `putServer` stores it. -/
structure GeeRegistry where
  timeout : Int
  servers : List ServerItem
  deriving DecidableEq

/-- The constructor `New`. -/
def New (timeout : Int) : GeeRegistry := { timeout := timeout, servers := [] }

/-- Library function `sort.Strings`: ascending in the order `<` of Go strings,
which compares byte by byte, as the order of the lists of characters does. -/
def sortStrings (l : List String) : List String :=
  l.insertionSort fun a b => a.toList ≤ b.toList

/-- The method `putServer`, called at time `now`. -/
def GeeRegistry.putServer (r : GeeRegistry) (addr : String) (now : Int) : GeeRegistry :=
  if r.servers.any (fun s => s.Addr = addr) then
    { r with servers := r.servers.map fun s => if s.Addr = addr then { s with start := now } else s }
  else { r with servers := r.servers ++ [{ Addr := addr, start := now }] }

/-- The method `aliveServers`, called at time `now`: the addresses it returns
and the registry afterwards. -/
def GeeRegistry.aliveServers (r : GeeRegistry) (now : Int) : List String × GeeRegistry :=
  let alive := r.servers.filter fun s => r.timeout = 0 ∨ now < s.start + r.timeout
  (sortStrings (alive.map fun s => s.Addr), { r with servers := alive })

/-- One call on a registry, with the time of the call. -/
inductive Op where
  | putServer (addr : String) (now : Int)
  | aliveServers (now : Int)

/-- Effect of one call. -/
def GeeRegistry.step (r : GeeRegistry) : Op → GeeRegistry
  | .putServer addr now => r.putServer addr now
  | .aliveServers now => (r.aliveServers now).2

/-- The registry made by `New(timeout)` after a sequence of calls. -/
def GeeRegistry.run (timeout : Int) (ops : List Op) : GeeRegistry :=
  ops.foldl GeeRegistry.step (New timeout)

/-- No two items of a registry have the same address: the items are the
values of a map keyed by address. -/
def GeeRegistry.WF (r : GeeRegistry) : Prop := (r.servers.map ServerItem.Addr).Nodup

/-- The value of the header `X-Geerpc-Servers` that `ServeHTTP` sets for a
`GET`. -/
def GeeRegistry.serversHeader (r : GeeRegistry) (now : Int) : String :=
  strings.Join (r.aliveServers now).1 ","

end registry

namespace xclient

/-- The type `SelectMode` and its constants. -/
abbrev SelectMode := Int

def RandomSelect : SelectMode := 0

def RoundRobinSelect : SelectMode := 1

/-- The struct `MultiServersDiscovery`: the server list and the cursor
`index` of the round robin. -/
structure MultiServersDiscovery where
  servers : List String
  index : Int
  deriving DecidableEq

/-- The element `servers[i]` of a slice; `none` is an index out of range. -/
def at? (servers : List String) (i : Int) : Option String :=
  if i < 0 then none else servers.get? i.toNat

/-- The method `Get`.  `rnd` is the number the random source draws, so that
`d.r.Intn(n)` is `rnd % n`.  The result is the pair `(server, err)` with the
discovery afterwards, or `.error` for a run-time panic. -/
def MultiServersDiscovery.Get (d : MultiServersDiscovery) (mode : SelectMode) (rnd : Nat) :
    Except String ((String × Option String) × MultiServersDiscovery) :=
  let n : Int := d.servers.length
  if n = 0 then .ok (("", some "rpc discovery: no available servers"), d)
  else if mode = RandomSelect then
    match at? d.servers ((rnd : Int) % n) with
    | some s => .ok ((s, none), d)
    | none => .error "index out of range"
  else if mode = RoundRobinSelect then
    match at? d.servers (Int.tmod d.index n) with
    | some s => .ok ((s, none), { d with index := Int.tmod (d.index + 1) n })
    | none => .error "index out of range"
  else .ok (("", some "rpc discovery: not supported select mode"), d)

/-- The servers returned by `k` consecutive calls `Get(RoundRobinSelect)`,
with the discovery afterwards. -/
def MultiServersDiscovery.rounds (d : MultiServersDiscovery) :
    Nat → Except String (List String × MultiServersDiscovery)
  | 0 => .ok ([], d)
  | k + 1 =>
    match d.Get RoundRobinSelect 0 with
    | .error e => .error e
    | .ok ((s, _), d1) =>
      match rounds d1 k with
      | .error e => .error e
      | .ok (l, d2) => .ok (s :: l, d2)

/-- The loop of `GeeRegistryDiscovery.Refresh` on the value of the header
`X-Geerpc-Servers`: the new server list. -/
def parseServers (header : String) : List String :=
  (strings.Split header ',').filterMap fun server =>
    if strings.TrimSpace server ≠ "" then some (strings.TrimSpace server) else none

end xclient

end geerpc

/-!
# The byte counter of the LRU engine as an `int64`

The field `nbytes` of `lru.Cache` is an `int64`, and the sums and differences
that `Add` and `RemoveOldest` store in it wrap around.  The definitions below
are these two methods with every sum reduced as the machine reduces it.  They
agree with `lru.Cache.Add` and `lru.Cache.RemoveOldest` as long as the lengths
are non-negative and the count stays below `2^63` (`Add64_eq_Add`).
-/

namespace lru

/-- Conversion to `int64`, which is also the result of an `int64` sum or
difference: the integer in `[-2^63, 2^63)` that differs from `x` by a multiple
of `2^64`. -/
def int64 (x : Int) : Int :=
  (x + 9223372036854775808) % 18446744073709551616 - 9223372036854775808

namespace Cache

variable {V : Type} [Value V]

/-- The method `RemoveOldest`, with
`c.nbytes -= int64(len(kv.key)) + int64(kv.value.Len())` in `int64`
arithmetic. -/
def RemoveOldest64 (c : Cache V) : Cache V :=
  match Back c.ll with
  | some ele =>
    let kv := c.mem ele
    { c with
      ll := Remove c.ll ele
      cache := fun k => if k = kv.key then none else c.cache k
      nbytes := int64 (c.nbytes - int64 (int64 (len kv.key) + int64 (Value.Len kv.value)))
      evicted := if c.OnEvicted then c.evicted ++ [(kv.key, kv.value)] else c.evicted }
  | none => c

/-- The body of `Add` before its eviction loop, with
`c.nbytes += int64(value.Len()) - int64(kv.value.Len())` and
`c.nbytes += int64(len(key)) + int64(value.Len())` in `int64` arithmetic. -/
def insert64 (c : Cache V) (key : String) (value : V) : Cache V :=
  match c.cache key with
  | some ele =>
    let kv := c.mem ele
    { c with
      ll := MoveToFront c.ll ele
      nbytes := int64 (c.nbytes + int64 (int64 (Value.Len value) - int64 (Value.Len kv.value)))
      mem := fun a => if a = ele then { key := kv.key, value := value } else c.mem a }
  | none =>
    let ele := c.next
    { c with
      mem := fun a => if a = ele then { key := key, value := value } else c.mem a
      next := c.next + 1
      ll := ele :: c.ll
      cache := fun k => if k = key then some ele else c.cache k
      nbytes := int64 (c.nbytes + int64 (int64 (len key) + int64 (Value.Len value))) }

/-- The loop `for c.maxBytes != 0 && c.maxBytes < c.nbytes { c.RemoveOldest() }`
on the `int64` counter, run for at most `fuel` iterations; `none` when the
condition still holds after them. -/
def evict64 : Nat → Cache V → Option (Cache V)
  | 0, c => if c.maxBytes ≠ 0 ∧ c.maxBytes < c.nbytes then none else some c
  | fuel + 1, c =>
    if c.maxBytes ≠ 0 ∧ c.maxBytes < c.nbytes then evict64 fuel c.RemoveOldest64 else some c

/-- Number of `RemoveOldest` calls the loop on the `int64` counter makes;
`none` when the loop condition still holds after `fuel` calls. -/
def evictCalls64 : Nat → Cache V → Option Nat
  | 0, c => if c.maxBytes ≠ 0 ∧ c.maxBytes < c.nbytes then none else some 0
  | fuel + 1, c =>
    if c.maxBytes ≠ 0 ∧ c.maxBytes < c.nbytes then
      (evictCalls64 fuel c.RemoveOldest64).map (· + 1)
    else some 0

/-- The method `Add` on the `int64` counter.  The loop gets one unit of fuel
per list element, which is all a loop that ends can use
(`evict64_fuel_complete`); `none` means `Add` does not return. -/
def Add64 (c : Cache V) (key : String) (value : V) : Option (Cache V) :=
  evict64 (c.insert64 key value).ll.length (c.insert64 key value)

end Cache

end lru

namespace lru

theorem MoveToFront_perm (l : List Nat) (e : Nat) : (MoveToFront l e).Perm l := by
  unfold MoveToFront
  split
  · exact (List.perm_cons_erase ‹e ∈ l›).symm
  · exact List.Perm.refl l

theorem mem_MoveToFront {l : List Nat} {e a : Nat} : a ∈ MoveToFront l e ↔ a ∈ l :=
  (MoveToFront_perm l e).mem_iff

theorem MoveToFront_of_mem {l : List Nat} {e : Nat} (h : e ∈ l) :
    MoveToFront l e = e :: l.erase e := by
  simp [MoveToFront, h]

theorem Back_mem {l : List Nat} {e : Nat} (h : Back l = some e) : e ∈ l :=
  List.mem_of_getLast?_eq_some h

theorem Back_eq_none {l : List Nat} : Back l = none ↔ l = [] := by
  simp [Back]

namespace Cache

variable {V : Type} [Value V]

/-- Sum of the charges over a list of addresses when one element is
rewritten: only that element's charge changes. -/
theorem sum_cost_update {l : List Nat} (hnd : l.Nodup) {e : Nat} (he : e ∈ l)
    (f g : Nat → Int) (hfg : ∀ a, a ≠ e → g a = f a) :
    (l.map g).sum = (l.map f).sum + (g e - f e) := by
  have hp := List.perm_cons_erase he
  have h1 : (l.map g).sum = g e + ((l.erase e).map g).sum := by
    rw [(hp.map g).sum_eq]; simp
  have h2 : (l.map f).sum = f e + ((l.erase e).map f).sum := by
    rw [(hp.map f).sum_eq]; simp
  have h3 : (l.erase e).map g = (l.erase e).map f := by
    apply List.map_congr_left
    intro a ha
    exact hfg a (fun h => (hnd.not_mem_erase) (h ▸ ha))
  rw [h1, h2, h3]; ring

theorem WF_New [Inhabited V] (maxBytes : Int) (cb : Bool) : (New maxBytes cb : Cache V).WF where
  nodup := List.nodup_nil
  alloc := by simp [New]
  index := by simp [New]
  bytes := by simp [New]

theorem WF_RemoveOldest {c : Cache V} (h : c.WF) : c.RemoveOldest.WF := by
  unfold RemoveOldest
  cases hb : Back c.ll with
  | none => simpa using h
  | some ele =>
    have hmem : ele ∈ c.ll := Back_mem hb
    refine ⟨?_, ?_, ?_, ?_⟩
    · exact h.nodup.erase ele
    · intro e he
      exact h.alloc e (List.mem_of_mem_erase he)
    · intro k e
      simp only [Remove, h.nodup.mem_erase_iff]
      by_cases hk : k = (c.mem ele).key
      · subst hk
        simp only [if_true]
        constructor
        · intro hh; cases hh
        · rintro ⟨⟨hne, hin⟩, hkey⟩
          have h1 := (h.index _ e).2 ⟨hin, hkey⟩
          have h2 := (h.index _ ele).2 ⟨hmem, rfl⟩
          rw [h1] at h2
          exact absurd (Option.some.inj h2) hne
      · simp only [hk, if_false]
        rw [h.index]
        constructor
        · rintro ⟨hin, hkey⟩
          refine ⟨⟨?_, hin⟩, hkey⟩
          rintro rfl
          exact hk hkey.symm
        · rintro ⟨⟨_, hin⟩, hkey⟩
          exact ⟨hin, hkey⟩
    · show c.nbytes - _ = ((c.ll.erase ele).map (cost c.mem)).sum
      have hp := List.perm_cons_erase hmem
      have : (c.ll.map (cost c.mem)).sum
          = cost c.mem ele + ((c.ll.erase ele).map (cost c.mem)).sum := by
        rw [(hp.map (cost c.mem)).sum_eq]; simp
      rw [h.bytes, this]
      simp only [cost]
      omega

theorem WF_Get {c : Cache V} (h : c.WF) (key : String) : (c.Get key).2.WF := by
  unfold Get
  cases hc : c.cache key with
  | none => simpa using h
  | some ele =>
    refine ⟨?_, ?_, ?_, ?_⟩
    · exact (MoveToFront_perm c.ll ele).nodup_iff.2 h.nodup
    · intro e he
      exact h.alloc e (mem_MoveToFront.1 he)
    · intro k e
      show c.cache k = some e ↔ e ∈ MoveToFront c.ll ele ∧ (c.mem e).key = k
      rw [mem_MoveToFront]
      exact h.index k e
    · show c.nbytes = ((MoveToFront c.ll ele).map (cost c.mem)).sum
      rw [((MoveToFront_perm c.ll ele).map (cost c.mem)).sum_eq]
      exact h.bytes

theorem WF_insert {c : Cache V} (h : c.WF) (key : String) (value : V) :
    (c.insert key value).WF := by
  unfold insert
  cases hc : c.cache key with
  | some ele =>
    have hmem : ele ∈ c.ll := ((h.index key ele).1 hc).1
    have hkey : ∀ a, (if a = ele then ({ key := (c.mem ele).key, value := value } : entry V)
        else c.mem a).key = (c.mem a).key := by
      intro a
      by_cases ha : a = ele
      · simp [ha]
      · simp [ha]
    refine ⟨?_, ?_, ?_, ?_⟩
    · exact (MoveToFront_perm c.ll ele).nodup_iff.2 h.nodup
    · intro e he
      exact h.alloc e (mem_MoveToFront.1 he)
    · intro k e
      show c.cache k = some e ↔ e ∈ MoveToFront c.ll ele ∧ _ = k
      rw [mem_MoveToFront, hkey]
      exact h.index k e
    · show c.nbytes + (Value.Len value - Value.Len (c.mem ele).value)
          = ((MoveToFront c.ll ele).map (cost _)).sum
      rw [((MoveToFront_perm c.ll ele).map (cost _)).sum_eq]
      rw [sum_cost_update h.nodup hmem (cost c.mem) (cost _) ?_, h.bytes]
      · simp [cost]
      · intro a ha
        simp [cost, ha]
  | none =>
    have hfresh : c.next ∉ c.ll := fun hin => Nat.lt_irrefl _ (h.alloc _ hin)
    refine ⟨?_, ?_, ?_, ?_⟩
    · exact List.nodup_cons.2 ⟨hfresh, h.nodup⟩
    · intro e he
      rcases List.mem_cons.1 he with rfl | he
      · exact Nat.lt_succ_self _
      · exact Nat.lt_succ_of_lt (h.alloc e he)
    · intro k e
      show (if k = key then some c.next else c.cache k) = some e
        ↔ e ∈ c.next :: c.ll ∧ (if e = c.next then ({ key := key, value := value } : entry V)
            else c.mem e).key = k
      by_cases he : e = c.next
      · subst he
        by_cases hk : k = key
        · simp [hk]
        · have : c.cache k ≠ some c.next := fun hh => hfresh ((h.index k _).1 hh).1
          simp [hk, this]
          exact fun hh => hk hh.symm
      · have hne : c.next ≠ e := fun hh => he hh.symm
        by_cases hk : k = key
        · subst hk
          simp only [if_true, he, if_false, List.mem_cons, false_or]
          constructor
          · intro hh
            exact absurd (Option.some.inj hh) hne
          · intro hh
            have := (h.index k e).2 hh
            rw [hc] at this
            cases this
        · simp only [hk, if_false, he, List.mem_cons, false_or]
          exact h.index k e
    · show c.nbytes + (len key + Value.Len value) = ((c.next :: c.ll).map (cost _)).sum
      have hmap : c.ll.map (cost fun a => if a = c.next then ({ key := key, value := value } : entry V)
          else c.mem a) = c.ll.map (cost c.mem) := by
        apply List.map_congr_left
        intro a ha
        have : a ≠ c.next := fun hh => hfresh (hh ▸ ha)
        simp [cost, this]
      rw [List.map_cons, List.sum_cons, hmap, ← h.bytes]
      simp [cost]
      ring

theorem maxBytes_RemoveOldest (c : Cache V) : c.RemoveOldest.maxBytes = c.maxBytes := by
  unfold RemoveOldest
  cases Back c.ll <;> rfl

theorem maxBytes_insert (c : Cache V) (key : String) (value : V) :
    (c.insert key value).maxBytes = c.maxBytes := by
  unfold insert
  cases c.cache key <;> rfl

omit [Value V] in
theorem maxBytes_Get (c : Cache V) (key : String) : (c.Get key).2.maxBytes = c.maxBytes := by
  unfold Get
  cases c.cache key <;> rfl

/-- What a finished eviction loop leaves: the invariant, the budget, and the
exit condition of the loop. -/
theorem evict_some {n : Nat} {c c1 : Cache V} (h : evict n c = some c1) :
    c1.maxBytes = c.maxBytes ∧ ¬ (c1.maxBytes ≠ 0 ∧ c1.maxBytes < c1.nbytes) ∧ (c.WF → c1.WF) := by
  induction n generalizing c with
  | zero =>
    unfold evict at h
    split at h
    · cases h
    · cases h
      exact ⟨rfl, ‹_›, id⟩
  | succ n ih =>
    unfold evict at h
    split at h
    · obtain ⟨h1, h2, h3⟩ := ih h
      exact ⟨h1.trans (maxBytes_RemoveOldest c), h2, fun hw => h3 (WF_RemoveOldest hw)⟩
    · cases h
      exact ⟨rfl, ‹_›, id⟩

theorem RemoveOldest_nil {c : Cache V} (h : c.ll = []) : c.RemoveOldest = c := by
  unfold RemoveOldest
  rw [Back_eq_none.2 h]

theorem length_RemoveOldest {c : Cache V} (h : c.ll ≠ []) :
    c.RemoveOldest.ll.length + 1 = c.ll.length := by
  unfold RemoveOldest
  cases hb : Back c.ll with
  | none => exact absurd (Back_eq_none.1 hb) h
  | some ele =>
    show (c.ll.erase ele).length + 1 = c.ll.length
    rw [List.length_erase_of_mem (Back_mem hb)]
    have : 0 < c.ll.length := List.length_pos.2 h
    omega

/-- More fuel does not change the outcome of a loop that finished. -/
theorem evict_fuel_mono {n : Nat} {c c1 : Cache V} (h : evict n c = some c1) (m : Nat) :
    evict (n + m) c = some c1 := by
  induction n generalizing c with
  | zero =>
    unfold evict at h
    split at h
    · cases h
    · cases h
      cases m with
      | zero => simp [evict, *]
      | succ m => simp only [Nat.zero_add]; unfold evict; simp [*]
  | succ n ih =>
    rw [Nat.succ_add]
    unfold evict at h ⊢
    split at h
    · rw [if_pos ‹_›]; exact ih h
    · rw [if_neg ‹_›]; exact h

/-- The fuel `Add` gives the loop is enough: whenever the loop finishes with
some amount of fuel, it finishes in the same state with one unit per element
of the list. -/
theorem evict_fuel_complete {n : Nat} {c c1 : Cache V} (h : evict n c = some c1) :
    evict c.ll.length c = some c1 := by
  induction n generalizing c with
  | zero =>
    have := evict_fuel_mono h c.ll.length
    simpa using this
  | succ n ih =>
    unfold evict at h
    split at h
    · rename_i hcond
      have h1 := ih h
      by_cases hl : c.ll = []
      · rw [RemoveOldest_nil hl] at h1
        exact h1
      · rw [← length_RemoveOldest hl]
        unfold evict
        rw [if_pos hcond]
        exact h1
    · rename_i hcond
      cases h
      cases c1.ll.length with
      | zero => unfold evict; rw [if_neg hcond]
      | succ k => unfold evict; rw [if_neg hcond]

/-- A loop whose condition holds on an empty list never finishes. -/
theorem evict_diverges {c : Cache V} (hl : c.ll = [])
    (hcond : c.maxBytes ≠ 0 ∧ c.maxBytes < c.nbytes) (n : Nat) : evict n c = none := by
  induction n with
  | zero => unfold evict; rw [if_pos hcond]
  | succ n ih => unfold evict; rw [if_pos hcond, RemoveOldest_nil hl]; exact ih

theorem WF_Add {c c1 : Cache V} (h : c.WF) {key : String} {value : V}
    (hadd : c.Add key value = some c1) : c1.WF :=
  (evict_some hadd).2.2 (WF_insert h key value)

theorem maxBytes_Add {c c1 : Cache V} {key : String} {value : V}
    (hadd : c.Add key value = some c1) : c1.maxBytes = c.maxBytes :=
  (evict_some hadd).1.trans (maxBytes_insert c key value)

theorem step_some {c c1 : Cache V} {op : Op V} (h : c.step op = some c1) :
    c1.maxBytes = c.maxBytes ∧ (c.WF → c1.WF) := by
  cases op with
  | add k v => exact ⟨maxBytes_Add h, fun hw => WF_Add hw h⟩
  | get k =>
    cases h
    exact ⟨maxBytes_Get c k, fun hw => WF_Get hw k⟩
  | removeOldest =>
    cases h
    exact ⟨maxBytes_RemoveOldest c, WF_RemoveOldest⟩

theorem run_some {ops : List (Op V)} {c c1 : Cache V} (h : c.run ops = some c1) :
    c1.maxBytes = c.maxBytes ∧ (c.WF → c1.WF) := by
  induction ops generalizing c with
  | nil =>
    cases h
    exact ⟨rfl, id⟩
  | cons op ops ih =>
    unfold run at h
    cases hs : c.step op with
    | none => rw [hs] at h; cases h
    | some c2 =>
      rw [hs] at h
      obtain ⟨h1, h2⟩ := ih h
      obtain ⟨h3, h4⟩ := step_some hs
      exact ⟨h1.trans h3, fun hw => h2 (h4 hw)⟩

/-- With a non-negative budget the eviction loop finishes on a well-formed
cache: at the latest the emptied list has zero bytes. -/
theorem evict_total {c : Cache V} (h : c.WF) (hmax : 0 ≤ c.maxBytes) :
    ∃ c1, evict c.ll.length c = some c1 := by
  generalize hn : c.ll.length = n
  induction n generalizing c with
  | zero =>
    have hl : c.ll = [] := List.length_eq_zero.1 hn
    have hb : c.nbytes = 0 := by rw [h.bytes, hl]; rfl
    refine ⟨c, ?_⟩
    unfold evict
    rw [if_neg]
    rintro ⟨_, hlt⟩
    omega
  | succ n ih =>
    unfold evict
    by_cases hcond : c.maxBytes ≠ 0 ∧ c.maxBytes < c.nbytes
    · rw [if_pos hcond]
      have hl : c.ll ≠ [] := by
        intro hl
        rw [hl] at hn
        cases hn
      have hlen := length_RemoveOldest hl
      exact ih (WF_RemoveOldest h) (by rw [maxBytes_RemoveOldest]; exact hmax) (by omega)
    · rw [if_neg hcond]
      exact ⟨c, rfl⟩

theorem cache_of_mem_entries {c : Cache V} (h : c.WF) {key : String} {v : V}
    (hin : (key, v) ∈ c.entries) :
    ∃ ele, c.cache key = some ele ∧ ele ∈ c.ll ∧ (c.mem ele).value = v := by
  obtain ⟨e, he, heq⟩ := List.mem_map.1 hin
  have hk : (c.mem e).key = key := congrArg Prod.fst heq
  have hv : (c.mem e).value = v := congrArg Prod.snd heq
  exact ⟨e, (h.index key e).2 ⟨he, hk⟩, he, hv⟩

theorem mem_entries_of_cache {c : Cache V} (h : c.WF) {key : String} {ele : Nat}
    (hc : c.cache key = some ele) : (key, (c.mem ele).value) ∈ c.entries := by
  obtain ⟨hin, hk⟩ := (h.index key ele).1 hc
  exact List.mem_map.2 ⟨ele, hin, by rw [hk]⟩

theorem cache_isSome_iff {c : Cache V} (h : c.WF) (key : String) :
    (c.cache key).isSome ↔ key ∈ c.entries.map Prod.fst := by
  constructor
  · intro hs
    obtain ⟨ele, hc⟩ := Option.isSome_iff_exists.1 hs
    exact List.mem_map.2 ⟨_, mem_entries_of_cache h hc, rfl⟩
  · intro hin
    obtain ⟨⟨k, v⟩, hkv, hk⟩ := List.mem_map.1 hin
    obtain ⟨ele, hc, _, _⟩ := cache_of_mem_entries h hkv
    have hk' : k = key := hk
    rw [← hk', hc]
    rfl

theorem cache_none_of_not_mem {c : Cache V} (h : c.WF) {key : String}
    (hnot : key ∉ c.entries.map Prod.fst) : c.cache key = none := by
  cases hc : c.cache key with
  | none => rfl
  | some ele =>
    exact absurd ((cache_isSome_iff h key).1 (by rw [hc]; rfl)) hnot

/-- Removing the element of `key` from the list is dropping the entry of
`key` from the entries, for any store that agrees with `c.mem` off `ele`. -/
theorem entries_erase {c : Cache V} (h : c.WF) {key : String} {ele : Nat}
    (hc : c.cache key = some ele) (mem1 : Nat → entry V)
    (hmem : ∀ a, a ≠ ele → mem1 a = c.mem a) :
    (c.ll.erase ele).map (fun e => ((mem1 e).key, (mem1 e).value))
      = c.entries.filter fun kv => decide (kv.1 ≠ key) := by
  unfold entries
  rw [h.nodup.erase_eq_filter, List.filter_map]
  have hele := (h.index key ele).1 hc
  have hf : c.ll.filter ((fun kv : String × V => decide (kv.1 ≠ key)) ∘
      fun e => ((c.mem e).key, (c.mem e).value)) = c.ll.filter (· != ele) := by
    apply List.filter_congr
    intro e he
    have hiff : (c.mem e).key = key ↔ e = ele := by
      constructor
      · intro hk
        have h1 := (h.index key e).2 ⟨he, hk⟩
        rw [hc] at h1
        exact (Option.some.inj h1).symm
      · rintro rfl
        exact hele.2
    by_cases hk : (c.mem e).key = key
    · simp [hiff.1 hk, hele.2]
    · have : e ≠ ele := fun hh => hk (hiff.2 hh)
      simp [hk, this]
  rw [hf]
  apply List.map_congr_left
  intro a ha
  have hne : a ≠ ele := by simpa using (List.mem_filter.1 ha).2
  rw [hmem a hne]

theorem entries_insert_present {c : Cache V} (h : c.WF) {key : String} {ele : Nat}
    (hc : c.cache key = some ele) (value : V) :
    (c.insert key value).entries
      = (key, value) :: c.entries.filter fun kv => decide (kv.1 ≠ key) := by
  have hele := (h.index key ele).1 hc
  have hins : c.insert key value = { c with
      ll := MoveToFront c.ll ele
      nbytes := c.nbytes + (Value.Len value - Value.Len (c.mem ele).value)
      mem := fun a => if a = ele then { key := (c.mem ele).key, value := value } else c.mem a } := by
    unfold insert
    rw [hc]
  rw [hins]
  unfold entries
  simp only []
  rw [MoveToFront_of_mem hele.1, List.map_cons]
  congr 1
  · simp [hele.2]
  · exact entries_erase h hc _ (fun a ha => by simp [ha])

theorem entries_Get_hit {c : Cache V} (h : c.WF) {key : String} {ele : Nat}
    (hc : c.cache key = some ele) :
    (c.Get key).2.entries
      = (key, (c.mem ele).value) :: c.entries.filter fun kv => decide (kv.1 ≠ key) := by
  have hele := (h.index key ele).1 hc
  have hget : c.Get key = (some (c.mem ele).value, { c with ll := MoveToFront c.ll ele }) := by
    unfold Get
    rw [hc]
  rw [hget]
  unfold entries
  simp only []
  rw [MoveToFront_of_mem hele.1, List.map_cons]
  congr 1
  · simp [hele.2]
  · exact entries_erase h hc _ (fun a _ => rfl)

theorem sum_entries (c : Cache V) :
    (c.entries.map fun kv => len kv.1 + Value.Len kv.2).sum = (c.ll.map (cost c.mem)).sum := by
  unfold entries
  rw [List.map_map]
  rfl

theorem keys_nodup {c : Cache V} (h : c.WF) : (c.entries.map Prod.fst).Nodup := by
  unfold entries
  rw [List.map_map]
  apply List.Nodup.map_on _ h.nodup
  intro x hx y hy hxy
  have h1 := (h.index (c.mem x).key x).2 ⟨hx, rfl⟩
  have h2 := (h.index (c.mem x).key y).2 ⟨hy, hxy.symm⟩
  rw [h1] at h2
  exact Option.some.inj h2

end Cache

/-- C3 (LRU budget).  In every state reached from `New` with a budget
`maxBytes ≠ 0` by `Add`, `Get` and `RemoveOldest` calls, an `Add` that returns
leaves `nbytes ≤ maxBytes`; and with a positive budget every `Add` returns. -/
theorem lru_budget {V : Type} [Value V] [Inhabited V] (maxBytes : Int) (onEvicted : Bool)
    (ops : List (Op V)) (c : Cache V) (key : String) (value : V)
    (hmax : maxBytes ≠ 0) (hrun : (New maxBytes onEvicted).run ops = some c) :
    (∀ c1, c.Add key value = some c1 → c1.maxBytes = maxBytes ∧ c1.nbytes ≤ c1.maxBytes) ∧
    (0 < maxBytes → ∃ c1, c.Add key value = some c1) := by
  obtain ⟨hmb, hwf⟩ := Cache.run_some hrun
  have hmb : c.maxBytes = maxBytes := hmb
  have hwf : c.WF := hwf (Cache.WF_New maxBytes onEvicted)
  constructor
  · intro c1 hadd
    obtain ⟨h1, h2, _⟩ := Cache.evict_some hadd
    have h3 : c1.maxBytes = maxBytes := by
      rw [h1, Cache.maxBytes_insert, hmb]
    refine ⟨h3, ?_⟩
    by_contra hlt
    exact h2 ⟨by rw [h3]; exact hmax, not_le.1 hlt⟩
  · intro hpos
    apply Cache.evict_total (Cache.WF_insert hwf key value)
    rw [Cache.maxBytes_insert, hmb]
    exact le_of_lt hpos

/-- Instance of C3: the sample cache is full with 10 bytes; adding `c` with
2 bytes evicts `a` and leaves 9 bytes. -/
theorem lru_budget_witness :
    ((sample.insert "c" { b := [1, 2] }).RemoveOldest.nbytes = 9 ∧
      (sample.insert "c" { b := [1, 2] }).RemoveOldest.nbytes ≤ 10) ∧
    ∃ c1, sample.Add "c" { b := [1, 2] } = some c1 :=
  ⟨⟨by decide,
    ((lru_budget 10 false sampleOps sample "c" { b := [1, 2] } (by decide)
      (by with_unfolding_all rfl)).1
      (sample.insert "c" { b := [1, 2] }).RemoveOldest (by with_unfolding_all rfl)).2⟩,
   (lru_budget 10 false sampleOps sample "c" { b := [1, 2] } (by decide)
      (by with_unfolding_all rfl)).2 (by decide)⟩

/-- C4 (LRU accounting invariant).  In every state reached from `New` by
`Add`, `Get` and `RemoveOldest`: `nbytes` is the sum of `len(key) + value.Len()`
over the entries of the list; the map has a key exactly when the list has an
entry for it, and then points to that list element; no key and no element
occurs twice; and `Len()` is the number of entries, which is the number of
keys of the map. -/
theorem lru_accounting {V : Type} [Value V] [Inhabited V] (maxBytes : Int) (onEvicted : Bool)
    (ops : List (Op V)) (c : Cache V)
    (hrun : (New maxBytes onEvicted).run ops = some c) :
    c.nbytes = (c.entries.map fun kv => len kv.1 + Value.Len kv.2).sum ∧
    (∀ k, (c.cache k).isSome ↔ k ∈ c.entries.map Prod.fst) ∧
    (∀ k e, c.cache k = some e ↔ e ∈ c.ll ∧ (c.mem e).key = k) ∧
    (c.entries.map Prod.fst).Nodup ∧
    c.ll.Nodup ∧
    c.Len = (c.entries.length : Int) ∧
    ∃ s : Finset String, (∀ k, k ∈ s ↔ (c.cache k).isSome) ∧ (s.card : Int) = c.Len := by
  have hwf : c.WF := (Cache.run_some hrun).2 (Cache.WF_New maxBytes onEvicted)
  refine ⟨?_, Cache.cache_isSome_iff hwf, hwf.index, Cache.keys_nodup hwf, hwf.nodup, ?_, ?_⟩
  · rw [Cache.sum_entries]
    exact hwf.bytes
  · simp [Cache.Len, Cache.entries]
  · refine ⟨(c.entries.map Prod.fst).toFinset, ?_, ?_⟩
    · intro k
      rw [List.mem_toFinset]
      exact (Cache.cache_isSome_iff hwf k).symm
    · rw [List.toFinset_card_of_nodup (Cache.keys_nodup hwf)]
      simp [Cache.Len, Cache.entries]

/-- Instance of C4 on the sample cache. -/
theorem lru_accounting_witness :
    sample.nbytes = 10 ∧ sample.entries = [("bb", { b := [1, 2, 3, 4] }), ("a", { b := [1, 2, 3] })] ∧
    sample.nbytes = (sample.entries.map fun kv => len kv.1 + Value.Len kv.2).sum :=
  ⟨by decide, by decide, (lru_accounting 10 false sampleOps sample (by with_unfolding_all rfl)).1⟩

/-- C9 (`Add` before eviction).  On a well-formed cache, the part of `Add`
that precedes the eviction loop does this.  Key present with stored value
`old`: the entry of the key, now holding the new value, is the front of the
list, the other entries follow in their former order, `nbytes` changes by
`value.Len() - old.Len()`, the number of entries and the map are unchanged.
Key absent: a new entry is pushed to the front, the former entries follow
unchanged, `nbytes` grows by `len(key) + value.Len()`. -/
theorem Add_before_eviction {V : Type} [Value V] (c : Cache V) (h : c.WF)
    (key : String) (value : V) :
    (∀ old, (key, old) ∈ c.entries →
      (c.insert key value).entries
        = (key, value) :: c.entries.filter (fun kv => decide (kv.1 ≠ key)) ∧
      (c.insert key value).nbytes = c.nbytes + (Value.Len value - Value.Len old) ∧
      (c.insert key value).Len = c.Len ∧
      (c.insert key value).cache = c.cache ∧
      ∃ ele, c.cache key = some ele ∧ (c.insert key value).ll = ele :: c.ll.erase ele) ∧
    (key ∉ c.entries.map Prod.fst →
      (c.insert key value).entries = (key, value) :: c.entries ∧
      (c.insert key value).nbytes = c.nbytes + (len key + Value.Len value) ∧
      (c.insert key value).Len = c.Len + 1 ∧
      (c.insert key value).cache key = some c.next ∧
      (c.insert key value).ll = c.next :: c.ll) ∧
    c.Add key value = Cache.evict (c.insert key value).ll.length (c.insert key value) := by
  refine ⟨?_, ?_, rfl⟩
  · intro old hold
    obtain ⟨ele, hc, hin, hv⟩ := Cache.cache_of_mem_entries h hold
    have hins : c.insert key value = { c with
        ll := MoveToFront c.ll ele
        nbytes := c.nbytes + (Value.Len value - Value.Len (c.mem ele).value)
        mem := fun a => if a = ele then { key := (c.mem ele).key, value := value }
          else c.mem a } := by
      unfold Cache.insert
      rw [hc]
    refine ⟨Cache.entries_insert_present h hc value, ?_, ?_, ?_, ele, hc, ?_⟩
    · rw [hins, hv]
    · rw [hins]
      show ((MoveToFront c.ll ele).length : Int) = (c.ll.length : Int)
      rw [(MoveToFront_perm c.ll ele).length_eq]
    · rw [hins]
    · rw [hins]
      exact MoveToFront_of_mem hin
  · intro hnot
    have hc := Cache.cache_none_of_not_mem h hnot
    have hins : c.insert key value = { c with
        mem := fun a => if a = c.next then { key := key, value := value } else c.mem a
        next := c.next + 1
        ll := c.next :: c.ll
        cache := fun k => if k = key then some c.next else c.cache k
        nbytes := c.nbytes + (len key + Value.Len value) } := by
      unfold Cache.insert
      rw [hc]
    rw [hins]
    refine ⟨?_, rfl, ?_, ?_, rfl⟩
    · unfold Cache.entries
      simp only [List.map_cons, if_true]
      congr 1
      apply List.map_congr_left
      intro a ha
      have : a ≠ c.next := fun hh => Nat.lt_irrefl _ (hh ▸ h.alloc a ha)
      simp [this]
    · simp [Cache.Len]
    · simp

/-- Instance of C9 on the sample cache: re-adding `a` with one byte moves it
in front of `bb` and takes two bytes off the count. -/
theorem Add_before_eviction_witness :
    (sample.insert "a" { b := [7] }).entries
      = [("a", { b := [7] }), ("bb", { b := [1, 2, 3, 4] })] ∧
    (sample.insert "a" { b := [7] }).nbytes = 8 :=
  ⟨by decide,
   by
    have h := ((Add_before_eviction sample
      (Cache.WF_insert (Cache.WF_insert (Cache.WF_New 10 false) _ _) _ _)
      "a" { b := [7] }).1 { b := [1, 2, 3] } (by decide)).2.1
    rw [h]
    decide⟩

/-- C10 (`Get`).  On a well-formed cache: on a hit, `Get` returns the stored
value with `ok = true`, the entry of the key becomes the front of the list,
the other entries keep their order, and `nbytes`, the map and the stored
elements are unchanged; on a miss it returns `ok = false` and the cache is
unchanged. -/
theorem Get_hit_and_miss {V : Type} [Value V] (c : Cache V) (h : c.WF) (key : String) :
    (∀ v, (key, v) ∈ c.entries →
      (c.Get key).1 = some v ∧
      (c.Get key).2.entries = (key, v) :: c.entries.filter (fun kv => decide (kv.1 ≠ key)) ∧
      (c.Get key).2.nbytes = c.nbytes ∧
      (c.Get key).2.cache = c.cache ∧
      (c.Get key).2.mem = c.mem ∧
      (c.Get key).2.Len = c.Len) ∧
    (key ∉ c.entries.map Prod.fst → c.Get key = (none, c)) := by
  constructor
  · intro v hv
    obtain ⟨ele, hc, hin, hval⟩ := Cache.cache_of_mem_entries h hv
    have hget : c.Get key = (some (c.mem ele).value, { c with ll := MoveToFront c.ll ele }) := by
      unfold Cache.Get
      rw [hc]
    refine ⟨?_, ?_, ?_, ?_, ?_, ?_⟩
    · rw [hget, hval]
    · rw [Cache.entries_Get_hit h hc, hval]
    · rw [hget]
    · rw [hget]
    · rw [hget]
    · rw [hget]
      show ((MoveToFront c.ll ele).length : Int) = (c.ll.length : Int)
      rw [(MoveToFront_perm c.ll ele).length_eq]
  · intro hnot
    unfold Cache.Get
    rw [Cache.cache_none_of_not_mem h hnot]

/-- Instance of C10 on the sample cache: `Get("a")` returns its three bytes
and moves `a` in front of `bb`; `Get("zz")` misses. -/
theorem Get_hit_and_miss_witness :
    (sample.Get "a").1 = some { b := [1, 2, 3] } ∧
    (sample.Get "a").2.entries = [("a", { b := [1, 2, 3] }), ("bb", { b := [1, 2, 3, 4] })] ∧
    sample.Get "zz" = (none, sample) :=
  ⟨((Get_hit_and_miss sample
      (Cache.WF_insert (Cache.WF_insert (Cache.WF_New 10 false) _ _) _ _) "a").1
      { b := [1, 2, 3] } (by decide)).1,
   by decide,
   (Get_hit_and_miss sample
      (Cache.WF_insert (Cache.WF_insert (Cache.WF_New 10 false) _ _) _ _) "zz").2 (by decide)⟩

end lru

namespace consistenthash

/-- Binary search on a monotone predicate: with enough fuel the loop on
`[i, j)` returns the boundary between the `false` and the `true` part. -/
theorem searchLoop_spec (f : Nat → Bool) (n : Nat)
    (hmono : ∀ a b, a ≤ b → b < n → f a = true → f b = true) :
    ∀ fuel i j, i ≤ j → j ≤ n → j - i ≤ fuel →
      (∀ k, k < i → f k = false) → (∀ k, j ≤ k → k < n → f k = true) →
      i ≤ searchLoop f fuel i j ∧ searchLoop f fuel i j ≤ j ∧
      (∀ k, k < searchLoop f fuel i j → f k = false) ∧
      (∀ k, searchLoop f fuel i j ≤ k → k < n → f k = true) := by
  intro fuel
  induction fuel with
  | zero =>
    intro i j hij hjn hfuel hlo hhi
    have : i = j := by omega
    subst this
    exact ⟨le_refl _, le_refl _, hlo, hhi⟩
  | succ fuel ih =>
    intro i j hij hjn hfuel hlo hhi
    unfold searchLoop
    by_cases hlt : i < j
    · rw [if_pos hlt]
      have hh1 : i ≤ (i + j) / 2 := by omega
      have hh2 : (i + j) / 2 < j := by omega
      simp only []
      cases hf : f ((i + j) / 2) with
      | false =>
        simp only [Bool.not_false, if_true]
        have hlo1 : ∀ k, k < (i + j) / 2 + 1 → f k = false := by
          intro k hk
          cases hfk : f k with
          | false => rfl
          | true =>
            have := hmono k ((i + j) / 2) (by omega) (by omega) hfk
            rw [hf] at this
            cases this
        obtain ⟨h1, h2, h3, h4⟩ := ih ((i + j) / 2 + 1) j (by omega) hjn (by omega) hlo1 hhi
        exact ⟨by omega, h2, h3, h4⟩
      | true =>
        simp only [Bool.not_true, Bool.false_eq_true, if_false]
        have hhi1 : ∀ k, (i + j) / 2 ≤ k → k < n → f k = true := by
          intro k hk hkn
          exact hmono ((i + j) / 2) k hk hkn hf
        obtain ⟨h1, h2, h3, h4⟩ := ih i ((i + j) / 2) hh1 (by omega) (by omega) hlo hhi1
        exact ⟨h1, by omega, h3, h4⟩
    · rw [if_neg hlt]
      have : i = j := by omega
      subst this
      exact ⟨le_refl _, le_refl _, hlo, hhi⟩

/-- The library contract of `sort.Search` on a monotone predicate. -/
theorem Search_spec (f : Nat → Bool) (n : Nat)
    (hmono : ∀ a b, a ≤ b → b < n → f a = true → f b = true) :
    Search n f ≤ n ∧ (∀ k, k < Search n f → f k = false) ∧
    (∀ k, Search n f ≤ k → k < n → f k = true) := by
  obtain ⟨_, h2, h3, h4⟩ := searchLoop_spec f n hmono n 0 n (Nat.zero_le _) (le_refl _)
    (by omega) (fun k hk => absurd hk (Nat.not_lt_zero k)) (fun k hk hkn => absurd hkn (by omega))
  exact ⟨h2, h3, h4⟩

theorem IsPick.unique {keys : List Nat} {h x y : Nat} (hx : IsPick keys h x)
    (hy : IsPick keys h y) : x = y := by
  obtain ⟨hxm, hx⟩ := hx
  obtain ⟨hym, hy⟩ := hy
  rcases hx with ⟨hx1, hx2⟩ | ⟨hx1, hx2⟩ <;> rcases hy with ⟨hy1, hy2⟩ | ⟨hy1, hy2⟩
  · exact le_antisymm (hx2 y hym hy1) (hy2 x hxm hx1)
  · exact absurd (hy1 x hxm) (by omega)
  · exact absurd (hx1 y hym) (by omega)
  · exact le_antisymm (hx2 y hym) (hy2 x hxm)

theorem IsPick.of_perm {k1 k2 : List Nat} (hp : k1.Perm k2) {h x : Nat} (hx : IsPick k1 h x) :
    IsPick k2 h x := by
  obtain ⟨hxm, hx⟩ := hx
  refine ⟨hp.mem_iff.1 hxm, ?_⟩
  rcases hx with ⟨hx1, hx2⟩ | ⟨hx1, hx2⟩
  · exact Or.inl ⟨hx1, fun y hy => hx2 y (hp.mem_iff.2 hy)⟩
  · exact Or.inr ⟨fun y hy => hx1 y (hp.mem_iff.2 hy), fun y hy => hx2 y (hp.mem_iff.2 hy)⟩

/-- On a sorted ring the index computed by `Get` selects the clockwise
successor of the hash. -/
theorem isPick_search {keys : List Nat} (hs : keys.Sorted (· ≤ ·)) (hne : keys ≠ []) (h : Nat) :
    IsPick keys h
      (keys.getD (Search keys.length (fun i => decide (h ≤ keys.getD i 0)) % keys.length) 0) := by
  have hpos : 0 < keys.length := List.length_pos.2 hne
  have hmono : ∀ a b, a ≤ b → b < keys.length →
      (fun i => decide (h ≤ keys.getD i 0)) a = true →
      (fun i => decide (h ≤ keys.getD i 0)) b = true := by
    intro a b hab hb ha
    have ha' : a < keys.length := lt_of_le_of_lt hab hb
    simp only [decide_eq_true_eq] at ha ⊢
    rw [List.getD_eq_getElem _ _ ha'] at ha
    rw [List.getD_eq_getElem _ _ hb]
    have : keys.get ⟨a, ha'⟩ ≤ keys.get ⟨b, hb⟩ := hs.rel_get_of_le (by exact hab)
    exact le_trans ha this
  obtain ⟨h1, h2, h3⟩ := Search_spec _ keys.length hmono
  generalize Search keys.length (fun i => decide (h ≤ keys.getD i 0)) = idx at h1 h2 h3
  have hidx : idx % keys.length < keys.length := Nat.mod_lt _ hpos
  refine ⟨?_, ?_⟩
  · rw [List.getD_eq_getElem _ _ hidx]
    exact List.getElem_mem _
  · by_cases hlt : idx < keys.length
    · left
      rw [Nat.mod_eq_of_lt hlt]
      have hf := h3 idx (le_refl _) hlt
      simp only [decide_eq_true_eq] at hf
      refine ⟨hf, ?_⟩
      intro y hy hhy
      obtain ⟨k, hk, rfl⟩ := List.mem_iff_getElem.1 hy
      have hge : idx ≤ k := by
        by_contra hcon
        have := h2 k (by omega)
        simp only [decide_eq_false_iff_not] at this
        rw [List.getD_eq_getElem _ _ hk] at this
        exact this hhy
      rw [List.getD_eq_getElem _ _ hlt]
      exact hs.rel_get_of_le (a := ⟨idx, hlt⟩) (b := ⟨k, hk⟩) (by exact hge)
    · right
      have hidx0 : idx = keys.length := by omega
      rw [hidx0, Nat.mod_self]
      constructor
      · intro y hy
        obtain ⟨k, hk, rfl⟩ := List.mem_iff_getElem.1 hy
        have := h2 k (by omega)
        simp only [decide_eq_false_iff_not] at this
        rw [List.getD_eq_getElem _ _ hk] at this
        omega
      · intro y hy
        obtain ⟨k, hk, rfl⟩ := List.mem_iff_getElem.1 hy
        rw [List.getD_eq_getElem _ _ hpos]
        exact hs.rel_get_of_le (a := ⟨0, hpos⟩) (b := ⟨k, hk⟩) (by exact Nat.zero_le k)

theorem foldl_min_spec (ps : List Nat) (p : Nat) :
    ps.foldl min p ∈ p :: ps ∧ ∀ y ∈ p :: ps, ps.foldl min p ≤ y := by
  induction ps generalizing p with
  | nil => simp
  | cons q qs ih =>
    obtain ⟨h1, h2⟩ := ih (min p q)
    simp only [List.foldl_cons]
    constructor
    · rcases List.mem_cons.1 h1 with h | h
      · rw [h]
        rcases min_choice p q with hm | hm <;> rw [hm] <;> simp
      · exact List.mem_cons_of_mem _ (List.mem_cons_of_mem _ h)
    · intro y hy
      rcases List.mem_cons.1 hy with rfl | hy
      · exact le_trans (h2 _ (List.mem_cons_self _ _)) (min_le_left _ _)
      · rcases List.mem_cons.1 hy with rfl | hy
        · exact le_trans (h2 _ (List.mem_cons_self _ _)) (min_le_right _ _)
        · exact h2 y (List.mem_cons_of_mem _ hy)

theorem smallest_some {l : List Nat} {p : Nat} (h : smallest l = some p) :
    p ∈ l ∧ ∀ y ∈ l, p ≤ y := by
  cases l with
  | nil => cases h
  | cons q qs =>
    simp only [smallest, Option.some.injEq] at h
    rw [← h]
    exact foldl_min_spec qs q

theorem smallest_none {l : List Nat} (h : smallest l = none) : l = [] := by
  cases l with
  | nil => rfl
  | cons q qs => cases h

/-- The reference lookup selects the clockwise successor as well. -/
theorem GetRef_eq_of_isPick {m : Map} {key : String} {x : Nat}
    (hx : IsPick m.keys (m.hash key % 4294967296) x) :
    GetRef m key = (m.hashMap x).getD "" := by
  have hne : m.keys ≠ [] := List.ne_nil_of_mem hx.1
  unfold GetRef
  rw [if_neg hne]
  simp only []
  cases hs : smallest (m.keys.filter fun p => decide (m.hash key % 4294967296 ≤ p)) with
  | some p =>
    obtain ⟨hp1, hp2⟩ := smallest_some hs
    have hp : IsPick m.keys (m.hash key % 4294967296) p := by
      obtain ⟨hpm, hph⟩ := List.mem_filter.1 hp1
      refine ⟨hpm, Or.inl ⟨by simpa using hph, ?_⟩⟩
      intro y hy hhy
      exact hp2 y (List.mem_filter.2 ⟨hy, by simpa using hhy⟩)
    rw [hp.unique hx]
  | none =>
    have hnil := smallest_none hs
    have hall : ∀ y ∈ m.keys, y < m.hash key % 4294967296 := by
      intro y hy
      by_contra hcon
      have : y ∈ m.keys.filter fun p => decide (m.hash key % 4294967296 ≤ p) :=
        List.mem_filter.2 ⟨hy, by simpa using hcon⟩
      rw [hnil] at this
      cases this
    cases hs2 : smallest m.keys with
    | none => exact absurd (smallest_none hs2) hne
    | some p =>
      obtain ⟨hp1, hp2⟩ := smallest_some hs2
      have hp : IsPick m.keys (m.hash key % 4294967296) p := ⟨hp1, Or.inr ⟨hall, hp2⟩⟩
      simp only []
      rw [hp.unique hx]

/-- On a sorted non-empty ring `Get` answers with the owner of the clockwise
successor of the hash. -/
theorem Get_eq_of_isPick {m : Map} (hs : m.keys.Sorted (· ≤ ·)) {key : String} {x : Nat}
    (hx : IsPick m.keys (m.hash key % 4294967296) x) :
    Get m key = (m.hashMap x).getD "" := by
  have hne : m.keys ≠ [] := List.ne_nil_of_mem hx.1
  have hlen : ¬ m.keys.length = 0 := fun h => hne (List.length_eq_zero.1 h)
  unfold Get
  rw [if_neg hlen]
  simp only []
  rw [(isPick_search hs hne (m.hash key % 4294967296)).unique hx]

theorem Get_nil {m : Map} (h : m.keys = []) (key : String) : Get m key = "" := by
  unfold Get
  rw [if_pos (by rw [h]; rfl)]

theorem exists_isPick {keys : List Nat} (hs : keys.Sorted (· ≤ ·)) (hne : keys ≠ []) (h : Nat) :
    ∃ x, IsPick keys h x :=
  ⟨_, isPick_search hs hne h⟩

theorem positions_congr {m1 m2 : Map} (hh : m1.hash = m2.hash) (hr : m1.replicas = m2.replicas) :
    positions m1 = positions m2 := by
  funext p
  unfold positions
  rw [hh, hr]

/-- Effect of the inner loop of `Add` over any list of replica numbers. -/
theorem foldl_addReplica (key : String) (is : List Nat) (m : Map) :
    (is.foldl (fun m1 i => addReplica m1 key i) m).hash = m.hash ∧
    (is.foldl (fun m1 i => addReplica m1 key i) m).replicas = m.replicas ∧
    (is.foldl (fun m1 i => addReplica m1 key i) m).keys
      = m.keys ++ is.map (fun i => m.hash (Itoa i ++ key) % 4294967296) ∧
    ∀ h, (is.foldl (fun m1 i => addReplica m1 key i) m).hashMap h
      = if h ∈ is.map (fun i => m.hash (Itoa i ++ key) % 4294967296) then some key
        else m.hashMap h := by
  induction is generalizing m with
  | nil => simp
  | cons i is ih =>
    obtain ⟨h1, h2, h3, h4⟩ := ih (addReplica m key i)
    simp only [List.foldl_cons]
    refine ⟨h1, h2, ?_, ?_⟩
    · rw [h3]
      simp [addReplica]
    · intro h
      rw [h4]
      simp only [addReplica, List.map_cons, List.mem_cons]
      by_cases hin : h ∈ is.map (fun i => m.hash (Itoa i ++ key) % 4294967296)
      · simp [hin]
      · by_cases heq : h = m.hash (Itoa i ++ key) % 4294967296
        · simp [heq]
        · simp [hin, heq]

theorem addKey_spec (m : Map) (key : String) :
    (addKey m key).hash = m.hash ∧ (addKey m key).replicas = m.replicas ∧
    (addKey m key).keys = m.keys ++ positions m key ∧
    ∀ h, (addKey m key).hashMap h = if h ∈ positions m key then some key else m.hashMap h :=
  foldl_addReplica key (List.range m.replicas.toNat) m

/-- Effect of the outer loop of `Add`. -/
theorem foldl_addKey (ks : List String) (m : Map) :
    (ks.foldl addKey m).hash = m.hash ∧
    (ks.foldl addKey m).replicas = m.replicas ∧
    (ks.foldl addKey m).keys = m.keys ++ ks.flatMap (positions m) ∧
    (∀ h p, (ks.foldl addKey m).hashMap h = some p →
      (p ∈ ks ∧ h ∈ positions m p) ∨ m.hashMap h = some p) ∧
    (∀ h, (∀ p ∈ ks, h ∉ positions m p) → (ks.foldl addKey m).hashMap h = m.hashMap h) ∧
    (∀ h, (∃ p ∈ ks, h ∈ positions m p) →
      ∃ p ∈ ks, h ∈ positions m p ∧ (ks.foldl addKey m).hashMap h = some p) := by
  induction ks generalizing m with
  | nil => simp
  | cons k ks ih =>
    obtain ⟨a1, a2, a3, a4⟩ := addKey_spec m k
    obtain ⟨h1, h2, h3, h4, h5, h6⟩ := ih (addKey m k)
    have hpos : positions (addKey m k) = positions m := positions_congr a1 a2
    rw [hpos] at h3 h4 h5 h6
    simp only [List.foldl_cons]
    refine ⟨h1.trans a1, h2.trans a2, ?_, ?_, ?_, ?_⟩
    · rw [h3, a3]
      simp
    · intro h p hp
      rcases h4 h p hp with ⟨hin, hh⟩ | hold
      · exact Or.inl ⟨List.mem_cons_of_mem _ hin, hh⟩
      · rw [a4] at hold
        by_cases hk : h ∈ positions m k
        · rw [if_pos hk] at hold
          cases hold
          exact Or.inl ⟨List.mem_cons_self _ _, hk⟩
        · rw [if_neg hk] at hold
          exact Or.inr hold
    · intro h hnot
      rw [h5 h (fun p hp => hnot p (List.mem_cons_of_mem _ hp)), a4,
        if_neg (hnot k (List.mem_cons_self _ _))]
    · rintro h ⟨p, hp, hh⟩
      by_cases hex : ∃ q ∈ ks, h ∈ positions m q
      · obtain ⟨q, hq, hhq, hval⟩ := h6 h hex
        exact ⟨q, List.mem_cons_of_mem _ hq, hhq, hval⟩
      · have hnot : ∀ q ∈ ks, h ∉ positions m q := fun q hq hhq => hex ⟨q, hq, hhq⟩
        have hpk : p = k := by
          rcases List.mem_cons.1 hp with rfl | hp
          · rfl
          · exact absurd hh (hnot p hp)
        subst hpk
        refine ⟨p, List.mem_cons_self _ _, hh, ?_⟩
        rw [h5 h hnot, a4, if_pos hh]

theorem sortInts_sorted (l : List Nat) : (sortInts l).Sorted (· ≤ ·) :=
  List.sorted_insertionSort (· ≤ ·) l

theorem sortInts_perm (l : List Nat) : (sortInts l).Perm l :=
  List.perm_insertionSort (· ≤ ·) l

/-- Effect of one `Add` call. -/
theorem Add_spec (m : Map) (ks : List String) :
    (Add m ks).hash = m.hash ∧
    (Add m ks).replicas = m.replicas ∧
    (Add m ks).keys = sortInts (m.keys ++ ks.flatMap (positions m)) ∧
    (∀ h p, (Add m ks).hashMap h = some p →
      (p ∈ ks ∧ h ∈ positions m p) ∨ m.hashMap h = some p) ∧
    (∀ h, (∀ p ∈ ks, h ∉ positions m p) → (Add m ks).hashMap h = m.hashMap h) ∧
    (∀ h, (∃ p ∈ ks, h ∈ positions m p) →
      ∃ p ∈ ks, h ∈ positions m p ∧ (Add m ks).hashMap h = some p) := by
  obtain ⟨h1, h2, h3, h4, h5, h6⟩ := foldl_addKey ks m
  refine ⟨h1, h2, ?_, h4, h5, h6⟩
  show sortInts (ks.foldl addKey m).keys = _
  rw [h3]

/-- Effect of a sequence of `Add` calls on any map. -/
theorem foldl_Add (calls : List (List String)) (m : Map) (hs : m.keys.Sorted (· ≤ ·)) :
    (calls.foldl Add m).hash = m.hash ∧
    (calls.foldl Add m).replicas = m.replicas ∧
    (calls.foldl Add m).keys.Sorted (· ≤ ·) ∧
    (calls.foldl Add m).keys.Perm (m.keys ++ calls.flatten.flatMap (positions m)) ∧
    (∀ h p, (calls.foldl Add m).hashMap h = some p →
      (p ∈ calls.flatten ∧ h ∈ positions m p) ∨ m.hashMap h = some p) ∧
    (∀ h, (∀ p ∈ calls.flatten, h ∉ positions m p) → (calls.foldl Add m).hashMap h = m.hashMap h) ∧
    (∀ h, (∃ p ∈ calls.flatten, h ∈ positions m p) →
      ∃ p ∈ calls.flatten, h ∈ positions m p ∧ (calls.foldl Add m).hashMap h = some p) := by
  induction calls generalizing m with
  | nil => simpa using hs
  | cons ks calls ih =>
    obtain ⟨a1, a2, a3, a4, a5, a6⟩ := Add_spec m ks
    have hs1 : (Add m ks).keys.Sorted (· ≤ ·) := by rw [a3]; exact sortInts_sorted _
    obtain ⟨h1, h2, h3, h4, h5, h6, h7⟩ := ih (Add m ks) hs1
    have hpos : positions (Add m ks) = positions m := positions_congr a1 a2
    rw [hpos] at h4 h5 h6 h7
    simp only [List.foldl_cons, List.flatten_cons, List.flatMap_append, List.mem_append]
    refine ⟨h1.trans a1, h2.trans a2, h3, ?_, ?_, ?_, ?_⟩
    · refine h4.trans ?_
      rw [a3, ← List.append_assoc]
      exact (sortInts_perm _).append_right _
    · intro h p hp
      rcases h5 h p hp with ⟨hin, hh⟩ | hold
      · exact Or.inl ⟨Or.inr hin, hh⟩
      · rcases a4 h p hold with ⟨hin, hh⟩ | hold
        · exact Or.inl ⟨Or.inl hin, hh⟩
        · exact Or.inr hold
    · intro h hnot
      rw [h6 h (fun p hp => hnot p (Or.inr hp)), a5 h (fun p hp => hnot p (Or.inl hp))]
    · rintro h ⟨p, hp, hh⟩
      by_cases hex : ∃ q ∈ calls.flatten, h ∈ positions m q
      · obtain ⟨q, hq, hhq, hval⟩ := h7 h hex
        exact ⟨q, Or.inr hq, hhq, hval⟩
      · have hnot : ∀ q ∈ calls.flatten, h ∉ positions m q := fun q hq hhq => hex ⟨q, hq, hhq⟩
        have hpk : p ∈ ks := by
          rcases hp with hp | hp
          · exact hp
          · exact absurd hh (hnot p hp)
        obtain ⟨q, hq, hhq, hval⟩ := a6 h ⟨p, hpk, hh⟩
        exact ⟨q, Or.inl hq, hhq, by rw [h6 h hnot, hval]⟩

theorem ring_facts (replicas : Int) (fn : Option Hash) (calls : List (List String)) :
    (ring replicas fn calls).hash = (New replicas fn).hash ∧
    (ring replicas fn calls).replicas = replicas ∧
    positions (ring replicas fn calls) = positions (New replicas fn) ∧
    (ring replicas fn calls).keys.Sorted (· ≤ ·) ∧
    (ring replicas fn calls).keys.Perm (calls.flatten.flatMap (positions (New replicas fn))) ∧
    (∀ h p, (ring replicas fn calls).hashMap h = some p →
      p ∈ calls.flatten ∧ h ∈ positions (New replicas fn) p) ∧
    (∀ h ∈ (ring replicas fn calls).keys, ∃ p ∈ calls.flatten,
      h ∈ positions (New replicas fn) p ∧ (ring replicas fn calls).hashMap h = some p) := by
  obtain ⟨h1, h2, h3, h4, h5, _, h7⟩ :=
    foldl_Add calls (New replicas fn) (by simp [New])
  have h4' : (ring replicas fn calls).keys.Perm
      (calls.flatten.flatMap (positions (New replicas fn))) := by
    simpa [New] using h4
  refine ⟨h1, h2, positions_congr h1 h2, h3, h4', ?_, ?_⟩
  · intro h p hp
    rcases h5 h p hp with hh | hh
    · exact hh
    · simp [New] at hh
  · intro h hh
    have := h4'.mem_iff.1 hh
    obtain ⟨p, hp, hhp⟩ := List.mem_flatMap.1 this
    exact h7 h ⟨p, hp, hhp⟩

/-- The answer of `Get` depends only on the hash function, the positions
and the owners of the positions on the ring. -/
theorem Get_congr {m1 m2 : Map} (hh : m1.hash = m2.hash) (hk : m1.keys = m2.keys)
    (hm : ∀ x ∈ m1.keys, m1.hashMap x = m2.hashMap x) (key : String) :
    Get m1 key = Get m2 key := by
  unfold Get
  rw [← hk, ← hh]
  by_cases hlen : m1.keys.length = 0
  · rw [if_pos hlen, if_pos hlen]
  · rw [if_neg hlen, if_neg hlen]
    simp only []
    rw [hm]
    rw [List.getD_eq_getElem _ _ (Nat.mod_lt _ (Nat.pos_of_ne_zero hlen))]
    exact List.getElem_mem _

/-- C5 (`Get` against its reference definition).  On every ring built from
`New` by `Add` calls, `Get` returns what the reference definition returns:
`""` on an empty ring, otherwise the peer mapped to the smallest position
`p ≥ int(hash(key))`, or to the smallest position of the ring when every
position is below the hash. -/
theorem Get_eq_GetRef (replicas : Int) (fn : Option Hash) (calls : List (List String))
    (key : String) :
    Get (ring replicas fn calls) key = GetRef (ring replicas fn calls) key ∧
    ((ring replicas fn calls).keys = [] → Get (ring replicas fn calls) key = "") ∧
    ((ring replicas fn calls).keys ≠ [] →
      ∃ x, IsPick (ring replicas fn calls).keys
          ((ring replicas fn calls).hash key % 4294967296) x ∧
        Get (ring replicas fn calls) key = ((ring replicas fn calls).hashMap x).getD "") := by
  obtain ⟨_, _, _, hs, _⟩ := ring_facts replicas fn calls
  refine ⟨?_, fun hnil => Get_nil hnil key, ?_⟩
  · by_cases hnil : (ring replicas fn calls).keys = []
    · rw [Get_nil hnil]
      unfold GetRef
      rw [if_pos hnil]
    · obtain ⟨x, hx⟩ := exists_isPick hs hnil ((ring replicas fn calls).hash key % 4294967296)
      rw [Get_eq_of_isPick hs hx, GetRef_eq_of_isPick hx]
  · intro hne
    obtain ⟨x, hx⟩ := exists_isPick hs hne ((ring replicas fn calls).hash key % 4294967296)
    exact ⟨x, hx, Get_eq_of_isPick hs hx⟩

/-- The lookups of `TestHashing` before its second `Add`: with 3 replicas and
`hash = atoi`, after `Add("6", "4", "2")`, keys 2, 11, 23, 27 map to
peers 2, 2, 4, 2, for `Get` and for the reference definition. -/
theorem TestHashing_lookups :
    (ring 3 (some atoiHash) [["6", "4", "2"]]).keys = [2, 4, 6, 12, 14, 16, 22, 24, 26] ∧
    ["2", "11", "23", "27"].map (Get (ring 3 (some atoiHash) [["6", "4", "2"]]))
      = ["2", "2", "4", "2"] ∧
    ["2", "11", "23", "27"].map (GetRef (ring 3 (some atoiHash) [["6", "4", "2"]]))
      = ["2", "2", "4", "2"] := by
  decide

/-- C6 (adding a peer only remaps keys to that peer).  On every ring built
from `New` by `Add` calls, after `Add(p)` a key is mapped either to `p` or to
the peer it was mapped to before. -/
theorem Add_remaps_only_to_new_peer (replicas : Int) (fn : Option Hash)
    (calls : List (List String)) (p : String) (k : String) :
    Get (Add (ring replicas fn calls) [p]) k = p ∨
    Get (Add (ring replicas fn calls) [p]) k = Get (ring replicas fn calls) k := by
  obtain ⟨_, _, _, hs, _⟩ := ring_facts replicas fn calls
  generalize ring replicas fn calls = m at hs ⊢
  obtain ⟨a1, a2, a3, a4, a5, a6⟩ := Add_spec m [p]
  have hs1 : (Add m [p]).keys.Sorted (· ≤ ·) := by rw [a3]; exact sortInts_sorted _
  have hperm : (Add m [p]).keys.Perm (m.keys ++ positions m p) := by
    rw [a3]
    simpa using sortInts_perm (m.keys ++ [p].flatMap (positions m))
  by_cases hnil : (Add m [p]).keys = []
  · right
    have hnil0 : m.keys = [] := by
      have := hperm.length_eq
      rw [hnil, List.length_append, List.length_nil] at this
      exact List.length_eq_zero.1 (by omega)
    rw [Get_nil hnil, Get_nil hnil0]
  · obtain ⟨x, hx⟩ := exists_isPick hs1 hnil ((Add m [p]).hash k % 4294967296)
    rw [Get_eq_of_isPick hs1 hx]
    by_cases hxp : x ∈ positions m p
    · left
      obtain ⟨q, hq, _, hval⟩ := a6 x ⟨p, List.mem_singleton.2 rfl, hxp⟩
      rw [hval, List.mem_singleton.1 hq]
      rfl
    · right
      have hxm : x ∈ m.keys := by
        rcases List.mem_append.1 (hperm.mem_iff.1 hx.1) with h | h
        · exact h
        · exact absurd h hxp
      rw [a5 x (fun q hq => by rw [List.mem_singleton.1 hq]; exact hxp)]
      rw [a1] at hx
      have hx0 : IsPick m.keys (m.hash k % 4294967296) x := by
        refine ⟨hxm, ?_⟩
        rcases hx.2 with ⟨h1, h2⟩ | ⟨h1, h2⟩
        · exact Or.inl ⟨h1, fun y hy => h2 y (hperm.mem_iff.2 (List.mem_append_left _ hy))⟩
        · exact Or.inr ⟨fun y hy => h1 y (hperm.mem_iff.2 (List.mem_append_left _ hy)),
            fun y hy => h2 y (hperm.mem_iff.2 (List.mem_append_left _ hy))⟩
      rw [Get_eq_of_isPick hs hx0]

/-- The second half of `TestHashing`: after `Add("8")` key 27 moves from
peer 2 to peer 8 and keys 2, 11, 23 stay where they were. -/
theorem TestHashing_after_Add :
    ["2", "11", "23", "27"].map (Get (ring 3 (some atoiHash) [["6", "4", "2"]]))
      = ["2", "2", "4", "2"] ∧
    ["2", "11", "23", "27"].map (Get (Add (ring 3 (some atoiHash) [["6", "4", "2"]]) ["8"]))
      = ["2", "2", "4", "8"] := by
  decide

theorem length_positions (m : Map) (p : String) : (positions m p).length = m.replicas.toNat := by
  simp [positions]

theorem length_flatMap_positions (m : Map) (ps : List String) :
    (ps.flatMap (positions m)).length = ps.length * m.replicas.toNat := by
  induction ps with
  | nil => simp
  | cons p ps ih =>
    rw [List.flatMap_cons, List.length_append, ih, length_positions, List.length_cons]
    ring

/-- C7, as stated, fails: with one replica and `hash = atoi`, peers `1` and
`01` are both placed at position 1 (`atoi("01") = atoi("001") = 1`), and the
peer added last owns it, so the order of the peers decides `Get`. -/
theorem ring_order_matters :
    ["1", "01"].Perm ["01", "1"] ∧
    Get (ring 1 (some atoiHash) [["1", "01"]]) "0" = "01" ∧
    Get (ring 1 (some atoiHash) [["01", "1"]]) "0" = "1" ∧
    Get (ring 1 (some atoiHash) [["1", "01"]]) "0"
      ≠ Get (ring 1 (some atoiHash) [["01", "1"]]) "0" := by
  refine ⟨List.Perm.swap _ _ _, by decide, by decide, by decide⟩

/-- C7, amended (ring determinism without collisions).  When no two distinct
peers are placed at the same ring position, `Get` does not depend on the
order in which the peers were passed to `Add`: two sequences of `Add` calls
whose peers are a permutation of each other give the same `Get` for every
key. -/
theorem ring_determinism (replicas : Int) (fn : Option Hash)
    (calls1 calls2 : List (List String))
    (hperm : calls1.flatten.Perm calls2.flatten)
    (hinj : ∀ p ∈ calls1.flatten, ∀ q ∈ calls1.flatten,
      ∀ h ∈ positions (New replicas fn) p, h ∈ positions (New replicas fn) q → p = q)
    (k : String) :
    Get (ring replicas fn calls1) k = Get (ring replicas fn calls2) k := by
  obtain ⟨a1, _, _, a4, a5, a6, a7⟩ := ring_facts replicas fn calls1
  obtain ⟨b1, _, _, b4, b5, b6, b7⟩ := ring_facts replicas fn calls2
  have hkeys : (ring replicas fn calls1).keys = (ring replicas fn calls2).keys := by
    apply List.eq_of_perm_of_sorted _ a4 b4
    exact (a5.trans (hperm.flatMap_right _)).trans b5.symm
  apply Get_congr (a1.trans b1.symm) hkeys
  intro x hx
  obtain ⟨p1, hp1, hx1, hv1⟩ := a7 x hx
  obtain ⟨p2, hp2, hx2, hv2⟩ := b7 x (hkeys ▸ hx)
  rw [hv1, hv2, hinj p1 hp1 p2 (hperm.mem_iff.2 hp2) x hx1 hx2]

/-- Instance of the amended C7: the peers of `TestHashing` have nine distinct
positions, so adding them as `2`, then `4` and `6` gives the lookups of
`Add("6", "4", "2")`. -/
theorem ring_determinism_witness :
    Get (ring 3 (some atoiHash) [["6", "4", "2"]]) "27"
      = Get (ring 3 (some atoiHash) [["2"], ["4", "6"]]) "27" ∧
    Get (ring 3 (some atoiHash) [["2"], ["4", "6"]]) "27" = "2" :=
  ⟨ring_determinism 3 (some atoiHash) [["6", "4", "2"]] [["2"], ["4", "6"]]
      (by decide) (by decide) "27",
   by decide⟩

/-- C8 (ring well-formedness).  After any sequence of `Add` calls on a map
with replica factor `R`, `keys` is sorted ascending and is the sorted list of
the positions `int(hash(Itoa(i) + peer))`, `i` in `[0, R)`, of all added peers
(each peer adds `R` positions, none when `R ≤ 0`), and every position in
`keys` has an entry in `hashMap`, which names an added peer placed there. -/
theorem ring_well_formed (replicas : Int) (fn : Option Hash) (calls : List (List String)) :
    (ring replicas fn calls).keys.Sorted (· ≤ ·) ∧
    (ring replicas fn calls).keys
      = sortInts (calls.flatten.flatMap (positions (ring replicas fn calls))) ∧
    (∀ peer, positions (ring replicas fn calls) peer
      = (List.range replicas.toNat).map fun i =>
          (ring replicas fn calls).hash (Itoa i ++ peer) % 4294967296) ∧
    (ring replicas fn calls).keys.length = calls.flatten.length * replicas.toNat ∧
    (∀ h ∈ (ring replicas fn calls).keys, ∃ peer ∈ calls.flatten,
      h ∈ positions (ring replicas fn calls) peer ∧
      (ring replicas fn calls).hashMap h = some peer) := by
  obtain ⟨a1, a2, a3, a4, a5, a6, a7⟩ := ring_facts replicas fn calls
  rw [a3]
  refine ⟨a4, ?_, ?_, ?_, a7⟩
  · exact List.eq_of_perm_of_sorted (a5.trans (sortInts_perm _).symm) a4 (sortInts_sorted _)
  · intro peer
    rw [← a3]
    unfold positions
    rw [a2]
  · rw [a5.length_eq, length_flatMap_positions]
    rfl

end consistenthash

namespace lru
namespace Cache

variable {V : Type} [Value V]

theorem mem_RemoveOldest (c : Cache V) : c.RemoveOldest.mem = c.mem := by
  unfold RemoveOldest
  cases Back c.ll <;> rfl

/-- The eviction loop never removes a front element that fits the budget:
as long as the loop condition holds there is another element behind it. -/
theorem evict_keeps_front (n : Nat) :
    ∀ (c : Cache V) (e : Nat) (rest : List Nat), c.WF → c.ll = e :: rest →
      (c.maxBytes = 0 ∨ cost c.mem e ≤ c.maxBytes) → rest.length ≤ n →
      ∃ c1 rest1, evict n c = some c1 ∧ c1.WF ∧ c1.ll = e :: rest1 ∧ c1.mem = c.mem ∧
        c1.maxBytes = c.maxBytes ∧ c1.cache (c.mem e).key = some e := by
  induction n with
  | zero =>
    intro c e rest h hll hfit hlen
    have hrest : rest = [] := List.length_eq_zero.1 (Nat.le_zero.1 hlen)
    subst hrest
    have hb : c.nbytes = cost c.mem e := by rw [h.bytes, hll]; simp
    have hcond : ¬ (c.maxBytes ≠ 0 ∧ c.maxBytes < c.nbytes) := by
      rintro ⟨h0, hlt⟩
      rcases hfit with hz | hle
      · exact h0 hz
      · omega
    refine ⟨c, [], ?_, h, hll, rfl, rfl, ?_⟩
    · unfold evict
      rw [if_neg hcond]
    · exact (h.index _ e).2 ⟨by rw [hll]; exact List.mem_cons_self _ _, rfl⟩
  | succ n ih =>
    intro c e rest h hll hfit hlen
    have hidx : c.cache (c.mem e).key = some e :=
      (h.index _ e).2 ⟨by rw [hll]; exact List.mem_cons_self _ _, rfl⟩
    unfold evict
    by_cases hcond : c.maxBytes ≠ 0 ∧ c.maxBytes < c.nbytes
    · rw [if_pos hcond]
      have hne : rest ≠ [] := by
        rintro rfl
        have hb : c.nbytes = cost c.mem e := by rw [h.bytes, hll]; simp
        rcases hfit with hz | hle
        · exact hcond.1 hz
        · have := hcond.2
          omega
      obtain ⟨r, rs, hr⟩ := List.exists_cons_of_ne_nil hne
      have hback : Back c.ll = some ((r :: rs).getLast (List.cons_ne_nil _ _)) := by
        rw [hll, hr]
        show (e :: r :: rs).getLast? = _
        rw [List.getLast?_cons_cons]
        exact List.getLast?_eq_getLast _ _
      generalize hlast : (r :: rs).getLast (List.cons_ne_nil _ _) = last at hback
      have hlast_mem : last ∈ rest := by
        rw [hr, ← hlast]
        exact List.getLast_mem _
      have hnd : (e :: rest).Nodup := hll ▸ h.nodup
      have hne_e : last ≠ e := by
        rintro rfl
        exact (List.nodup_cons.1 hnd).1 hlast_mem
      have hrm : c.RemoveOldest.ll = e :: rest.erase last := by
        unfold RemoveOldest
        rw [hback]
        show (c.ll).erase last = _
        rw [hll, List.erase_cons_tail (by simpa using hne_e.symm)]
      have hlen1 : (rest.erase last).length ≤ n := by
        rw [List.length_erase_of_mem hlast_mem]
        omega
      obtain ⟨c1, rest1, h1, h2, h3, h4, h5, h6⟩ :=
        ih c.RemoveOldest e (rest.erase last) (WF_RemoveOldest h) hrm
          (by rw [maxBytes_RemoveOldest, mem_RemoveOldest]; exact hfit) hlen1
      rw [mem_RemoveOldest] at h4 h6
      exact ⟨c1, rest1, h1, h2, h3, h4, h5.trans (maxBytes_RemoveOldest c), h6⟩
    · rw [if_neg hcond]
      exact ⟨c, rest, rfl, h, hll, rfl, rfl, hidx⟩

/-- An `Add` of an entry that fits the budget returns, and the entry is then
stored under its key. -/
theorem Add_fits {c : Cache V} (h : c.WF) (key : String) (value : V)
    (hfit : c.maxBytes = 0 ∨ len key + Value.Len value ≤ c.maxBytes) :
    ∃ c1 e, c.Add key value = some c1 ∧ c1.WF ∧ c1.maxBytes = c.maxBytes ∧
      c1.cache key = some e ∧ (c1.mem e).value = value := by
  have hwf := WF_insert h key value
  have hmb := maxBytes_insert c key value
  have hfront : ∃ e rest, (c.insert key value).ll = e :: rest ∧
      (c.insert key value).mem e = { key := key, value := value } := by
    unfold insert
    cases hc : c.cache key with
    | some ele =>
      have hele := (h.index key ele).1 hc
      refine ⟨ele, c.ll.erase ele, MoveToFront_of_mem hele.1, ?_⟩
      simp [hele.2]
    | none =>
      exact ⟨c.next, c.ll, rfl, by simp⟩
  obtain ⟨e, rest, hll, hmem⟩ := hfront
  have hfit1 : (c.insert key value).maxBytes = 0 ∨
      cost (c.insert key value).mem e ≤ (c.insert key value).maxBytes := by
    rw [hmb]
    unfold cost
    rw [hmem]
    exact hfit
  obtain ⟨c1, rest1, h1, h2, h3, h4, h5, h6⟩ :=
    evict_keeps_front (c.insert key value).ll.length (c.insert key value) e rest hwf hll hfit1
      (by rw [hll]; simp)
  rw [hmem] at h6
  exact ⟨c1, e, h1, h2, h5.trans hmb, h6, by rw [h4, hmem]⟩

/-- `Add` yields `none` exactly when its eviction loop does not finish,
whatever the number of iterations allowed. -/
theorem Add_none_iff (c : Cache V) (key : String) (value : V) :
    c.Add key value = none ↔ ∀ n, evict n (c.insert key value) = none := by
  constructor
  · intro h n
    cases hn : evict n (c.insert key value) with
    | none => rfl
    | some c1 =>
      have := evict_fuel_complete hn
      unfold Add at h
      rw [h] at this
      cases this
  · intro h
    exact h _

omit [Value V] in
theorem Get_of_cache {c : Cache V} {key : String} {e : Nat} (hc : c.cache key = some e) :
    (c.Get key).1 = some (c.mem e).value := by
  unfold Get
  rw [hc]

omit [Value V] in
theorem Get_miss {c : Cache V} {key : String} (hm : (c.Get key).1 = none) :
    c.cache key = none ∧ (c.Get key).2 = c := by
  unfold Get at hm ⊢
  cases hc : c.cache key with
  | some e => rw [hc] at hm; cases hm
  | none => exact ⟨rfl, rfl⟩

end Cache
end lru

namespace geecache

theorem cache.get_miss {c : cache} {key : String} (hm : (c.get key).1 = none) :
    c.get key = (none, c) ∧ ∀ l, c.lru = some l → l.cache key = none := by
  unfold cache.get at hm ⊢
  cases hl : c.lru with
  | none =>
    refine ⟨rfl, ?_⟩
    intro l h
    cases h
  | some l =>
    rw [hl] at hm
    obtain ⟨h1, h2⟩ := lru.Cache.Get_miss hm
    refine ⟨?_, ?_⟩
    · show ((l.Get key).1, ({ c with lru := some (l.Get key).2 } : cache)) = (none, c)
      rw [hm, h2]
      cases c
      cases hl
      rfl
    · intro l1 h
      cases h
      exact h1

/-- An `add` of an entry that fits the budget returns, keeps the wrapper
well formed, and a `get` of the key then hits with the value. -/
theorem cache.add_fits {c : cache} (h : c.WF) (key : String) (value : ByteView)
    (hfit : c.cacheBytes = 0 ∨ lru.len key + (value.b.length : Int) ≤ c.cacheBytes) :
    ∃ c1, c.add key value = some c1 ∧ c1.WF ∧ c1.cacheBytes = c.cacheBytes ∧
      (c1.get key).1 = some value := by
  have key_fact : ∀ l : lru.Cache ByteView, l.WF → l.maxBytes = c.cacheBytes →
      ∃ c1, (l.Add key value).map (fun l1 => ({ c with lru := some l1 } : cache)) = some c1 ∧
        c1.WF ∧ c1.cacheBytes = c.cacheBytes ∧ (c1.get key).1 = some value := by
    intro l hl hmb
    obtain ⟨l1, e, h1, h2, h3, h4, h5⟩ :=
      lru.Cache.Add_fits hl key value (by rw [hmb]; exact hfit)
    refine ⟨{ c with lru := some l1 }, by rw [h1]; rfl, ?_, rfl, ?_⟩
    · intro l2 hl2
      cases hl2
      exact ⟨h2, h3.trans hmb⟩
    · show (l1.Get key).1 = some value
      rw [lru.Cache.Get_of_cache h4, h5]
  unfold cache.add
  cases hl : c.lru with
  | none => exact key_fact _ (lru.Cache.WF_New _ _) rfl
  | some l => exact key_fact l (h l hl).1 (h l hl).2

theorem cache.WF_get {c : cache} (h : c.WF) (key : String) : (c.get key).2.WF := by
  unfold cache.get
  cases hl : c.lru with
  | none =>
    intro l hl1
    rw [hl] at hl1
    cases hl1
  | some l =>
    intro l1 hl1
    cases hl1
    exact ⟨lru.Cache.WF_Get (h l hl).1 key, (lru.Cache.maxBytes_Get l key).trans (h l hl).2⟩

/-- C2 (a loaded value is served locally afterwards).  For a group with no
peers and a well-formed local cache, a non-empty key `k` that is not cached,
and an origin getter that returns bytes `v` fitting the budget
(`cacheBytes = 0` or `len(k) + len(v) ≤ cacheBytes`): the first `Get(k)`
returns `v` after one call of the getter, and the second `Get(k)` returns
the same bytes and leaves the outside world as the first call left it, so
the getter is not called again. -/
theorem loaded_value_served_locally {W : Type} (g : Group W) (k : String) (v : List UInt8)
    (w w1 : W) (hpeers : g.peers = none) (hk : k ≠ "") (hwf : g.mainCache.WF)
    (hmiss : (g.mainCache.get k).1 = none)
    (hget : g.getter k w = ((v, none), w1))
    (hfit : g.mainCache.cacheBytes = 0 ∨
      lru.len k + (v.length : Int) ≤ g.mainCache.cacheBytes) :
    ∃ g1 g2, g.Get k w = some (({ b := v }, none), g1, w1) ∧
      g1.Get k w1 = some (({ b := v }, none), g2, w1) ∧
      (g1.mainCache.get k).1 = some { b := v } ∧
      g1.getter = g.getter ∧ g2.getter = g.getter ∧
      g1.peers = none ∧ g2.peers = none ∧ g1.mainCache.WF ∧ g2.mainCache.WF := by
  obtain ⟨c1, h1, h2, h3, h4⟩ := cache.add_fits hwf k { b := v } hfit
  have hfirst : g.Get k w = some (({ b := v }, none), { g with mainCache := c1 }, w1) := by
    unfold Group.Get
    rw [if_neg hk, (cache.get_miss hmiss).1]
    show Group.load g k w = _
    unfold Group.load
    rw [hpeers]
    show Group.getLocally g k w = _
    unfold Group.getLocally
    rw [hget]
    simp only [Group.populateCache, cloneBytes, h1, Option.map_some']
    rw [hpeers]
  refine ⟨{ g with mainCache := c1 }, { g with mainCache := (c1.get k).2 }, hfirst, ?_, h4,
    rfl, rfl, hpeers, hpeers, h2, cache.WF_get h2 k⟩
  unfold Group.Get
  rw [if_neg hk]
  show (match c1.get k with
    | (some v1, mc) => some ((v1, none), { g with mainCache := mc }, w1)
    | (none, mc) => Group.load { g with mainCache := mc } k w1) = _
  rcases hp : c1.get k with ⟨o, mc⟩
  rw [hp] at h4
  simp only at h4
  subst h4
  rfl

/-- Instance of C2: the group "scores" of `main.go` with budget `2<<10` and
key "Tom".  Both `Get` calls return "630" and the log holds one search line. -/
theorem loaded_value_served_locally_witness :
    ∃ g1 g2,
      createGroup.Get "Tom" [] = some (({ b := bytesOf "630" }, none), g1,
        ["[SlowDB] search key Tom"]) ∧
      g1.Get "Tom" ["[SlowDB] search key Tom"] = some (({ b := bytesOf "630" }, none), g2,
        ["[SlowDB] search key Tom"]) :=
  match loaded_value_served_locally createGroup "Tom" (bytesOf "630") []
      ["[SlowDB] search key Tom"] rfl (by decide) (fun _ hl => nomatch hl) rfl
      (by decide) (Or.inr (by decide)) with
  | ⟨g1, g2, h1, h2, _⟩ => ⟨g1, g2, h1, h2⟩

end geecache

namespace lru

/-- C11 (`RemoveOldest`).  On a well-formed cache whose list ends with the
entry `(key, value)`: `RemoveOldest` removes that entry and no other, deletes
`key` from the map and leaves every other key of the map alone, takes
`len(key) + value.Len()` off `nbytes`, and calls `OnEvicted`, when it is
non-nil, once with `key` and `value`.  On an empty cache nothing changes and
`OnEvicted` is not called. -/
theorem RemoveOldest_removes_back {V : Type} [Value V] (c : Cache V) (h : c.WF) :
    (∀ front key value, c.entries = front ++ [(key, value)] →
      c.RemoveOldest.entries = front ∧
      c.RemoveOldest.cache key = none ∧
      (∀ k, k ≠ key → c.RemoveOldest.cache k = c.cache k) ∧
      c.RemoveOldest.nbytes = c.nbytes - (len key + Value.Len value) ∧
      c.RemoveOldest.evicted
        = (if c.OnEvicted = true then c.evicted ++ [(key, value)] else c.evicted) ∧
      c.RemoveOldest.Len = c.Len - 1 ∧
      c.RemoveOldest.maxBytes = c.maxBytes) ∧
    (c.entries = [] → c.RemoveOldest = c) := by
  constructor
  · intro front key value hent
    have hne : c.ll ≠ [] := by
      intro hnil
      simp [Cache.entries, hnil] at hent
    obtain ⟨ele, hback⟩ : ∃ ele, Back c.ll = some ele := by
      cases hb : Back c.ll with
      | none => exact absurd (Back_eq_none.1 hb) hne
      | some ele => exact ⟨ele, rfl⟩
    obtain ⟨ys, hys⟩ := List.getLast?_eq_some_iff.1 hback
    have hnd : (ys ++ [ele]).Nodup := hys ▸ h.nodup
    have hnot : ele ∉ ys := by
      intro hin
      have := List.nodup_append.1 hnd
      exact this.2.2 hin (List.mem_singleton.2 rfl)
    have hsplit : ys.map (fun e => ((c.mem e).key, (c.mem e).value))
        ++ [((c.mem ele).key, (c.mem ele).value)] = front ++ [(key, value)] := by
      rw [← hent]
      simp [Cache.entries, hys]
    obtain ⟨hfront, hlast⟩ := List.append_inj' hsplit rfl
    have hkey : (c.mem ele).key = key := by
      have := List.head_eq_of_cons_eq hlast
      exact congrArg Prod.fst this
    have hval : (c.mem ele).value = value := by
      have := List.head_eq_of_cons_eq hlast
      exact congrArg Prod.snd this
    have hrm : c.RemoveOldest = { c with
        ll := Remove c.ll ele
        cache := fun k => if k = (c.mem ele).key then none else c.cache k
        nbytes := c.nbytes - (len (c.mem ele).key + Value.Len (c.mem ele).value)
        evicted := if c.OnEvicted = true
          then c.evicted ++ [((c.mem ele).key, (c.mem ele).value)] else c.evicted } := by
      unfold Cache.RemoveOldest
      rw [hback]
    have hll : Remove c.ll ele = ys := by
      unfold Remove
      rw [hys, List.erase_append_right _ hnot]
      simp
    rw [hrm, hll, hkey, hval]
    refine ⟨hfront, by simp, ?_, rfl, rfl, ?_, rfl⟩
    · intro k hk
      simp [hk]
    · simp [Cache.Len, hys]
  · intro hent
    have hnil : c.ll = [] := by
      simpa [Cache.entries] using hent
    exact Cache.RemoveOldest_nil hnil

/-- Instance of C11 on the sample cache (entries `bb`, `a`): `RemoveOldest`
removes `a` and its four bytes. -/
theorem RemoveOldest_removes_back_witness :
    sample.RemoveOldest.entries = [("bb", { b := [1, 2, 3, 4] })] ∧
    sample.RemoveOldest.nbytes = 6 ∧
    sample.RemoveOldest.cache "a" = none :=
  ⟨((RemoveOldest_removes_back sample
      (Cache.WF_insert (Cache.WF_insert (Cache.WF_New 10 false) _ _) _ _)).1
      [("bb", { b := [1, 2, 3, 4] })] "a" { b := [1, 2, 3] } (by decide)).1,
   by decide,
   ((RemoveOldest_removes_back sample
      (Cache.WF_insert (Cache.WF_insert (Cache.WF_New 10 false) _ _) _ _)).1
      [("bb", { b := [1, 2, 3, 4] })] "a" { b := [1, 2, 3] } (by decide)).2.1⟩

end lru

namespace singleflight

/-- C13 (`Do` with no call in flight for the key).  `Do` runs `fn` once on
the outside world, returns the value and error of `fn`, and leaves the map
without an entry for the key and with the entries of the other keys as they
were; a following `Do` for the same key runs its own function. -/
theorem Do_alone {α W : Type} (g : Group α) (key : String)
    (fn fn2 : W → (Option α × Option String) × W) (w : W)
    (h : g.inflight key = none) :
    ∃ g1 g2, g.Do key fn w = some ((fn w).1, g1, (fn w).2) ∧
      g1.inflight key = none ∧
      (∀ k, k ≠ key → g1.inflight k = g.inflight k) ∧
      g1.Do key fn2 (fn w).2 = some ((fn2 (fn w).2).1, g2, (fn2 (fn w).2).2) ∧
      g2.inflight key = none := by
  have hdo : ∀ (g0 : Group α) (f : W → (Option α × Option String) × W) (w0 : W),
      g0.inflight key = none →
      ∃ g1, g0.Do key f w0 = some ((f w0).1, g1, (f w0).2) ∧ g1.inflight key = none ∧
        ∀ k, k ≠ key → g1.inflight k = g0.inflight k := by
    intro g0 f w0 h0
    cases hm : g0.m with
    | none =>
      have hrun : g0.Do key f w0 = some ((f w0).1,
          { m := some fun k => if k = key then none
              else if k = key then some { wg := 1, val := none, err := none } else none },
          (f w0).2) := by
        unfold Group.Do
        simp only [hm]
      refine ⟨_, hrun, ?_, ?_⟩
      · simp [Group.inflight]
      · intro k hk
        simp [Group.inflight, hm, hk]
    | some m0 =>
      have h1 : m0 key = none := by
        simpa [Group.inflight, hm] using h0
      have hrun : g0.Do key f w0 = some ((f w0).1,
          { m := some fun k => if k = key then none
              else if k = key then some { wg := 1, val := none, err := none } else m0 k },
          (f w0).2) := by
        unfold Group.Do
        simp only [hm, h1]
      refine ⟨_, hrun, ?_, ?_⟩
      · simp [Group.inflight]
      · intro k hk
        simp [Group.inflight, hm, hk]
  obtain ⟨g1, h1, h2, h3⟩ := hdo g fn w h
  obtain ⟨g2, h4, h5, _⟩ := hdo g1 fn2 (fn w).2 h2
  exact ⟨g1, g2, h1, h2, h3, h4, h5⟩

/-- Instance of C13: on a fresh group two calls of `Do("k", ...)` in a row
run both functions, each leaving its line in the log. -/
theorem Do_alone_witness :
    ∃ g1 g2 : Group Nat,
      ({ m := none } : Group Nat).Do "k" (fun log => ((some 1, none), log ++ ["fn"])) []
        = some ((some 1, none), g1, ["fn"]) ∧
      g1.Do "k" (fun log => ((some 2, none), log ++ ["fn2"])) ["fn"]
        = some ((some 2, none), g2, ["fn", "fn2"]) :=
  match Do_alone ({ m := none } : Group Nat) "k"
      (fun log => ((some 1, none), log ++ ["fn"]))
      (fun log => ((some 2, none), log ++ ["fn2"])) [] rfl with
  | ⟨g1, g2, h1, _, _, h4, _⟩ => ⟨g1, g2, h1, h4⟩

end singleflight

namespace geecache

namespace Group

variable {W : Type}

theorem getLocally_fields {g g1 : Group W} {key : String} {w w1 : W}
    {r : ByteView × Option String} (h : g.getLocally key w = some (r, g1, w1)) :
    g1.peers = g.peers ∧ g1.loader = g.loader ∧ g1.name = g.name ∧ g1.getter = g.getter := by
  unfold getLocally at h
  split at h
  · cases h
    exact ⟨rfl, rfl, rfl, rfl⟩
  · simp only [populateCache] at h
    cases hadd : g.mainCache.add key { b := cloneBytes ‹List UInt8› } with
    | none =>
      rw [hadd] at h
      cases h
    | some mc =>
      rw [hadd] at h
      cases h
      exact ⟨rfl, rfl, rfl, rfl⟩

theorem load_fields {g g1 : Group W} {key : String} {w w1 : W}
    {r : ByteView × Option String} (h : g.load key w = some (r, g1, w1)) :
    g1.peers = g.peers ∧ g1.loader = g.loader ∧ g1.name = g.name ∧ g1.getter = g.getter := by
  unfold load at h
  split at h
  · split at h
    · split at h
      · cases h
        exact ⟨rfl, rfl, rfl, rfl⟩
      · exact getLocally_fields h
    · exact getLocally_fields h
  · exact getLocally_fields h

/-- A `Get` changes nothing of a group but its local cache: the picker and
the single-flight group are as before. -/
theorem Get_fields {g g1 : Group W} {key : String} {w w1 : W}
    {r : ByteView × Option String} (h : g.Get key w = some (r, g1, w1)) :
    g1.peers = g.peers ∧ g1.loader = g.loader ∧ g1.name = g.name ∧ g1.getter = g.getter := by
  unfold Get at h
  split at h
  · cases h
    exact ⟨rfl, rfl, rfl, rfl⟩
  · split at h
    · cases h
      exact ⟨rfl, rfl, rfl, rfl⟩
    · have h2 := load_fields h
      exact h2

theorem advanceOrigin_eq (g : Group W) (key : String) (w : W) :
    (g.advanceOrigin key w).bind (fun s => s.2.1.advance s.2.2 s.1)
      = (g.getLocally key w).map fun r => (Caller.returned r.1.1 r.1.2, r.2.1, r.2.2) := by
  unfold advanceOrigin getLocally
  split
  · rfl
  · simp only [Option.bind, advance, Option.map_map]
    rfl

/-- A goroutine that runs its three sections of `Get` with no other goroutine
in between does what the method `Get` does. -/
theorem advance_alone (g : Group W) (key : String) (w : W) :
    ((g.advance w (.start key)).bind fun s1 =>
      (s1.2.1.advance s1.2.2 s1.1).bind fun s2 => s2.2.1.advance s2.2.2 s2.1)
      = (g.Get key w).map fun r => (Caller.returned r.1.1 r.1.2, r.2.1, r.2.2) := by
  unfold Get
  by_cases hk : key = ""
  · simp [advance, hk]
  · simp only [advance, hk, if_false]
    rcases hget : g.mainCache.get key with ⟨o, mc⟩
    cases o with
    | some v => simp [advance]
    | none =>
      simp only [Option.bind]
      unfold load
      simp only [advance]
      cases hp : g.peers with
      | none =>
        simp only []
        exact advanceOrigin_eq _ key w
      | some peers =>
        simp only []
        rcases hpick : peers.PickPeer key w with ⟨op, w1⟩
        cases op with
        | none =>
          simp only []
          exact advanceOrigin_eq _ key w1
        | some peer =>
          simp only [getFromPeer]
          rcases hpg : peer.Get g.name key w1 with ⟨⟨b, oe⟩, w2⟩
          cases oe with
          | none => simp [advance]
          | some e =>
            simp only []
            exact advanceOrigin_eq _ key w2

end Group

/-- C12 fails on the code.  Two goroutines call `Get("Tom")` on the group of
`createGroup`, and each runs its cache lookup before the other has loaded:
both miss, both call the origin getter (two search lines in the log), both
return "630", and the single-flight group is still the one `NewGroup` made,
with a nil map: `load` returns through `getLocally` and never enters `Do`. -/
theorem concurrent_Get_loads_twice :
    (createGroup.interleave [] [.start "Tom", .start "Tom"] [0, 1, 0, 1, 0, 1]).map
        (fun r => (r.1, r.2.2, r.2.1.loader.m.isSome))
      = some ([.returned { b := bytesOf "630" } none, .returned { b := bytesOf "630" } none],
          ["[SlowDB] search key Tom", "[SlowDB] search key Tom"], false) := by
  decide

/-- C14 (origin-loader errors propagate).  For a non-empty key that misses
locally and is not served by a peer, when the origin getter returns an error
`e`, `Get` returns the empty `ByteView` with the error `e` and leaves the
group, hence its local cache, as it was. -/
theorem origin_error_propagates {W : Type} (g : Group W) (k : String) (w w0 w1 : W)
    (bytes : List UInt8) (e : String) (hk : k ≠ "")
    (hmiss : (g.mainCache.get k).1 = none)
    (hpeer : g.notServedByPeer k w w0)
    (hget : g.getter k w0 = ((bytes, some e), w1)) :
    g.Get k w = some (({ b := [] }, some e), g, w1) := by
  have hlocal : g.getLocally k w0 = some (({ b := [] }, some e), g, w1) := by
    unfold Group.getLocally
    rw [hget]
  unfold Group.Get
  rw [if_neg hk, (cache.get_miss hmiss).1]
  show Group.load g k w = _
  unfold Group.load
  rcases hpeer with ⟨hp, rfl⟩ | ⟨picker, hp, hpick⟩ | ⟨picker, peer, w2, b2, err, hp, hpick, hpg⟩
  · rw [hp]
    exact hlocal
  · rw [hp]
    simp only [hpick]
    exact hlocal
  · rw [hp]
    simp only [hpick, Group.getFromPeer, hpg]
    exact hlocal

/-- Instance of C14: key "Nobody" on the group "scores" of `main.go` yields
the error "Nobody not exist" and caches nothing. -/
theorem origin_error_propagates_witness :
    createGroup.Get "Nobody" []
      = some (({ b := [] }, some "Nobody not exist"), createGroup,
          ["[SlowDB] search key Nobody"]) :=
  origin_error_propagates createGroup "Nobody" [] [] ["[SlowDB] search key Nobody"] []
    "Nobody not exist" (by decide) rfl (Or.inl ⟨rfl, rfl⟩) (by decide)

/-- C15 (`Get` with the empty key).  For every group, `Get("")` returns the
empty `ByteView` and the error "key is required", and leaves the group and
the outside world as they were: no cache, peer or origin call is made. -/
theorem Get_empty_key {W : Type} (g : Group W) (w : W) :
    g.Get "" w = some (({ b := [] }, some "key is required"), g, w) := by
  unfold Group.Get
  rw [if_pos rfl]

/-- C16, as stated, fails: after `RegisterPeers(nil)` the field `peers` is
still nil, so a second `RegisterPeers` call does not panic and registers its
picker. -/
theorem RegisterPeers_after_nil :
    ∃ g1 g2, createGroup.RegisterPeers none = .ok g1 ∧
      g1.RegisterPeers (some samplePicker) = .ok g2 ∧ g2.peers.isSome = true :=
  ⟨_, _, rfl, rfl, rfl⟩

/-- C16, amended (peers are set at most once).  Once a `RegisterPeers` call
has registered a non-nil picker, the picker stays through every `Get`, and
every later `RegisterPeers` call panics with "RegisterPeerPicker called more
than once", so that the registered picker stays in place. -/
theorem RegisterPeers_once {W : Type} (g g1 : Group W) (picker : PeerPicker W)
    (h : g.RegisterPeers (some picker) = .ok g1) :
    g.peers = none ∧ g1 = { g with peers := some picker } ∧
    (∀ peers2, g1.RegisterPeers peers2 = .error "RegisterPeerPicker called more than once") ∧
    (∀ key w r g2 w2, g1.Get key w = some (r, g2, w2) →
      ∀ peers2, g2.RegisterPeers peers2 = .error "RegisterPeerPicker called more than once") := by
  unfold Group.RegisterPeers at h
  cases hp : g.peers with
  | some p0 =>
    rw [hp] at h
    cases h
  | none =>
    rw [hp] at h
    cases h
    refine ⟨rfl, rfl, ?_, ?_⟩
    · intro peers2
      rfl
    · intro key w r g2 w2 hget peers2
      have := (Group.Get_fields hget).1
      unfold Group.RegisterPeers
      rw [this]

/-- Instance of the amended C16: on the group of `main.go`, after
`RegisterPeers(samplePicker)` a second call panics. -/
theorem RegisterPeers_once_witness :
    sampleGroup.RegisterPeers (some samplePicker)
      = .error "RegisterPeerPicker called more than once" :=
  (RegisterPeers_once createGroup sampleGroup samplePicker rfl).2.2.1 (some samplePicker)

end geecache

namespace consistenthash

/-- A ring built by one `Add` is empty exactly when it got no position. -/
theorem ring_one_keys_length (replicas : Int) (fn : Option Hash) (peers : List String) :
    (ring replicas fn [peers]).keys.length = peers.length * replicas.toNat := by
  obtain ⟨_, _, _, _, a5, _, _⟩ := ring_facts replicas fn [peers]
  rw [a5.length_eq, length_flatMap_positions]
  simp [New]

/-- On a non-empty ring built by one `Add`, the owner of a key is one of the
peers that were added. -/
theorem ring_one_owner_mem (replicas : Int) (fn : Option Hash) (peers : List String)
    (key : String) (hne : (ring replicas fn [peers]).keys ≠ []) :
    Get (ring replicas fn [peers]) key ∈ peers := by
  obtain ⟨_, _, _, a4, _, _, a7⟩ := ring_facts replicas fn [peers]
  obtain ⟨x, hx⟩ := exists_isPick a4 hne ((ring replicas fn [peers]).hash key % 4294967296)
  obtain ⟨p, hp, _, hval⟩ := a7 x hx.1
  rw [Get_eq_of_isPick a4 hx, hval]
  simpa using hp

end consistenthash

namespace geecache

theorem foldl_getters (bp : String) (peers : List String) (init : String → Option httpGetter)
    (k : String) :
    (peers.foldl
      (fun hg peer => fun k1 => if k1 = peer then some { baseURL := peer ++ bp } else hg k1)
      init) k = if k ∈ peers then some { baseURL := k ++ bp } else init k := by
  induction peers generalizing init with
  | nil => simp
  | cons p ps ih =>
    rw [List.foldl_cons, ih]
    by_cases h1 : k ∈ ps
    · simp [h1]
    · by_cases h2 : k = p
      · simp [h2]
      · simp [h1, h2]

theorem Set_httpGetters (p : HTTPPool) (peers : List String) (k : String) :
    (p.Set peers).httpGetters k = if k ∈ peers then some { baseURL := k ++ p.basePath } else none :=
  foldl_getters p.basePath peers (fun _ => none) k

/-- What `PickPeer` returns on a pool after `Set(peers...)`, in terms of the
owner of the key on the ring that `Set` built. -/
theorem PickPeer_Set (p : HTTPPool) (peers : List String) (key : String) :
    (p.Set peers).PickPeer key
      = (if consistenthash.Get (consistenthash.ring defaultReplicas none [peers]) key ≠ "" ∧
            consistenthash.Get (consistenthash.ring defaultReplicas none [peers]) key ≠ p.self
          then .ok (some { baseURL :=
            consistenthash.Get (consistenthash.ring defaultReplicas none [peers]) key
              ++ p.basePath }, true)
          else .ok (none, false)) ∧
    (peers = [] →
      consistenthash.Get (consistenthash.ring defaultReplicas none [peers]) key = "") ∧
    (peers ≠ [] →
      consistenthash.Get (consistenthash.ring defaultReplicas none [peers]) key ∈ peers) := by
  have hlen := consistenthash.ring_one_keys_length defaultReplicas none peers
  refine ⟨?_, ?_, ?_⟩
  · show (if consistenthash.Get (consistenthash.ring defaultReplicas none [peers]) key ≠ "" ∧
          consistenthash.Get (consistenthash.ring defaultReplicas none [peers]) key ≠ p.self
        then Except.ok ((p.Set peers).httpGetters
          (consistenthash.Get (consistenthash.ring defaultReplicas none [peers]) key), true)
        else Except.ok (none, false)) = _
    by_cases hc : consistenthash.Get (consistenthash.ring defaultReplicas none [peers]) key ≠ "" ∧
        consistenthash.Get (consistenthash.ring defaultReplicas none [peers]) key ≠ p.self
    · rw [if_pos hc, if_pos hc]
      have hne : (consistenthash.ring defaultReplicas none [peers]).keys ≠ [] := by
        intro hnil
        exact hc.1 (consistenthash.Get_nil hnil key)
      have hmem := consistenthash.ring_one_owner_mem defaultReplicas none peers key hne
      rw [Set_httpGetters, if_pos hmem]
    · rw [if_neg hc, if_neg hc]
  · intro hnil
    apply consistenthash.Get_nil
    apply List.length_eq_zero.1
    rw [hlen, hnil]
    rfl
  · intro hne
    apply consistenthash.ring_one_owner_mem
    intro hnil
    have hpos : 0 < peers.length := List.length_pos.2 hne
    have h50 : defaultReplicas.toNat = 50 := rfl
    have h0 : peers.length * 50 = 0 := by
      rw [← h50, ← hlen, hnil]
      rfl
    omega

/-- C17, as stated, fails.  On a pool on which `Set` was never called the
ring is nil and `PickPeer` panics; and on a pool whose only peer is the empty
address, peers exist and the owner differs from the pool's own address, yet
`PickPeer` returns `(nil, false)`. -/
theorem PickPeer_without_Set :
    (NewHTTPPool "http://localhost:8001").PickPeer "Tom"
      = .error "invalid memory address or nil pointer dereference" ∧
    ((NewHTTPPool "http://localhost:8001").Set [""]).PickPeer "Tom" = .ok (none, false) := by
  refine ⟨rfl, ?_⟩
  obtain ⟨h1, _, h3⟩ := PickPeer_Set (NewHTTPPool "http://localhost:8001") [""] "Tom"
  have hmem := h3 (by simp)
  rw [h1, if_neg]
  rintro ⟨hne, _⟩
  exact hne (List.mem_singleton.1 hmem)

/-- C17, amended (`PickPeer` after `Set`).  On every pool on which `Set` has
been called, for every key: `PickPeer` returns `(nil, false)` when `Set` got
no peers, and when the owner of the key on the ring is the pool's own address
or the empty address; otherwise the owner is one of the peers given to `Set`
and `PickPeer` returns the getter `Set` made for it, with base URL
`owner + basePath`, and `true`. -/
theorem PickPeer_after_Set (p : HTTPPool) (peers : List String) (key : String) :
    (peers = [] → (p.Set peers).PickPeer key = .ok (none, false)) ∧
    (consistenthash.Get (consistenthash.ring defaultReplicas none [peers]) key = p.self ∨
      consistenthash.Get (consistenthash.ring defaultReplicas none [peers]) key = "" →
      (p.Set peers).PickPeer key = .ok (none, false)) ∧
    (consistenthash.Get (consistenthash.ring defaultReplicas none [peers]) key ≠ p.self →
      consistenthash.Get (consistenthash.ring defaultReplicas none [peers]) key ≠ "" →
      consistenthash.Get (consistenthash.ring defaultReplicas none [peers]) key ∈ peers ∧
      (p.Set peers).httpGetters
          (consistenthash.Get (consistenthash.ring defaultReplicas none [peers]) key)
        = some { baseURL :=
            consistenthash.Get (consistenthash.ring defaultReplicas none [peers]) key
              ++ p.basePath } ∧
      (p.Set peers).PickPeer key
        = .ok ((p.Set peers).httpGetters
            (consistenthash.Get (consistenthash.ring defaultReplicas none [peers]) key),
          true)) ∧
    (p.Set peers).self = p.self ∧ (p.Set peers).basePath = p.basePath := by
  obtain ⟨h1, h2, h3⟩ := PickPeer_Set p peers key
  refine ⟨?_, ?_, ?_, rfl, rfl⟩
  · intro hnil
    rw [h1, if_neg]
    rintro ⟨hne, _⟩
    exact hne (h2 hnil)
  · intro hor
    rw [h1, if_neg]
    rintro ⟨hne, hself⟩
    rcases hor with h | h
    · exact hself h
    · exact hne h
  · intro hself hne
    have hpe : peers ≠ [] := fun hnil => hne (h2 hnil)
    have hmem := h3 hpe
    have hg : (p.Set peers).httpGetters
        (consistenthash.Get (consistenthash.ring defaultReplicas none [peers]) key)
        = some { baseURL :=
            consistenthash.Get (consistenthash.ring defaultReplicas none [peers]) key
              ++ p.basePath } := by
      rw [Set_httpGetters, if_pos hmem]
    refine ⟨hmem, hg, ?_⟩
    rw [h1, if_pos ⟨hne, hself⟩, hg]

/-- Instance of the amended C17: the pool of the node at port 8001 whose only
peer is the node at port 8002 picks that node, with the getter `Set` made. -/
theorem PickPeer_after_Set_witness :
    ((NewHTTPPool "http://localhost:8001").Set ["http://localhost:8002"]).PickPeer "Tom"
      = .ok (some { baseURL := "http://localhost:8002/_geecache/" }, true) := by
  have hmem := (PickPeer_Set (NewHTTPPool "http://localhost:8001")
    ["http://localhost:8002"] "Tom").2.2 (by simp)
  have hown := List.mem_singleton.1 hmem
  obtain ⟨_, hg, hp⟩ := (PickPeer_after_Set (NewHTTPPool "http://localhost:8001")
    ["http://localhost:8002"] "Tom").2.2.1 (by rw [hown]; decide) (by rw [hown]; decide)
  rw [hp, hg, hown]
  rfl

theorem splitSlash_none {l : List Char} : splitSlash l = none ↔ '/' ∉ l := by
  induction l with
  | nil => simp [splitSlash]
  | cons c cs ih =>
    unfold splitSlash
    by_cases hc : c = '/'
    · simp [hc]
    · rw [if_neg hc]
      simp only [Option.map_eq_none', ih, List.mem_cons, not_or]
      constructor
      · intro h
        exact ⟨fun hh => hc hh.symm, h⟩
      · intro h
        exact h.2

theorem splitSlash_some {l a b : List Char} (h : splitSlash l = some (a, b)) :
    l = a ++ '/' :: b ∧ '/' ∉ a := by
  induction l generalizing a with
  | nil => simp [splitSlash] at h
  | cons c cs ih =>
    unfold splitSlash at h
    by_cases hc : c = '/'
    · rw [if_pos hc] at h
      cases h
      simp [hc]
    · rw [if_neg hc] at h
      cases hs : splitSlash cs with
      | none => rw [hs] at h; cases h
      | some parts =>
        rw [hs] at h
        cases h
        obtain ⟨h1, h2⟩ := ih (a := parts.1) (by rw [hs])
        refine ⟨by rw [List.cons_append, ← h1], ?_⟩
        simp only [List.mem_cons, not_or]
        exact ⟨fun hh => hc hh.symm, h2⟩

theorem splitSlash_append {a : List Char} (b : List Char) (h : '/' ∉ a) :
    splitSlash (a ++ '/' :: b) = some (a, b) := by
  induction a with
  | nil => simp [splitSlash]
  | cons c cs ih =>
    simp only [List.mem_cons, not_or] at h
    have hc : ¬ c = '/' := fun hh => h.1 hh.symm
    rw [List.cons_append]
    unfold splitSlash
    rw [if_neg hc, ih h.2]
    rfl

end geecache

namespace geerpc

namespace Client

theorem registerCall_ok {client : Client} (call : Call)
    (h1 : client.closing = false) (h2 : client.shutdown = false) :
    client.registerCall call
      = ((client.seq, none), { call with Seq := client.seq },
          { client with
            pending := fun s => if s = client.seq then some { call with Seq := client.seq }
              else client.pending s
            seq := (client.seq + 1) % 18446744073709551616 }) := by
  unfold registerCall
  rw [h1, h2]
  rfl

theorem registerCall_fail {client : Client} (call : Call)
    (h : client.closing = true ∨ client.shutdown = true) :
    client.registerCall call = ((0, some ErrShutdown), call, client) := by
  unfold registerCall
  rw [if_pos]
  rcases h with h | h <;> simp [h]

/-- Effect of one call on the sequence number: a successful `registerCall`
returns it and moves it on by one modulo `2^64`, every other call leaves it. -/
theorem step_seq (client : Client) (op : ClientOp) :
    ((client.step op).2 = some client.seq ∧
      (client.step op).1.seq = (client.seq + 1) % 18446744073709551616) ∨
    ((client.step op).2 = none ∧ (client.step op).1.seq = client.seq) := by
  cases op with
  | register call =>
    by_cases h : client.closing = true ∨ client.shutdown = true
    · right
      have hs : client.step (.register call) = (client, none) := by
        simp only [step, registerCall_fail call h]
      rw [hs]
      exact ⟨rfl, rfl⟩
    · left
      have h1 : client.closing = false := by
        cases hc : client.closing with
        | false => rfl
        | true => exact absurd (Or.inl hc) h
      have h2 : client.shutdown = false := by
        cases hc : client.shutdown with
        | false => rfl
        | true => exact absurd (Or.inr hc) h
      have hs : client.step (.register call)
          = ({ client with
              pending := fun s => if s = client.seq then some { call with Seq := client.seq }
                else client.pending s
              seq := (client.seq + 1) % 18446744073709551616 }, some client.seq) := by
        simp only [step, registerCall_ok call h1 h2]
      rw [hs]
      exact ⟨rfl, rfl⟩
  | remove seq => exact Or.inr ⟨rfl, rfl⟩
  | close ccClose =>
    right
    refine ⟨rfl, ?_⟩
    simp only [step, Close]
    split <;> rfl
  | terminate err => exact Or.inr ⟨rfl, rfl⟩

/-- The sequence numbers handed out by a run that starts at `client.seq` with
`client.seq + n < 2^64`, `n` the number of successful `registerCall`s, are
`client.seq, client.seq + 1, ...`, and the next one is `client.seq + n`. -/
theorem run_seq (ops : List ClientOp) :
    ∀ client : Client,
      client.seq + (client.run ops).2.length < 18446744073709551616 →
      (client.run ops).2 = List.range' client.seq (client.run ops).2.length ∧
      (client.run ops).1.seq = client.seq + (client.run ops).2.length := by
  induction ops with
  | nil =>
    intro client _
    simp [run]
  | cons op ops ih =>
    intro client hlt
    rcases step_seq client op with ⟨hs, hseq⟩ | ⟨hs, hseq⟩
    · have hrun : client.run (op :: ops)
          = ((run (client.step op).1 ops).1, client.seq :: (run (client.step op).1 ops).2) := by
        simp only [run, hs]
      rw [hrun] at hlt ⊢
      simp only [List.length_cons] at hlt ⊢
      have hmod : (client.seq + 1) % 18446744073709551616 = client.seq + 1 :=
        Nat.mod_eq_of_lt (by omega)
      rw [hmod] at hseq
      obtain ⟨h1, h2⟩ := ih (client.step op).1 (by rw [hseq]; omega)
      rw [hseq] at h1 h2
      refine ⟨?_, by rw [h2]; omega⟩
      rw [List.range'_succ, ← h1]
    · have hrun : client.run (op :: ops) = run (client.step op).1 ops := by
        simp only [run, hs]
      rw [hrun] at hlt ⊢
      obtain ⟨h1, h2⟩ := ih (client.step op).1 (by rw [hseq]; exact hlt)
      rw [hseq] at h1 h2
      exact ⟨h1, h2⟩

theorem Close_of_closing {client : Client} (h : client.closing = true)
    (ccClose : Option String) : client.Close ccClose = (some ErrShutdown, client) := by
  unfold Close
  rw [if_pos h]

theorem step_closing (client : Client) (op : ClientOp) (h : client.closing = true) :
    (client.step op).1.closing = true := by
  cases op with
  | register call =>
    simp only [step, registerCall_fail call (Or.inl h)]
    exact h
  | remove seq => exact h
  | close ccClose =>
    simp only [step, Close, h, if_true]
  | terminate err => exact h

theorem run_closing (ops : List ClientOp) :
    ∀ client : Client, client.closing = true → (client.run ops).1.closing = true := by
  induction ops with
  | nil =>
    intro client h
    exact h
  | cons op ops ih =>
    intro client h
    have h1 := ih (client.step op).1 (step_closing client op h)
    unfold run
    split
    · exact h1
    · exact h1

end Client

/-- C19 (client sequence numbers).  On a client made by `newClientCodec`,
through any calls of `registerCall`, `removeCall`, `Close` and
`terminateCalls`, the successful `registerCall`s return 1, 2, 3, ... in this
order, as long as fewer than `2^64` of them were made, and the next number is
one more than their count.  A successful `registerCall` stores the call in
`pending` under the number it returns, which is also the call's `Seq`; and
`removeCall` does not change the next number. -/
theorem client_sequence_numbers (ops : List ClientOp)
    (h : (newClientCodec.run ops).2.length + 1 < 18446744073709551616) :
    (newClientCodec.run ops).2 = List.range' 1 (newClientCodec.run ops).2.length ∧
    (newClientCodec.run ops).1.seq = (newClientCodec.run ops).2.length + 1 ∧
    (0 ∉ (newClientCodec.run ops).2 ∧ (newClientCodec.run ops).2.Nodup) ∧
    (∀ (client : Client) (call : Call), client.closing = false → client.shutdown = false →
      (client.registerCall call).1 = (client.seq, none) ∧
      (client.registerCall call).2.1.Seq = client.seq ∧
      (client.registerCall call).2.2.pending client.seq = some (client.registerCall call).2.1) ∧
    (∀ (client : Client) (seq : Nat), (client.removeCall seq).2.seq = client.seq) := by
  obtain ⟨h1, h2⟩ := Client.run_seq ops newClientCodec (by
    show 1 + _ < _
    omega)
  have h1' : (newClientCodec.run ops).2 = List.range' 1 (newClientCodec.run ops).2.length := h1
  refine ⟨h1', ?_, ⟨?_, ?_⟩, ?_, ?_⟩
  · rw [h2]
    show 1 + _ = _
    omega
  · rw [h1']
    simp only [List.mem_range'_1, not_and, not_lt]
    intro h0
    omega
  · rw [h1']
    exact List.nodup_range' 1 _
  · intro client call hc hs
    rw [Client.registerCall_ok call hc hs]
    simp
  · intro client seq
    rfl

/-- Instance of C19: two registrations with a removal in between get the
numbers 1 and 2. -/
theorem client_sequence_numbers_witness :
    (newClientCodec.run [.register { Seq := 0, ServiceMethod := "Foo.Sum", Error := none },
        .remove 1,
        .register { Seq := 0, ServiceMethod := "Foo.Sum", Error := none }]).2 = [1, 2] ∧
    (newClientCodec.run [.register { Seq := 0, ServiceMethod := "Foo.Sum", Error := none },
        .remove 1,
        .register { Seq := 0, ServiceMethod := "Foo.Sum", Error := none }]).1.seq = 3 :=
  ⟨by decide,
   (client_sequence_numbers [.register { Seq := 0, ServiceMethod := "Foo.Sum", Error := none },
        .remove 1,
        .register { Seq := 0, ServiceMethod := "Foo.Sum", Error := none }] (by decide)).2.1⟩

/-- C20 (`registerCall` on an unavailable client).  For every client,
`registerCall` returns `(0, ErrShutdown)` exactly when `closing` or
`shutdown` is set, and then leaves the client (its `seq` and `pending`
included) and the call as they were.  After a `Close`, through any later
calls, every `registerCall` fails and every further `Close` returns
`ErrShutdown`. -/
theorem registerCall_unavailable (client : Client) (call : Call) (ccClose : Option String)
    (ops : List ClientOp) :
    ((client.registerCall call).1 = (0, some ErrShutdown) ↔
      (client.closing = true ∨ client.shutdown = true)) ∧
    (client.closing = true ∨ client.shutdown = true →
      (client.registerCall call).2 = (call, client)) ∧
    (client.closing = false → (client.Close ccClose).1 = ccClose) ∧
    (∀ call2, (((client.Close ccClose).2.run ops).1.registerCall call2).1
      = (0, some ErrShutdown)) ∧
    (∀ ccClose2, (((client.Close ccClose).2.run ops).1.Close ccClose2).1 = some ErrShutdown) ∧
    (client.Close ccClose).2.IsAvailable = false := by
  have hclosed : (client.Close ccClose).2.closing = true := by
    unfold Client.Close
    split
    · assumption
    · rfl
  have hrun := Client.run_closing ops _ hclosed
  refine ⟨?_, ?_, ?_, ?_, ?_, ?_⟩
  · constructor
    · intro h
      by_contra hn
      have h1 : client.closing = false := by
        cases hc : client.closing with
        | false => rfl
        | true => exact absurd (Or.inl hc) hn
      have h2 : client.shutdown = false := by
        cases hc : client.shutdown with
        | false => rfl
        | true => exact absurd (Or.inr hc) hn
      rw [Client.registerCall_ok call h1 h2] at h
      exact absurd (congrArg Prod.snd h) (by simp)
    · intro h
      rw [Client.registerCall_fail call h]
  · intro h
    rw [Client.registerCall_fail call h]
  · intro h
    unfold Client.Close
    rw [h]
    rfl
  · intro call2
    rw [Client.registerCall_fail call2 (Or.inl hrun)]
  · intro ccClose2
    rw [Client.Close_of_closing hrun]
  · unfold Client.IsAvailable
    rw [hclosed]
    simp

end geerpc

namespace strings

theorem LastIndex_of_not_mem {s : List Char} {sep : Char} (h : sep ∉ s) :
    LastIndex s sep = -1 := by
  unfold LastIndex
  rw [if_neg h]

theorem LastIndex_append {a b : List Char} {sep : Char} (h : sep ∉ b) :
    LastIndex (a ++ sep :: b) sep = (a.length : Int) := by
  unfold LastIndex
  rw [if_pos (by simp)]
  have hr : (a ++ sep :: b).reverse = b.reverse ++ sep :: a.reverse := by simp
  rw [hr, List.indexOf_append_of_not_mem (by simpa using h), List.indexOf_cons_self]
  simp only [List.length_append, List.length_cons, List.length_reverse]
  congr 1
  omega

theorem exists_last {s : List Char} {sep : Char} (h : sep ∈ s) :
    ∃ a b, s = a ++ sep :: b ∧ sep ∉ b := by
  obtain ⟨as, bs, hs, hn⟩ := List.eq_append_cons_of_mem (List.mem_reverse.2 h)
  refine ⟨bs.reverse, as.reverse, ?_, by simpa using hn⟩
  have := congrArg List.reverse hs
  simpa using this

theorem splitChars_ne_nil (sep : Char) (s : List Char) : splitChars sep s ≠ [] := by
  cases s with
  | nil => simp [splitChars]
  | cons c cs =>
    unfold splitChars
    split
    · simp
    · split <;> simp

theorem splitChars_cons_self (sep : Char) (cs : List Char) :
    splitChars sep (sep :: cs) = [] :: splitChars sep cs := by
  rw [splitChars, if_pos rfl]

theorem splitChars_cons_ne {sep c : Char} (hc : c ≠ sep) (cs : List Char) :
    splitChars sep (c :: cs)
      = match splitChars sep cs with
        | [] => [[c]]
        | p :: ps => (c :: p) :: ps := by
  rw [splitChars, if_neg hc]

theorem splitChars_of_not_mem {sep : Char} {s : List Char} (h : sep ∉ s) :
    splitChars sep s = [s] := by
  induction s with
  | nil => rfl
  | cons c cs ih =>
    have hc : c ≠ sep := fun e => h (by simp [e])
    have hcs : sep ∉ cs := fun e => h (List.mem_cons_of_mem _ e)
    unfold splitChars
    rw [if_neg hc, ih hcs]

theorem splitChars_append {sep : Char} {a : List Char} (h : sep ∉ a) (rest : List Char) :
    splitChars sep (a ++ sep :: rest) = a :: splitChars sep rest := by
  induction a with
  | nil =>
    exact splitChars_cons_self sep rest
  | cons c cs ih =>
    have hc : c ≠ sep := fun e => h (by simp [e])
    have hcs : sep ∉ cs := fun e => h (List.mem_cons_of_mem _ e)
    show splitChars sep (c :: (cs ++ sep :: rest)) = _
    rw [splitChars_cons_ne hc, ih hcs]

theorem splitChars_eq_single {sep : Char} {s a : List Char} (h : splitChars sep s = [a]) :
    s = a ∧ sep ∉ a := by
  induction s generalizing a with
  | nil =>
    cases h
    exact ⟨rfl, by simp⟩
  | cons c cs ih =>
    unfold splitChars at h
    split at h
    · simp only [List.cons.injEq] at h
      exact absurd h.2 (splitChars_ne_nil sep cs)
    · rename_i hc
      split at h
      · rename_i hnil
        exact absurd hnil (splitChars_ne_nil sep cs)
      · rename_i p ps hps
        simp only [List.cons.injEq] at h
        obtain ⟨rfl, rfl⟩ := h
        obtain ⟨h1, h2⟩ := ih hps
        refine ⟨by rw [h1], ?_⟩
        simp only [List.mem_cons, not_or]
        exact ⟨fun e => hc e.symm, h2⟩

theorem splitChars_eq_pair {sep : Char} {s p a : List Char} (h : splitChars sep s = [p, a]) :
    s = p ++ sep :: a ∧ sep ∉ p ∧ sep ∉ a := by
  induction s generalizing p with
  | nil => cases h
  | cons c cs ih =>
    unfold splitChars at h
    split at h
    · rename_i hc
      simp only [List.cons.injEq] at h
      obtain ⟨rfl, h2⟩ := h
      obtain ⟨h3, h4⟩ := splitChars_eq_single h2
      exact ⟨by rw [hc, h3]; rfl, by simp, h4⟩
    · rename_i hc
      split at h
      · rename_i hnil
        exact absurd hnil (splitChars_ne_nil sep cs)
      · rename_i q qs hqs
        simp only [List.cons.injEq] at h
        obtain ⟨rfl, rfl⟩ := h
        obtain ⟨h1, h2, h3⟩ := ih hqs
        refine ⟨by rw [h1]; rfl, ?_, h3⟩
        simp only [List.mem_cons, not_or]
        exact ⟨fun e => hc e.symm, h2⟩

theorem Split_pair {sep : Char} {p a : String} (hp : sep ∉ p.toList) (ha : sep ∉ a.toList) :
    Split (p ++ String.singleton sep ++ a) sep = [p, a] := by
  unfold Split
  have hl : (p ++ String.singleton sep ++ a).toList = p.toList ++ sep :: a.toList := by
    simp [String.toList, String.singleton]
  rw [hl, splitChars_append hp, splitChars_of_not_mem ha]
  rfl

/-- Splitting at the separator undoes joining with it, for items without
the separator; the empty list of items comes back as one empty item. -/
theorem Split_Join (sep : Char) (L : List String) (h : ∀ a ∈ L, sep ∉ a.toList) :
    Split (Join L (String.singleton sep)) sep = if L = [] then [""] else L := by
  induction L with
  | nil => rfl
  | cons a rest ih =>
    cases rest with
    | nil =>
      rw [if_neg (by simp)]
      show Split a sep = [a]
      unfold Split
      rw [splitChars_of_not_mem (h a (by simp))]
      rfl
    | cons b rest =>
      rw [if_neg (by simp)]
      have ih2 := ih (fun x hx => h x (List.mem_cons_of_mem _ hx))
      rw [if_neg (by simp)] at ih2
      show Split (a ++ String.singleton sep ++ Join (b :: rest) (String.singleton sep)) sep = _
      unfold Split at ih2 ⊢
      have hl : (a ++ String.singleton sep ++ Join (b :: rest) (String.singleton sep)).toList
          = a.toList ++ sep :: (Join (b :: rest) (String.singleton sep)).toList := by
        simp [String.toList, String.singleton]
      rw [hl, splitChars_append (h a (by simp)), List.map_cons, ih2]
      rfl

theorem dropWhile_isSpace_of_head {l : List Char}
    (h : ∀ c, l.head? = some c → isSpace c = false) : l.dropWhile isSpace = l := by
  cases l with
  | nil => rfl
  | cons c cs =>
    rw [List.dropWhile_cons_of_neg]
    rw [h c rfl]
    simp

/-- A string that neither starts nor ends with white space is left as it is
by `TrimSpace`. -/
theorem TrimSpace_id {a : String} (h1 : ∀ c, a.toList.head? = some c → isSpace c = false)
    (h2 : ∀ c, a.toList.getLast? = some c → isSpace c = false) : TrimSpace a = a := by
  unfold TrimSpace
  rw [dropWhile_isSpace_of_head h1, dropWhile_isSpace_of_head (by simpa using h2)]
  simp [String.toList]

end strings

namespace geerpc

theorem findService_split (server : Server) (serviceName methodName : String)
    (h : '.' ∉ methodName.toList) :
    server.findService (serviceName ++ "." ++ methodName)
      = match server.serviceMap serviceName with
        | none => (none, none, some ("rpc server: can't find service " ++ serviceName))
        | some svc =>
          match svc.method methodName with
          | none => (some svc, none, some ("rpc server: can't find method " ++ methodName))
          | some mtype => (some svc, some mtype, none) := by
  have hl : (serviceName ++ "." ++ methodName).toList
      = serviceName.toList ++ '.' :: methodName.toList := by
    simp [String.toList]
  have htake : (serviceName.toList ++ '.' :: methodName.toList).take serviceName.toList.length
      = serviceName.toList := by simp
  have hdrop : (serviceName.toList ++ '.' :: methodName.toList).drop
      (serviceName.toList.length + 1) = methodName.toList := by
    rw [← List.drop_drop, List.drop_left]
    rfl
  unfold Server.findService
  simp only [hl, strings.LastIndex_append h, Int.toNat_ofNat, htake, hdrop]
  rw [if_neg (Int.not_lt.2 (Int.ofNat_nonneg _))]
  rfl

/-- C21 (`findService` resolves by the last dot).  A string without a '.'
gets the error "service/method request ill-formed" and no service.  Every
other string is `serviceName ++ "." ++ methodName` with no '.' in
`methodName`, and for it `findService` returns: the error "can't find service"
when `serviceName` is not registered; the error "can't find method" (with the
service) when `methodName` is not a method of the registered service; and
otherwise exactly the registered service and the descriptor of the method,
with a nil error.  Hence the error is non-nil exactly in the three cases. -/
theorem findService_by_last_dot (server : Server) (serviceMethod : String) :
    ('.' ∉ serviceMethod.toList →
      server.findService serviceMethod
        = (none, none,
            some ("rpc server: service/method request ill-formed: " ++ serviceMethod))) ∧
    ('.' ∈ serviceMethod.toList →
      ∃ serviceName methodName, serviceMethod = serviceName ++ "." ++ methodName ∧
        '.' ∉ methodName.toList) ∧
    (∀ serviceName methodName, serviceMethod = serviceName ++ "." ++ methodName →
      '.' ∉ methodName.toList →
      (server.serviceMap serviceName = none →
        server.findService serviceMethod
          = (none, none, some ("rpc server: can't find service " ++ serviceName))) ∧
      (∀ svc, server.serviceMap serviceName = some svc → svc.method methodName = none →
        server.findService serviceMethod
          = (some svc, none, some ("rpc server: can't find method " ++ methodName))) ∧
      (∀ svc mtype, server.serviceMap serviceName = some svc →
        svc.method methodName = some mtype →
        server.findService serviceMethod = (some svc, some mtype, none))) ∧
    ((server.findService serviceMethod).2.2 ≠ none ↔
      ('.' ∉ serviceMethod.toList ∨
        ∃ serviceName methodName, serviceMethod = serviceName ++ "." ++ methodName ∧
          '.' ∉ methodName.toList ∧
          (server.serviceMap serviceName = none ∨
            ∃ svc, server.serviceMap serviceName = some svc ∧ svc.method methodName = none))) := by
  have hno : '.' ∉ serviceMethod.toList →
      server.findService serviceMethod
        = (none, none,
            some ("rpc server: service/method request ill-formed: " ++ serviceMethod)) := by
    intro h
    unfold Server.findService
    simp only [strings.LastIndex_of_not_mem h]
    rw [if_pos (by omega)]
  have hex : '.' ∈ serviceMethod.toList →
      ∃ serviceName methodName, serviceMethod = serviceName ++ "." ++ methodName ∧
        '.' ∉ methodName.toList := by
    intro h
    obtain ⟨a, b, hs, hb⟩ := strings.exists_last h
    refine ⟨String.mk a, String.mk b, ?_, hb⟩
    apply String.ext
    have : serviceMethod.data = a ++ '.' :: b := hs
    simp [this]
  refine ⟨hno, hex, ?_, ?_⟩
  · intro serviceName methodName hs hm
    subst hs
    rw [findService_split server serviceName methodName hm]
    refine ⟨?_, ?_, ?_⟩
    · intro h
      rw [h]
    · intro svc h1 h2
      rw [h1]
      simp only [h2]
    · intro svc mtype h1 h2
      rw [h1]
      simp only [h2]
  · by_cases hdot : '.' ∈ serviceMethod.toList
    · obtain ⟨serviceName, methodName, hs, hm⟩ := hex hdot
      have hsplit := findService_split server serviceName methodName hm
      rw [← hs] at hsplit
      constructor
      · intro herr
        right
        refine ⟨serviceName, methodName, hs, hm, ?_⟩
        cases h1 : server.serviceMap serviceName with
        | none => exact Or.inl rfl
        | some svc =>
          right
          refine ⟨svc, rfl, ?_⟩
          cases h2 : svc.method methodName with
          | none => rfl
          | some mtype =>
            rw [hsplit, h1] at herr
            simp only [h2] at herr
            exact absurd rfl herr
      · rintro (h | ⟨sn, mn, hs2, hm2, hcase⟩)
        · exact absurd hdot h
        · have hsplit2 := findService_split server sn mn hm2
          rw [← hs2] at hsplit2
          rw [hsplit2]
          rcases hcase with h1 | ⟨svc, h1, h2⟩
          · rw [h1]
            simp
          · rw [h1]
            simp only [h2]
            simp
    · rw [hno hdot]
      exact ⟨fun _ => Or.inl hdot, fun _ => by simp⟩

/-- Instance of C21: on a server with the service `Foo`, "Foo.Sum" resolves
to `Foo` and its method `Sum`, and "Foo.Bar.Sum" asks for a service "Foo.Bar",
which is not registered. -/
theorem findService_by_last_dot_witness :
    sampleServer.findService "Foo.Sum"
      = (some Foo, some { method := "Sum", ArgType := "Args", ReplyType := "*int" }, none) ∧
    (sampleServer.findService "Foo.Bar.Sum").2.2 ≠ none :=
  ⟨((findService_by_last_dot sampleServer "Foo.Sum").2.2.1 "Foo" "Sum" (by decide)
      (by decide)).2.2 Foo _ rfl rfl,
   (findService_by_last_dot sampleServer "Foo.Bar.Sum").2.2.2.2
    (Or.inr ⟨"Foo.Bar", "Sum", by decide, by decide, Or.inl rfl⟩)⟩

theorem XDial_split (protocol addr : String) (opts : List RPCOption)
    (hp : '@' ∉ protocol.toList) (ha : '@' ∉ addr.toList) :
    XDial (protocol ++ "@" ++ addr) opts
      = if protocol = "http" then .ok (.DialHTTP "tcp" addr opts)
        else .ok (.Dial protocol addr opts) := by
  unfold XDial
  have hs : strings.Split (protocol ++ "@" ++ addr) '@' = [protocol, addr] :=
    strings.Split_pair hp ha
  simp only [hs]
  rfl

/-- C25 (`XDial` routes by protocol).  The form `protocol@address` is read as
one '@' between a protocol and an address that hold no '@'.  For every string
of this form `XDial` ends in `DialHTTP("tcp", address, opts...)` when the
protocol is "http" and in `Dial(protocol, address, opts...)` otherwise; for
every other string it returns the error "rpc client err: wrong format ..."
and dials nothing. -/
theorem XDial_routes (opts : List RPCOption) :
    (∀ protocol addr : String, '@' ∉ protocol.toList → '@' ∉ addr.toList →
      XDial (protocol ++ "@" ++ addr) opts
        = if protocol = "http" then .ok (.DialHTTP "tcp" addr opts)
          else .ok (.Dial protocol addr opts)) ∧
    (∀ rpcAddr : String,
      (¬ ∃ protocol addr : String, '@' ∉ protocol.toList ∧ '@' ∉ addr.toList ∧
        rpcAddr = protocol ++ "@" ++ addr) →
      XDial rpcAddr opts
        = .error ("rpc client err: wrong format '" ++ rpcAddr ++ "', expect protocol@addr")) := by
  refine ⟨fun protocol addr hp ha => XDial_split protocol addr opts hp ha, ?_⟩
  intro rpcAddr hform
  unfold XDial
  simp only []
  rw [if_pos]
  intro hlen
  apply hform
  unfold strings.Split at hlen
  rw [List.length_map] at hlen
  match hsp : strings.splitChars '@' rpcAddr.toList, hlen with
  | [p, a], _ =>
    obtain ⟨h1, h2, h3⟩ := strings.splitChars_eq_pair hsp
    refine ⟨String.mk p, String.mk a, h2, h3, ?_⟩
    apply String.ext
    have : rpcAddr.data = p ++ '@' :: a := h1
    simp [this]

/-- Instance of C25: the three addresses of the comment of `XDial`, and a
string with two '@'. -/
theorem XDial_routes_witness :
    XDial ("http" ++ "@" ++ "10.0.0.1:7001") [] = .ok (.DialHTTP "tcp" "10.0.0.1:7001" []) ∧
    XDial ("unix" ++ "@" ++ "/tmp/geerpc.sock") []
      = .ok (.Dial "unix" "/tmp/geerpc.sock" []) ∧
    XDial "tcp@a@b" [] = .error "rpc client err: wrong format 'tcp@a@b', expect protocol@addr" :=
  ⟨(XDial_routes []).1 "http" "10.0.0.1:7001" (by decide) (by decide),
   (XDial_routes []).1 "unix" "/tmp/geerpc.sock" (by decide) (by decide),
   rfl⟩

/-- C30 (registry header round trip).  For every list `L` of addresses that
are non-empty, hold no comma and neither start nor end with white space,
parsing `strings.Join(L, ",")` as `Refresh` does gives `L` back, in the same
order; the empty list comes back as the empty list. -/
theorem registry_header_round_trip (L : List String)
    (h : ∀ a ∈ L, a ≠ "" ∧ ',' ∉ a.toList ∧
      (∀ c, a.toList.head? = some c → strings.isSpace c = false) ∧
      (∀ c, a.toList.getLast? = some c → strings.isSpace c = false)) :
    xclient.parseServers (strings.Join L ",") = L ∧
    xclient.parseServers (strings.Join [] ",") = [] := by
  refine ⟨?_, by decide⟩
  unfold xclient.parseServers
  have hsplit := strings.Split_Join ',' L (fun a ha => (h a ha).2.1)
  have hsep : String.singleton ',' = "," := rfl
  rw [hsep] at hsplit
  rw [hsplit]
  by_cases hL : L = []
  · subst hL
    decide
  · rw [if_neg hL]
    clear hsplit hL
    induction L with
    | nil => rfl
    | cons a rest ih =>
      obtain ⟨hne, _, h1, h2⟩ := h a (by simp)
      have ht := strings.TrimSpace_id h1 h2
      rw [List.filterMap_cons]
      simp only [ht, hne, ne_eq, not_false_eq_true, if_true]
      rw [ih (fun x hx => h x (List.mem_cons_of_mem _ hx))]

/-- Instance of C30: two addresses. -/
theorem registry_header_round_trip_witness :
    xclient.parseServers (strings.Join ["tcp@10.0.0.1:9999", "http@10.0.0.2:7001"] ",")
      = ["tcp@10.0.0.1:9999", "http@10.0.0.2:7001"] :=
  (registry_header_round_trip ["tcp@10.0.0.1:9999", "http@10.0.0.2:7001"] (by decide)).1

end geerpc

namespace geerpc

theorem ServeConn_watchdog {server : Server} {decoded : Except String RPCOption}
    {cc : codec.Codec} {w : Watchdog} (h : server.ServeConn decoded = some (cc, w)) :
    w = { timeout := Second * 2
          message := "rpc server: request handle timeout: expect within 2s" } := by
  unfold Server.ServeConn at h
  split at h
  · cases h
  · split at h
    · cases h
    · split at h
      · cases h
      · cases h
        rfl

/-- C22 fails on the code.  A connection whose option frame sets
`HandleTimeout` to five seconds is served with a watchdog of two seconds, as
is one with the default option; and whatever option frame a connection
sends, the watchdog of its requests waits `time.Second * 2`: `ServeConn`
does not hand the option to `serveCodec`. -/
theorem ServeConn_ignores_HandleTimeout :
    (sampleServer.ServeConn (.ok { DefaultOption with HandleTimeout := Second * 5 })).map
        (fun r => r.2.timeout) = some (Second * 2) ∧
    (sampleServer.ServeConn (.ok DefaultOption)).map (fun r => r.2.timeout)
      = some (Second * 2) ∧
    Second * 2 ≠ Second * 5 ∧
    (∀ (server : Server) (opt : RPCOption) (cc : codec.Codec) (w : Watchdog),
      server.ServeConn (.ok opt) = some (cc, w) → w.timeout = Second * 2) := by
  refine ⟨by decide, by decide, by decide, ?_⟩
  intro server opt cc w h
  rw [ServeConn_watchdog h]

/-- C23 fails on the code.  For the request `Foo.Sleep` with `Seq` 1: when
the timer of the watchdog fires first and the method returns afterwards, two
frames with `Seq` 1 are written, the time-out response and then the reply of
the method (under the header the watchdog changed); `handleRequest` does not
look at what the watchdog did.  In the other order the watchdog finds `cn`
closed and one frame is written. -/
theorem late_dispatch_writes_second_frame :
    ((Dispatch.start { ServiceMethod := "Foo.Sleep", Seq := 1, Error := "" }).watchdog
        (sampleServer.serveCodec .GobCodec) true).map
        (fun d => (d.handleRequest none "5").written)
      = some [({ ServiceMethod := "Foo.Sleep", Seq := 1,
                 Error := "rpc server: request handle timeout: expect within 2s" },
                .invalidRequest),
              ({ ServiceMethod := "Foo.Sleep", Seq := 1,
                 Error := "rpc server: request handle timeout: expect within 2s" },
                .reply "5")] ∧
    (((Dispatch.start { ServiceMethod := "Foo.Sleep", Seq := 1, Error := "" }).handleRequest
        none "5").watchdog (sampleServer.serveCodec .GobCodec) false).map
        (fun d => d.written)
      = some [({ ServiceMethod := "Foo.Sleep", Seq := 1, Error := "" }, .reply "5")] := by
  decide

/-- C24, as stated, fails: the first bytes `NewHTTPClient` writes on a fresh
connection are not "CONNECT /_geeprc_ HTTP/1.0" followed by CR LF CR LF. -/
theorem NewHTTPClient_no_CRLF :
    (NewHTTPClient (fun _ => .ok "") [] (.ok connected) DefaultOption).1.head?
      ≠ some (.write "CONNECT /_geeprc_ HTTP/1.0\r\n\r\n") := by
  decide

/-- C24, amended (HTTP-CONNECT handshake bytes).  `NewHTTPClient` writes
exactly "CONNECT /_geeprc_ HTTP/1.0" followed by LF LF, the path being the
default RPC path, as its first bytes on the connection, and then reads the
reply of the server, before anything else happens on the connection. -/
theorem NewHTTPClient_handshake (encode : RPCOption → Except String String)
    (conn : List ConnEvent) (resp : Except String String) (opt : RPCOption) :
    ∃ rest, (NewHTTPClient encode conn resp opt).1
      = conn ++ .write "CONNECT /_geeprc_ HTTP/1.0\n\n" :: .readResponse :: rest := by
  have hreq : "CONNECT " ++ defaultRPCPath ++ " HTTP/1.0\n\n" = "CONNECT /_geeprc_ HTTP/1.0\n\n" := by
    decide
  unfold NewHTTPClient
  simp only [hreq]
  cases resp with
  | error err => exact ⟨[], by simp⟩
  | ok status =>
    simp only []
    split
    · unfold NewClient
      split
      · exact ⟨[], by simp⟩
      · split
        · exact ⟨[.close], by simp⟩
        · rename_i frame _
          exact ⟨[.write frame], by simp⟩
    · exact ⟨[], by simp⟩

/-- Instance of the amended C24: on a fresh connection, with the reply
"200 Connected to Gee RPC" and the default option, the request line comes
first and the read of the reply second. -/
theorem NewHTTPClient_handshake_witness :
    ∃ rest, (NewHTTPClient (fun _ => .ok "opt") [] (.ok connected) DefaultOption).1
      = [] ++ .write "CONNECT /_geeprc_ HTTP/1.0\n\n" :: .readResponse :: rest :=
  NewHTTPClient_handshake (fun _ => .ok "opt") [] (.ok connected) DefaultOption

end geerpc

namespace geerpc

namespace registry

theorem sortStrings_perm (l : List String) : (sortStrings l).Perm l :=
  List.perm_insertionSort _ l

theorem sortStrings_sorted (l : List String) : (sortStrings l).Sorted (· ≤ ·) := by
  have htotal : IsTotal String (fun a b => a.toList ≤ b.toList) :=
    ⟨fun a b => by
      rcases le_total a b with h | h
      · exact Or.inl (String.le_iff_toList_le.1 h)
      · exact Or.inr (String.le_iff_toList_le.1 h)⟩
  have htrans : IsTrans String (fun a b => a.toList ≤ b.toList) :=
    ⟨fun a b c hab hbc =>
      String.le_iff_toList_le.1
        (le_trans (String.le_iff_toList_le.2 hab) (String.le_iff_toList_le.2 hbc))⟩
  have h := List.sorted_insertionSort (fun a b : String => a.toList ≤ b.toList) l
  exact List.Pairwise.imp (fun hab => String.le_iff_toList_le.2 hab) h

theorem map_Addr_putServer_of_mem (l : List ServerItem) (addr : String) (now : Int) :
    (l.map fun s => if s.Addr = addr then { s with start := now } else s).map ServerItem.Addr
      = l.map ServerItem.Addr := by
  rw [List.map_map]
  apply List.map_congr_left
  intro s _
  simp only [Function.comp]
  split <;> rfl

theorem New_nodup (timeout : Int) : (New timeout).WF := List.nodup_nil

theorem putServer_nodup {r : GeeRegistry} (h : r.WF) (addr : String) (now : Int) :
    (r.putServer addr now).WF := by
  unfold GeeRegistry.putServer
  split
  · show (List.map ServerItem.Addr _).Nodup
    rw [map_Addr_putServer_of_mem]
    exact h
  · rename_i hany
    show (List.map ServerItem.Addr (r.servers ++ [_])).Nodup
    rw [List.map_append, List.nodup_append]
    refine ⟨h, List.nodup_singleton _, ?_⟩
    intro a ha hb
    simp only [List.map_cons, List.map_nil, List.mem_singleton] at hb
    subst hb
    apply hany
    obtain ⟨s, hs, rfl⟩ := List.mem_map.1 ha
    exact List.any_eq_true.2 ⟨s, hs, by simp⟩

theorem aliveServers_nodup {r : GeeRegistry} (h : r.WF) (now : Int) :
    (r.aliveServers now).2.WF :=
  List.Nodup.sublist (List.Sublist.map _ (List.filter_sublist _)) h

theorem foldl_nodup (ops : List Op) :
    ∀ r : GeeRegistry, r.WF → (ops.foldl GeeRegistry.step r).WF := by
  induction ops with
  | nil => exact fun r h => h
  | cons op ops ih =>
    intro r h
    apply ih
    cases op with
    | putServer addr now => exact putServer_nodup h addr now
    | aliveServers now => exact aliveServers_nodup h now

/-- Every registry that `New` and calls of `putServer` and `aliveServers`
make has one item per address. -/
theorem run_nodup (timeout : Int) (ops : List Op) : (GeeRegistry.run timeout ops).WF :=
  foldl_nodup ops _ (New_nodup timeout)

/-- After `putServer(addr)` at time `t` the registry has an item for `addr`
whose start is `t`. -/
theorem mem_putServer (r : GeeRegistry) (addr : String) (t : Int) :
    { Addr := addr, start := t } ∈ (r.putServer addr t).servers := by
  unfold GeeRegistry.putServer
  split
  · rename_i hany
    obtain ⟨s, hs, ha⟩ := List.any_eq_true.1 hany
    have ha2 : s.Addr = addr := by simpa using ha
    show _ ∈ List.map _ r.servers
    refine List.mem_map.2 ⟨s, hs, ?_⟩
    rw [if_pos ha2, ← ha2]
  · show _ ∈ r.servers ++ [_]
    simp

theorem timeout_putServer (r : GeeRegistry) (addr : String) (t : Int) :
    (r.putServer addr t).timeout = r.timeout := by
  unfold GeeRegistry.putServer
  split <;> rfl

theorem mem_aliveServers (r : GeeRegistry) (now : Int) (addr : String) :
    addr ∈ (r.aliveServers now).1 ↔
      ∃ s ∈ r.servers, s.Addr = addr ∧ (r.timeout = 0 ∨ now < s.start + r.timeout) := by
  show addr ∈ sortStrings _ ↔ _
  rw [(sortStrings_perm _).mem_iff, List.mem_map]
  constructor
  · rintro ⟨s, hs, rfl⟩
    obtain ⟨h1, h2⟩ := List.mem_filter.1 hs
    exact ⟨s, h1, rfl, by simpa using h2⟩
  · rintro ⟨s, h1, rfl, h2⟩
    exact ⟨s, List.mem_filter.2 ⟨h1, by simpa using h2⟩, rfl⟩

end registry

/-- C26 (registry liveness).  For every registry with one item per address
(as every registry made by `New`, `putServer` and `aliveServers` is) and
every time `now`, `aliveServers` returns a list that is sorted ascending and
has no duplicates, whose members are exactly the addresses of the items with
`timeout == 0` or `start + timeout > now`; afterwards the registry holds
exactly these items, with the same timeout.  After `putServer(addr)` at time
`t` there is an item for `addr` with start `t`, and `addr` is among the live
addresses at every `now < t + timeout` (and at every `now` when the timeout
is 0). -/
theorem registry_liveness (r : registry.GeeRegistry) (now : Int) (hwf : r.WF) :
    (r.aliveServers now).1.Sorted (· ≤ ·) ∧
    (r.aliveServers now).1.Nodup ∧
    (∀ addr, addr ∈ (r.aliveServers now).1 ↔
      ∃ s ∈ r.servers, s.Addr = addr ∧ (r.timeout = 0 ∨ now < s.start + r.timeout)) ∧
    (∀ s, s ∈ (r.aliveServers now).2.servers ↔
      s ∈ r.servers ∧ (r.timeout = 0 ∨ now < s.start + r.timeout)) ∧
    (r.aliveServers now).2.timeout = r.timeout ∧
    (r.aliveServers now).2.WF ∧
    (∀ addr t, (r.putServer addr t).WF ∧
      { Addr := addr, start := t } ∈ (r.putServer addr t).servers ∧
      ((r.timeout = 0 ∨ now < t + r.timeout) →
        addr ∈ ((r.putServer addr t).aliveServers now).1)) := by
  refine ⟨registry.sortStrings_sorted _, ?_, registry.mem_aliveServers r now, ?_, rfl,
    registry.aliveServers_nodup hwf now, ?_⟩
  · exact (registry.sortStrings_perm _).nodup_iff.2 (registry.aliveServers_nodup hwf now)
  · intro s
    show s ∈ List.filter _ r.servers ↔ _
    rw [List.mem_filter]
    simp
  · intro addr t
    refine ⟨registry.putServer_nodup hwf addr t, registry.mem_putServer r addr t, ?_⟩
    intro hlive
    rw [registry.mem_aliveServers]
    refine ⟨_, registry.mem_putServer r addr t, rfl, ?_⟩
    rw [registry.timeout_putServer]
    exact hlive

/-- Instance of C26: with a timeout of 5, after "b" registered at time 0 and
"a" at time 3, at time 4 both are alive, in ascending order; at time 6 only
"a" is alive and "b" is deleted. -/
theorem registry_liveness_witness :
    ((registry.GeeRegistry.run 5 [.putServer "b" 0, .putServer "a" 3]).aliveServers 4).1
      = ["a", "b"] ∧
    ((registry.GeeRegistry.run 5 [.putServer "b" 0, .putServer "a" 3]).aliveServers 6)
      = (["a"], { timeout := 5, servers := [{ Addr := "a", start := 3 }] }) ∧
    ((registry.GeeRegistry.run 5 [.putServer "b" 0, .putServer "a" 3]).aliveServers 6).1.Nodup :=
  ⟨by decide, by decide,
   (registry_liveness (registry.GeeRegistry.run 5 [.putServer "b" 0, .putServer "a" 3]) 6
      (registry.run_nodup 5 _)).2.1⟩

end geerpc

namespace geerpc

namespace xclient

theorem at?_natCast (servers : List String) (m : Nat) :
    at? servers (m : Int) = servers.get? m := by
  unfold at?
  rw [if_neg (by omega)]
  rfl

theorem tmod_natCast (c n : Nat) : Int.tmod (c : Int) (n : Int) = ((c % n : Nat) : Int) := by
  rw [Int.tmod_eq_emod (by omega) (by omega)]
  norm_cast

/-- One round-robin `Get` with the cursor at `c` on a non-empty list. -/
theorem Get_RoundRobinSelect (d : MultiServersDiscovery) (rnd c : Nat)
    (hc : d.index = (c : Int)) (hne : d.servers ≠ []) :
    ∃ s, d.servers.get? (c % d.servers.length) = some s ∧
      d.Get RoundRobinSelect rnd
        = .ok ((s, none), { d with index := (((c + 1) % d.servers.length : Nat) : Int) }) := by
  have hpos : 0 < d.servers.length := List.length_pos.2 hne
  have hlt : c % d.servers.length < d.servers.length := Nat.mod_lt _ hpos
  refine ⟨d.servers.get ⟨_, hlt⟩, List.get?_eq_get hlt, ?_⟩
  unfold MultiServersDiscovery.Get
  simp only []
  rw [if_neg (by omega), if_neg (by decide), if_pos trivial, hc, tmod_natCast, at?_natCast,
    List.get?_eq_get hlt]
  simp only []
  have h1 : ((c : Int) + 1) = ((c + 1 : Nat) : Int) := by push_cast; rfl
  rw [h1, tmod_natCast]

theorem rounds_spec (k : Nat) :
    ∀ (d : MultiServersDiscovery) (c : Nat), d.index = (c : Int) → d.servers ≠ [] →
      ∃ l d1, d.rounds k = .ok (l, d1) ∧
        l.map some = (List.range k).map (fun i => d.servers.get? ((c + i) % d.servers.length)) ∧
        d1.servers = d.servers ∧
        d1.index = if k = 0 then (c : Int) else (((c + k) % d.servers.length : Nat) : Int) := by
  induction k with
  | zero =>
    intro d c hc hne
    exact ⟨[], d, rfl, rfl, rfl, hc⟩
  | succ k ih =>
    intro d c hc hne
    obtain ⟨s, hs, hget⟩ := Get_RoundRobinSelect d 0 c hc hne
    obtain ⟨l, d1, hr, hl, hsv, hidx⟩ :=
      ih { d with index := (((c + 1) % d.servers.length : Nat) : Int) }
        ((c + 1) % d.servers.length) rfl hne
    refine ⟨s :: l, d1, ?_, ?_, hsv, ?_⟩
    · unfold MultiServersDiscovery.rounds
      rw [hget]
      simp only [hr]
    · rw [List.range_succ_eq_map, List.map_cons, List.map_cons, List.map_map, hl]
      simp only [Nat.add_zero, hs, List.cons.injEq, true_and]
      apply List.map_congr_left
      intro i _
      simp only [Function.comp]
      congr 1
      rw [Nat.mod_add_mod]
      congr 1
      omega
    · rw [hidx, if_neg (Nat.succ_ne_zero k)]
      split
      · rename_i h0
        subst h0
        rfl
      · simp only [Nat.mod_add_mod]
        congr 2
        omega

theorem positions_perm (c n : Nat) :
    ((List.range n).map fun i => (c + i) % n).Perm (List.range n) := by
  apply List.Subperm.perm_of_length_le
  · apply List.subperm_of_subset
    · apply List.Nodup.map_on _ (List.nodup_range n)
      intro i hi j hj hij
      have hi2 : i < n := List.mem_range.1 hi
      have hj2 : j < n := List.mem_range.1 hj
      have h1 : i % n = j % n := Nat.ModEq.add_left_cancel' c hij
      rwa [Nat.mod_eq_of_lt hi2, Nat.mod_eq_of_lt hj2] at h1
    · intro a ha
      obtain ⟨i, hi, rfl⟩ := List.mem_map.1 ha
      exact List.mem_range.2 (Nat.mod_lt _ (by have := List.mem_range.1 hi; omega))
  · simp

end xclient

/-- C27 (round robin is a fair cycle).  On a non-empty server list of length
`N` with the cursor at `c ≥ 0`, `Get(RoundRobinSelect)` returns `servers[c mod N]`
with a nil error and sets the cursor to `(c+1) mod N`.  `N` consecutive calls
return the servers at the positions `(c+i) mod N` for `i = 0, ..., N-1`, in
this order, and these positions are the positions `0, ..., N-1`, each taken
once.  After `k ≥ 1` calls the server list is unchanged and the cursor is
`(c+k) mod N`, which lies in `[0, N)`. -/
theorem round_robin_cycle (d : xclient.MultiServersDiscovery) (c rnd : Nat)
    (hc : d.index = (c : Int)) (hne : d.servers ≠ []) :
    (∃ s, d.servers.get? (c % d.servers.length) = some s ∧
      d.Get xclient.RoundRobinSelect rnd
        = .ok ((s, none), { d with index := (((c + 1) % d.servers.length : Nat) : Int) })) ∧
    (∃ l d1, d.rounds d.servers.length = .ok (l, d1) ∧
      l.map some = (List.range d.servers.length).map
        (fun i => d.servers.get? ((c + i) % d.servers.length))) ∧
    ((List.range d.servers.length).map fun i => (c + i) % d.servers.length).Perm
      (List.range d.servers.length) ∧
    (∀ k, 0 < k → ∃ l d1, d.rounds k = .ok (l, d1) ∧ d1.servers = d.servers ∧
      d1.index = (((c + k) % d.servers.length : Nat) : Int) ∧
      0 ≤ d1.index ∧ d1.index < (d.servers.length : Int)) := by
  refine ⟨xclient.Get_RoundRobinSelect d rnd c hc hne, ?_, xclient.positions_perm c _, ?_⟩
  · obtain ⟨l, d1, h1, h2, _, _⟩ := xclient.rounds_spec d.servers.length d c hc hne
    exact ⟨l, d1, h1, h2⟩
  · intro k hk
    obtain ⟨l, d1, h1, _, h3, h4⟩ := xclient.rounds_spec k d c hc hne
    rw [if_neg (by omega)] at h4
    have hpos : 0 < d.servers.length := List.length_pos.2 hne
    have hlt : (c + k) % d.servers.length < d.servers.length := Nat.mod_lt _ hpos
    refine ⟨l, d1, h1, h3, h4, ?_, ?_⟩
    · rw [h4]
      omega
    · rw [h4]
      omega

/-- Instance of C27: three servers and the cursor at 7. -/
theorem round_robin_cycle_witness :
    (xclient.MultiServersDiscovery.rounds { servers := ["a", "b", "c"], index := 7 } 3)
      = .ok (["b", "c", "a"], { servers := ["a", "b", "c"], index := 1 }) ∧
    ((List.range 3).map fun i => (7 + i) % 3).Perm (List.range 3) :=
  ⟨rfl, (round_robin_cycle { servers := ["a", "b", "c"], index := 7 } 7 0 rfl
    (by decide)).2.2.1⟩

end geerpc

namespace lru

namespace Cache

variable {V : Type} [Value V]

theorem cost_nonneg (hlen : ∀ v : V, 0 ≤ Value.Len v) (mem : Nat → entry V) (e : Nat) :
    0 ≤ cost mem e := by
  unfold cost len
  have := hlen (mem e).value
  omega

theorem sum_cost_nonneg (hlen : ∀ v : V, 0 ≤ Value.Len v) (mem : Nat → entry V)
    (l : List Nat) : 0 ≤ (l.map (cost mem)).sum := by
  apply List.sum_nonneg
  intro x hx
  obtain ⟨e, _, rfl⟩ := List.mem_map.1 hx
  exact cost_nonneg hlen mem e

theorem nbytes_nonneg (hlen : ∀ v : V, 0 ≤ Value.Len v) {c : Cache V} (h : c.WF) :
    0 ≤ c.nbytes := by
  rw [h.bytes]
  exact sum_cost_nonneg hlen c.mem c.ll

/-- The element that `insert` puts at the front holds the key and the value
of the call. -/
theorem insert_front {c : Cache V} (h : c.WF) (key : String) (value : V) :
    ∃ e rest, (c.insert key value).ll = e :: rest ∧
      (c.insert key value).mem e = { key := key, value := value } := by
  unfold insert
  cases hc : c.cache key with
  | some ele =>
    have hele := (h.index key ele).1 hc
    refine ⟨ele, c.ll.erase ele, MoveToFront_of_mem hele.1, ?_⟩
    simp [hele.2]
  | none =>
    exact ⟨c.next, c.ll, rfl, by simp⟩

theorem empty_of_ll_nil {c : Cache V} (h : c.WF) (hl : c.ll = []) :
    c.nbytes = 0 ∧ ∀ k, c.cache k = none := by
  refine ⟨by rw [h.bytes, hl]; rfl, ?_⟩
  intro k
  cases hk : c.cache k with
  | none => rfl
  | some e =>
    have := ((h.index k e).1 hk).1
    rw [hl] at this
    cases this

/-- With values of non-negative length and a positive budget, a front
element that alone exceeds the budget keeps the loop going until the list is
empty. -/
theorem evict_drops_all (hlen : ∀ v : V, 0 ≤ Value.Len v) (n : Nat) :
    ∀ (c : Cache V) (e : Nat) (rest : List Nat), c.WF → c.ll = e :: rest →
      0 < c.maxBytes → c.maxBytes < cost c.mem e → rest.length = n →
      ∃ c1, evict (n + 1) c = some c1 ∧ c1.WF ∧ c1.ll = [] ∧ c1.maxBytes = c.maxBytes := by
  induction n with
  | zero =>
    intro c e rest h hll hpos hbig hn
    have hrest : rest = [] := List.length_eq_zero.1 hn
    subst hrest
    have hb : c.nbytes = cost c.mem e := by rw [h.bytes, hll]; simp
    have hcond : c.maxBytes ≠ 0 ∧ c.maxBytes < c.nbytes := ⟨by omega, by omega⟩
    have hrm : c.RemoveOldest.ll = [] := by
      unfold RemoveOldest
      have hback : Back c.ll = some e := by rw [hll]; rfl
      rw [hback]
      show (c.ll).erase e = []
      rw [hll]
      simp
    have hwf := WF_RemoveOldest h
    have hz := (empty_of_ll_nil hwf hrm).1
    refine ⟨c.RemoveOldest, ?_, hwf, hrm, maxBytes_RemoveOldest c⟩
    unfold evict
    rw [if_pos hcond]
    unfold evict
    rw [if_neg]
    rw [hz, maxBytes_RemoveOldest]
    rintro ⟨_, hlt⟩
    omega
  | succ n ih =>
    intro c e rest h hll hpos hbig hn
    have hsum : 0 ≤ (rest.map (cost c.mem)).sum := sum_cost_nonneg hlen c.mem rest
    have hb : c.nbytes = cost c.mem e + (rest.map (cost c.mem)).sum := by
      rw [h.bytes, hll]; simp
    have hcond : c.maxBytes ≠ 0 ∧ c.maxBytes < c.nbytes := ⟨by omega, by omega⟩
    have hne : rest ≠ [] := by
      rintro rfl
      cases hn
    obtain ⟨r, rs, hr⟩ := List.exists_cons_of_ne_nil hne
    have hback : Back c.ll = some ((r :: rs).getLast (List.cons_ne_nil _ _)) := by
      rw [hll, hr]
      show (e :: r :: rs).getLast? = _
      rw [List.getLast?_cons_cons]
      exact List.getLast?_eq_getLast _ _
    generalize hlast : (r :: rs).getLast (List.cons_ne_nil _ _) = last at hback
    have hlast_mem : last ∈ rest := by
      rw [hr, ← hlast]
      exact List.getLast_mem _
    have hnd : (e :: rest).Nodup := hll ▸ h.nodup
    have hne_e : last ≠ e := by
      rintro rfl
      exact (List.nodup_cons.1 hnd).1 hlast_mem
    have hrm : c.RemoveOldest.ll = e :: rest.erase last := by
      unfold RemoveOldest
      rw [hback]
      show (c.ll).erase last = _
      rw [hll, List.erase_cons_tail (by simpa using hne_e.symm)]
    have hlen1 : (rest.erase last).length = n := by
      rw [List.length_erase_of_mem hlast_mem]
      omega
    obtain ⟨c1, h1, h2, h3, h4⟩ :=
      ih c.RemoveOldest e (rest.erase last) (WF_RemoveOldest h) hrm
        (by rw [maxBytes_RemoveOldest]; exact hpos)
        (by rw [maxBytes_RemoveOldest, mem_RemoveOldest]; exact hbig) hlen1
    refine ⟨c1, ?_, h2, h3, h4.trans (maxBytes_RemoveOldest c)⟩
    unfold evict
    rw [if_pos hcond]
    exact h1

/-- With values of non-negative length and a negative budget the loop
condition holds in every well-formed cache, so that the loop never ends. -/
theorem evict_negative (hlen : ∀ v : V, 0 ≤ Value.Len v) (n : Nat) :
    ∀ c : Cache V, c.WF → c.maxBytes < 0 → evict n c = none := by
  induction n with
  | zero =>
    intro c h hneg
    have := nbytes_nonneg hlen h
    unfold evict
    rw [if_pos ⟨by omega, by omega⟩]
  | succ n ih =>
    intro c h hneg
    have := nbytes_nonneg hlen h
    unfold evict
    rw [if_pos ⟨by omega, by omega⟩]
    exact ih _ (WF_RemoveOldest h) (by rw [maxBytes_RemoveOldest]; exact hneg)

theorem iterate_RemoveOldest (n : Nat) :
    ∀ c : Cache V, c.WF →
      (RemoveOldest^[n] c).WF ∧ (RemoveOldest^[n] c).maxBytes = c.maxBytes := by
  induction n with
  | zero => exact fun c h => ⟨h, rfl⟩
  | succ n ih =>
    intro c h
    rw [Function.iterate_succ_apply]
    obtain ⟨h1, h2⟩ := ih _ (WF_RemoveOldest h)
    exact ⟨h1, h2.trans (maxBytes_RemoveOldest c)⟩

theorem evictCalls_diverges {c : Cache V} (hl : c.ll = [])
    (hcond : c.maxBytes ≠ 0 ∧ c.maxBytes < c.nbytes) (n : Nat) : evictCalls n c = none := by
  induction n with
  | zero => unfold evictCalls; rw [if_pos hcond]
  | succ n ih => unfold evictCalls; rw [if_pos hcond, RemoveOldest_nil hl, ih]; rfl

/-- A loop that ends after `calls` calls of `RemoveOldest` has removed one
element per call: there were at least `calls` elements, and the cache it
leaves is the one after `calls` calls. -/
theorem evictCalls_some (n : Nat) :
    ∀ (c : Cache V) (calls : Nat), evictCalls n c = some calls →
      calls ≤ c.ll.length ∧ evict n c = some (RemoveOldest^[calls] c) := by
  induction n with
  | zero =>
    intro c calls h
    unfold evictCalls at h
    split at h
    · cases h
    · rename_i hcond
      cases h
      refine ⟨Nat.zero_le _, ?_⟩
      unfold evict
      rw [if_neg hcond]
      rfl
  | succ n ih =>
    intro c calls h
    unfold evictCalls at h
    split at h
    · rename_i hcond
      cases hrec : evictCalls n c.RemoveOldest with
      | none => rw [hrec] at h; cases h
      | some calls1 =>
        rw [hrec] at h
        simp only [Option.map_some', Option.some.injEq] at h
        subst h
        obtain ⟨h1, h2⟩ := ih _ _ hrec
        have hne : c.ll ≠ [] := by
          intro hl
          rw [RemoveOldest_nil hl, evictCalls_diverges hl hcond] at hrec
          cases hrec
        have := length_RemoveOldest hne
        refine ⟨by omega, ?_⟩
        unfold evict
        rw [if_pos hcond, Function.iterate_succ_apply]
        exact h2
    · rename_i hcond
      cases h
      refine ⟨Nat.zero_le _, ?_⟩
      unfold evict
      rw [if_neg hcond]
      rfl

theorem evictCalls_of_evict (n : Nat) :
    ∀ (c c1 : Cache V), evict n c = some c1 → ∃ calls, evictCalls n c = some calls := by
  induction n with
  | zero =>
    intro c c1 h
    unfold evict at h
    unfold evictCalls
    split at h
    · cases h
    · rename_i hcond
      rw [if_neg hcond]
      exact ⟨0, rfl⟩
  | succ n ih =>
    intro c c1 h
    unfold evict at h
    unfold evictCalls
    split at h
    · rename_i hcond
      rw [if_pos hcond]
      obtain ⟨calls, hc⟩ := ih _ _ h
      exact ⟨calls + 1, by rw [hc]; rfl⟩
    · rename_i hcond
      rw [if_neg hcond]
      exact ⟨0, rfl⟩

/-- With a non-negative budget `Add` returns. -/
theorem Add_total {c : Cache V} (h : c.WF) (hmax : 0 ≤ c.maxBytes) (key : String)
    (value : V) : ∃ c1, c.Add key value = some c1 ∧ c1.WF ∧ c1.maxBytes = c.maxBytes := by
  obtain ⟨c1, hc1⟩ := evict_total (WF_insert h key value)
    (by rw [maxBytes_insert]; exact hmax)
  have hadd : c.Add key value = some c1 := hc1
  exact ⟨c1, hadd, WF_Add h hadd, maxBytes_Add hadd⟩

/-- With values of non-negative length, an `Add` of an entry that alone
exceeds a positive budget returns and leaves the cache empty. -/
theorem Add_oversized (hlen : ∀ v : V, 0 ≤ Value.Len v) {c : Cache V} (h : c.WF)
    (key : String) (value : V) (hpos : 0 < c.maxBytes)
    (hbig : c.maxBytes < len key + Value.Len value) :
    ∃ c1, c.Add key value = some c1 ∧ c1.WF ∧ c1.ll = [] ∧ c1.maxBytes = c.maxBytes := by
  have hwf := WF_insert h key value
  have hmb := maxBytes_insert c key value
  obtain ⟨e, rest, hll, hmem⟩ := insert_front h key value
  obtain ⟨c2, h1, h2, h3, h4⟩ :=
    evict_drops_all hlen rest.length (c.insert key value) e rest hwf hll
      (by rw [hmb]; exact hpos)
      (by rw [hmb]; unfold cost; rw [hmem]; exact hbig) rfl
  have hfuel : (c.insert key value).ll.length = rest.length + 1 := by rw [hll]; rfl
  refine ⟨c2, ?_, h2, h3, h4.trans hmb⟩
  unfold Add
  rw [hfuel]
  exact h1

/-- With values of non-negative length and a negative budget `Add` does not
return. -/
theorem Add_negative (hlen : ∀ v : V, 0 ≤ Value.Len v) {c : Cache V} (h : c.WF)
    (key : String) (value : V) (hneg : c.maxBytes < 0) : c.Add key value = none :=
  evict_negative hlen _ _ (WF_insert h key value) (by rw [maxBytes_insert]; exact hneg)

/-- What `Add` does to an entry, on the exact counter: the entry is kept
exactly when it fits the budget, and an entry over a positive budget empties
the cache. -/
theorem Add_survives_exact (c : Cache V) (h : c.WF) (hmax : 0 ≤ c.maxBytes)
    (hlen : ∀ v : V, 0 ≤ Value.Len v) (k : String) (v : V) :
    ∃ c1, c.Add k v = some c1 ∧
      ((c1.Get k).1 = some v ↔ (c.maxBytes = 0 ∨ len k + Value.Len v ≤ c.maxBytes)) ∧
      (¬ (c.maxBytes = 0 ∨ len k + Value.Len v ≤ c.maxBytes) → (c1.Get k).1 = none) ∧
      (0 < c.maxBytes → c.maxBytes < len k + Value.Len v →
        c1.ll = [] ∧ c1.Len = 0 ∧ c1.nbytes = 0 ∧ ∀ k1, c1.cache k1 = none) := by
  obtain ⟨c1, hadd, _, _⟩ := Add_total h hmax k v
  have hbig : 0 < c.maxBytes → c.maxBytes < len k + Value.Len v →
      c1.ll = [] ∧ c1.Len = 0 ∧ c1.nbytes = 0 ∧ ∀ k1, c1.cache k1 = none := by
    intro hpos hlt
    obtain ⟨c2, h1, h2, h3, _⟩ := Add_oversized hlen h k v hpos hlt
    rw [hadd] at h1
    cases h1
    obtain ⟨h4, h5⟩ := empty_of_ll_nil h2 h3
    exact ⟨h3, by unfold Cache.Len; rw [h3]; rfl, h4, h5⟩
  have hmiss : ¬ (c.maxBytes = 0 ∨ len k + Value.Len v ≤ c.maxBytes) →
      (c1.Get k).1 = none := by
    intro hnot
    have h5 := (hbig (by omega) (by omega)).2.2.2 k
    unfold Cache.Get
    rw [h5]
  refine ⟨c1, hadd, ⟨?_, ?_⟩, hmiss, hbig⟩
  · intro hget
    by_contra hnot
    rw [hmiss hnot] at hget
    cases hget
  · intro hfit
    obtain ⟨c2, e, h1, _, _, h4, h5⟩ := Add_fits h k v hfit
    rw [hadd] at h1
    cases h1
    rw [Get_of_cache h4, h5]

/-- The length of the list after all its elements are removed. -/
theorem iterate_RemoveOldest_nil (n : Nat) :
    ∀ c : Cache V, c.ll.length = n → (RemoveOldest^[n] c).ll = [] := by
  induction n with
  | zero => exact fun c hn => List.length_eq_zero.1 hn
  | succ n ih =>
    intro c hn
    rw [Function.iterate_succ_apply]
    apply ih
    have hne : c.ll ≠ [] := by
      intro hl
      rw [hl] at hn
      cases hn
    have := length_RemoveOldest hne
    omega

/-! ### The `int64` counter agrees with the exact one below `2^63` -/

theorem int64_of_range {x : Int} (h1 : -9223372036854775808 ≤ x)
    (h2 : x < 9223372036854775808) : int64 x = x := by
  unfold int64
  omega

theorem cost_le_nbytes (hlen : ∀ v : V, 0 ≤ Value.Len v) {c : Cache V} (h : c.WF) {e : Nat}
    (he : e ∈ c.ll) : cost c.mem e ≤ c.nbytes := by
  have hp := List.perm_cons_erase he
  have hs : (c.ll.map (cost c.mem)).sum
      = cost c.mem e + ((c.ll.erase e).map (cost c.mem)).sum := by
    rw [(hp.map (cost c.mem)).sum_eq]; simp
  have := sum_cost_nonneg hlen c.mem (c.ll.erase e)
  rw [h.bytes, hs]
  omega

theorem len_nonneg (s : String) : 0 ≤ len s := by
  unfold len
  omega

theorem RemoveOldest64_eq (hlen : ∀ v : V, 0 ≤ Value.Len v) {c : Cache V} (h : c.WF)
    (hr : c.nbytes < 9223372036854775808) : c.RemoveOldest64 = c.RemoveOldest := by
  unfold RemoveOldest64 RemoveOldest
  cases hb : Back c.ll with
  | none => rfl
  | some ele =>
    have hcost := cost_le_nbytes hlen h (Back_mem hb)
    unfold cost at hcost
    have hk := len_nonneg (c.mem ele).key
    have hv := hlen (c.mem ele).value
    have e1 : int64 (len (c.mem ele).key) = len (c.mem ele).key :=
      int64_of_range (by omega) (by omega)
    have e2 : int64 (Value.Len (c.mem ele).value) = Value.Len (c.mem ele).value :=
      int64_of_range (by omega) (by omega)
    have e3 : int64 (len (c.mem ele).key + Value.Len (c.mem ele).value)
        = len (c.mem ele).key + Value.Len (c.mem ele).value :=
      int64_of_range (by omega) (by omega)
    have e4 : int64 (c.nbytes - (len (c.mem ele).key + Value.Len (c.mem ele).value))
        = c.nbytes - (len (c.mem ele).key + Value.Len (c.mem ele).value) :=
      int64_of_range (by omega) (by omega)
    simp only [e1, e2, e3, e4]

theorem nbytes_RemoveOldest_le (hlen : ∀ v : V, 0 ≤ Value.Len v) (c : Cache V) :
    c.RemoveOldest.nbytes ≤ c.nbytes := by
  unfold RemoveOldest
  cases hb : Back c.ll with
  | none => exact le_refl _
  | some ele =>
    have hk := len_nonneg (c.mem ele).key
    have hv := hlen (c.mem ele).value
    show c.nbytes - (len (c.mem ele).key + Value.Len (c.mem ele).value) ≤ c.nbytes
    omega

theorem insert64_eq (hlen : ∀ v : V, 0 ≤ Value.Len v) {c : Cache V} (h : c.WF)
    (key : String) (value : V)
    (hsum : c.nbytes + (len key + Value.Len value) < 9223372036854775808) :
    c.insert64 key value = c.insert key value := by
  have hn := nbytes_nonneg hlen h
  have hk := len_nonneg key
  have hv := hlen value
  unfold insert64 insert
  cases hc : c.cache key with
  | some ele =>
    have hcost := cost_le_nbytes hlen h ((h.index key ele).1 hc).1
    unfold cost at hcost
    have hk2 := len_nonneg (c.mem ele).key
    have hv2 := hlen (c.mem ele).value
    have e1 : int64 (Value.Len value) = Value.Len value :=
      int64_of_range (by omega) (by omega)
    have e2 : int64 (Value.Len (c.mem ele).value) = Value.Len (c.mem ele).value :=
      int64_of_range (by omega) (by omega)
    have e3 : int64 (Value.Len value - Value.Len (c.mem ele).value)
        = Value.Len value - Value.Len (c.mem ele).value :=
      int64_of_range (by omega) (by omega)
    have e4 : int64 (c.nbytes + (Value.Len value - Value.Len (c.mem ele).value))
        = c.nbytes + (Value.Len value - Value.Len (c.mem ele).value) :=
      int64_of_range (by omega) (by omega)
    simp only [e1, e2, e3, e4]
  | none =>
    have e1 : int64 (len key) = len key := int64_of_range (by omega) (by omega)
    have e2 : int64 (Value.Len value) = Value.Len value :=
      int64_of_range (by omega) (by omega)
    have e3 : int64 (len key + Value.Len value) = len key + Value.Len value :=
      int64_of_range (by omega) (by omega)
    have e4 : int64 (c.nbytes + (len key + Value.Len value))
        = c.nbytes + (len key + Value.Len value) :=
      int64_of_range (by omega) (by omega)
    simp only [e1, e2, e3, e4]

theorem nbytes_insert_le (hlen : ∀ v : V, 0 ≤ Value.Len v) (c : Cache V) (key : String)
    (value : V) : (c.insert key value).nbytes ≤ c.nbytes + (len key + Value.Len value) := by
  have hk := len_nonneg key
  unfold insert
  cases hc : c.cache key with
  | some ele =>
    have hv2 := hlen (c.mem ele).value
    show c.nbytes + (Value.Len value - Value.Len (c.mem ele).value) ≤ _
    omega
  | none => exact le_refl _

theorem evict64_eq (hlen : ∀ v : V, 0 ≤ Value.Len v) (n : Nat) :
    ∀ c : Cache V, c.WF → c.nbytes < 9223372036854775808 → evict64 n c = evict n c := by
  induction n with
  | zero =>
    intro c _ _
    rfl
  | succ n ih =>
    intro c h hr
    unfold evict64 evict
    rw [RemoveOldest64_eq hlen h hr,
      ih _ (WF_RemoveOldest h) (lt_of_le_of_lt (nbytes_RemoveOldest_le hlen c) hr)]

theorem evictCalls64_eq (hlen : ∀ v : V, 0 ≤ Value.Len v) (n : Nat) :
    ∀ c : Cache V, c.WF → c.nbytes < 9223372036854775808 →
      evictCalls64 n c = evictCalls n c := by
  induction n with
  | zero =>
    intro c _ _
    rfl
  | succ n ih =>
    intro c h hr
    unfold evictCalls64 evictCalls
    rw [RemoveOldest64_eq hlen h hr,
      ih _ (WF_RemoveOldest h) (lt_of_le_of_lt (nbytes_RemoveOldest_le hlen c) hr)]

theorem iterate_RemoveOldest64_eq (hlen : ∀ v : V, 0 ≤ Value.Len v) (n : Nat) :
    ∀ c : Cache V, c.WF → c.nbytes < 9223372036854775808 →
      RemoveOldest64^[n] c = RemoveOldest^[n] c := by
  induction n with
  | zero =>
    intro c _ _
    rfl
  | succ n ih =>
    intro c h hr
    rw [Function.iterate_succ_apply, Function.iterate_succ_apply, RemoveOldest64_eq hlen h hr,
      ih _ (WF_RemoveOldest h) (lt_of_le_of_lt (nbytes_RemoveOldest_le hlen c) hr)]

/-- As long as the lengths are non-negative and the count with the new entry
stays below `2^63`, `Add` on the `int64` counter is `Add` on the exact one. -/
theorem Add64_eq_Add (hlen : ∀ v : V, 0 ≤ Value.Len v) {c : Cache V} (h : c.WF)
    (key : String) (value : V)
    (hsum : c.nbytes + (len key + Value.Len value) < 9223372036854775808) :
    c.Add64 key value = c.Add key value := by
  unfold Add64 Add
  rw [insert64_eq hlen h key value hsum]
  exact evict64_eq hlen _ _ (WF_insert h key value)
    (lt_of_le_of_lt (nbytes_insert_le hlen c key value) hsum)

/-! ### Fuel of the loop on the `int64` counter -/

theorem ll_RemoveOldest64 (c : Cache V) : c.RemoveOldest64.ll = c.RemoveOldest.ll := by
  unfold RemoveOldest64 RemoveOldest
  cases Back c.ll <;> rfl

theorem RemoveOldest64_nil {c : Cache V} (h : c.ll = []) : c.RemoveOldest64 = c := by
  unfold RemoveOldest64
  rw [Back_eq_none.2 h]

theorem evict64_fuel_mono {n : Nat} {c c1 : Cache V} (h : evict64 n c = some c1) (m : Nat) :
    evict64 (n + m) c = some c1 := by
  induction n generalizing c with
  | zero =>
    unfold evict64 at h
    split at h
    · cases h
    · cases h
      cases m with
      | zero => simp [evict64, *]
      | succ m => simp only [Nat.zero_add]; unfold evict64; simp [*]
  | succ n ih =>
    rw [Nat.succ_add]
    unfold evict64 at h ⊢
    split at h
    · rw [if_pos ‹_›]; exact ih h
    · rw [if_neg ‹_›]; exact h

/-- The fuel `Add64` gives the loop is enough: a loop that ends with some
amount of fuel ends in the same state with one unit per element of the list. -/
theorem evict64_fuel_complete {n : Nat} {c c1 : Cache V} (h : evict64 n c = some c1) :
    evict64 c.ll.length c = some c1 := by
  induction n generalizing c with
  | zero =>
    have := evict64_fuel_mono h c.ll.length
    simpa using this
  | succ n ih =>
    unfold evict64 at h
    split at h
    · rename_i hcond
      have h1 := ih h
      by_cases hl : c.ll = []
      · rw [RemoveOldest64_nil hl] at h1
        exact h1
      · have hlen1 : c.RemoveOldest64.ll.length + 1 = c.ll.length := by
          rw [ll_RemoveOldest64]
          exact length_RemoveOldest hl
        rw [← hlen1]
        unfold evict64
        rw [if_pos hcond]
        exact h1
    · rename_i hcond
      cases h
      cases c1.ll.length with
      | zero => unfold evict64; rw [if_neg hcond]
      | succ k => unfold evict64; rw [if_neg hcond]

end Cache

/-- C28, as stated, fails, in two ways.  A value type may have a negative
`Len()`: the cache `signedSample` (budget 10, what `Add("a", Size(-100))`
makes of `New(10, nil)`) satisfies the accounting invariant with
`nbytes = -99`; the entry `("k", Size(20))` is charged 21 bytes, more than
the budget, yet after its `Add` the count is -78, nothing is evicted and
`Get("k")` returns it.  And the `int64` counter wraps: on `New(10, nil)` the
entry `("k", Size(MaxInt64))` is charged `2^63` bytes, the counter becomes
`-2^63`, nothing is evicted and `Get("k")` returns the entry. -/
theorem Add_keeps_oversized_entry :
    (New 10 false : Cache Size).Add64 "a" { n := -100 } = some signedSample ∧
    signedSample.WF ∧ 0 ≤ signedSample.maxBytes ∧ signedSample.nbytes = -99 ∧
    ¬ (signedSample.maxBytes = 0 ∨
        len "k" + Value.Len ({ n := 20 } : Size) ≤ signedSample.maxBytes) ∧
    (signedSample.Add64 "k" { n := 20 }).map (fun c => ((c.Get "k").1, c.Len, c.nbytes))
      = some (some { n := 20 }, 2, -78) ∧
    (New 10 false : Cache Size).WF ∧
    0 ≤ Value.Len ({ n := 9223372036854775807 } : Size) ∧
    ¬ ((New 10 false : Cache Size).maxBytes = 0 ∨
        len "k" + Value.Len ({ n := 9223372036854775807 } : Size)
          ≤ (New 10 false : Cache Size).maxBytes) ∧
    ((New 10 false : Cache Size).Add64 "k" { n := 9223372036854775807 }).map
        (fun c => ((c.Get "k").1, c.Len, c.nbytes))
      = some (some { n := 9223372036854775807 }, 1, -9223372036854775808) := by
  refine ⟨by with_unfolding_all rfl, Cache.WF_insert (Cache.WF_New 10 false) _ _, by decide,
    by decide, by decide, by decide, Cache.WF_New 10 false, by decide, by decide, by decide⟩

/-- C28, amended (an entry survives its own `Add` iff it fits the budget).
For a cache with `maxBytes ≥ 0` that satisfies the accounting invariant,
whose values have a non-negative `Len()`, and a key `k` and value `v` with
`nbytes + len(k) + v.Len() < 2^63` (the `int64` counter does not overflow):
`Add(k, v)` returns, and a `Get(k)` after it returns `(v, true)` exactly when
`maxBytes = 0` or `len(k) + v.Len() ≤ maxBytes`, and misses otherwise.  When
`len(k) + v.Len() > maxBytes > 0` the `Add` leaves the cache empty: no
element in the list, no key in the map, `nbytes = 0`. -/
theorem Add_survives_iff_fits {V : Type} [Value V] (c : Cache V) (h : c.WF)
    (hmax : 0 ≤ c.maxBytes) (hlen : ∀ v : V, 0 ≤ Value.Len v) (k : String) (v : V)
    (hsum : c.nbytes + (len k + Value.Len v) < 9223372036854775808) :
    ∃ c1, c.Add64 k v = some c1 ∧
      ((c1.Get k).1 = some v ↔ (c.maxBytes = 0 ∨ len k + Value.Len v ≤ c.maxBytes)) ∧
      (¬ (c.maxBytes = 0 ∨ len k + Value.Len v ≤ c.maxBytes) → (c1.Get k).1 = none) ∧
      (0 < c.maxBytes → c.maxBytes < len k + Value.Len v →
        c1.ll = [] ∧ c1.Len = 0 ∧ c1.nbytes = 0 ∧ ∀ k1, c1.cache k1 = none) := by
  rw [Cache.Add64_eq_Add hlen h k v hsum]
  exact Cache.Add_survives_exact c h hmax hlen k v

/-- Instance of the amended C28 on the sample cache (budget 10): an entry of
11 bytes empties the cache. -/
theorem Add_survives_iff_fits_witness :
    ∃ c1, sample.Add64 "big" { b := [1, 2, 3, 4, 5, 6, 7, 8] } = some c1 ∧
      (c1.Get "big").1 = none ∧ c1.ll = [] ∧ c1.nbytes = 0 :=
  match Add_survives_iff_fits sample
      (Cache.WF_insert (Cache.WF_insert (Cache.WF_New 10 false) _ _) _ _) (by decide)
      (fun v => Int.ofNat_nonneg _) "big" { b := [1, 2, 3, 4, 5, 6, 7, 8] } (by decide) with
  | ⟨c1, h1, _, h3, h4⟩ =>
    ⟨c1, h1, h3 (by decide), (h4 (by decide) (by decide)).1, (h4 (by decide) (by decide)).2.2.1⟩

/-- C29, as stated, fails: the `int64` counter wraps.  The cache
`New(-5, nil)` is empty and satisfies the accounting invariant, and the value
`Size(MaxInt64)` has a non-negative `Len()`; `Add("k", Size(MaxInt64))`
charges `2^63` bytes, the counter becomes `-2^63`, which is below the budget
-5, so the loop ends at once, without a call of `RemoveOldest`, and `Add`
returns with the entry in the cache, although `maxBytes < 0`. -/
theorem Add_returns_with_negative_budget :
    (New (-5) false : Cache Size).WF ∧
    (New (-5) false : Cache Size).maxBytes < 0 ∧
    0 ≤ Value.Len ({ n := 9223372036854775807 } : Size) ∧
    ((New (-5) false : Cache Size).Add64 "k" { n := 9223372036854775807 }).map
        (fun c => ((c.Get "k").1, c.Len, c.nbytes))
      = some (some { n := 9223372036854775807 }, 1, -9223372036854775808) ∧
    Cache.evictCalls64 1
        ((New (-5) false : Cache Size).insert64 "k" { n := 9223372036854775807 })
      = some 0 := by
  refine ⟨Cache.WF_New (-5) false, by decide, by decide, by decide, by decide⟩

/-- C29, amended (termination of eviction).  For a cache that satisfies the
accounting invariant, whose values have a non-negative `Len()`, and a key `k`
and value `v` with `nbytes + len(k) + v.Len() < 2^63` (the `int64` counter
does not overflow): the eviction loop at the end of `Add(k, v)` ends, that is
`Add` returns, exactly when `maxBytes ≥ 0`.  A loop that ends after `calls`
calls of `RemoveOldest` has `calls` at most the number of entries present
after the insert (and leaves the cache after these calls), and with
`maxBytes ≥ 0` there is such a number of calls.  With `maxBytes < 0` the loop
condition holds after any number of calls of `RemoveOldest`, on the emptied
cache too, the loop does not end within any number of iterations, and `Add`
does not return. -/
theorem eviction_terminates_iff {V : Type} [Value V] (c : Cache V) (h : c.WF)
    (hlen : ∀ v : V, 0 ≤ Value.Len v) (k : String) (v : V)
    (hsum : c.nbytes + (len k + Value.Len v) < 9223372036854775808) :
    ((∃ c1, c.Add64 k v = some c1) ↔ 0 ≤ c.maxBytes) ∧
    ((∃ n c1, Cache.evict64 n (c.insert64 k v) = some c1) ↔ 0 ≤ c.maxBytes) ∧
    (∀ n calls, Cache.evictCalls64 n (c.insert64 k v) = some calls →
      calls ≤ (c.insert64 k v).ll.length ∧
      Cache.evict64 n (c.insert64 k v)
        = some (Cache.RemoveOldest64^[calls] (c.insert64 k v))) ∧
    (0 ≤ c.maxBytes →
      ∃ calls, Cache.evictCalls64 (c.insert64 k v).ll.length (c.insert64 k v) = some calls) ∧
    (c.maxBytes < 0 →
      c.Add64 k v = none ∧
      (∀ n, Cache.evict64 n (c.insert64 k v) = none) ∧
      (∀ n, (Cache.RemoveOldest64^[n] (c.insert64 k v)).maxBytes ≠ 0 ∧
        (Cache.RemoveOldest64^[n] (c.insert64 k v)).maxBytes
          < (Cache.RemoveOldest64^[n] (c.insert64 k v)).nbytes) ∧
      (Cache.RemoveOldest64^[(c.insert64 k v).ll.length] (c.insert64 k v)).ll = []) := by
  have hwf := Cache.WF_insert h k v
  have hmb := Cache.maxBytes_insert c k v
  have hr : (c.insert k v).nbytes < 9223372036854775808 :=
    lt_of_le_of_lt (Cache.nbytes_insert_le hlen c k v) hsum
  have hev : ∀ n, Cache.evict64 n (c.insert k v) = Cache.evict n (c.insert k v) :=
    fun n => Cache.evict64_eq hlen n _ hwf hr
  have hcalls : ∀ n, Cache.evictCalls64 n (c.insert k v) = Cache.evictCalls n (c.insert k v) :=
    fun n => Cache.evictCalls64_eq hlen n _ hwf hr
  have hit : ∀ n, Cache.RemoveOldest64^[n] (c.insert k v)
      = Cache.RemoveOldest^[n] (c.insert k v) :=
    fun n => Cache.iterate_RemoveOldest64_eq hlen n _ hwf hr
  rw [Cache.Add64_eq_Add hlen h k v hsum, Cache.insert64_eq hlen h k v hsum]
  simp only [hev, hcalls, hit]
  have hneg : c.maxBytes < 0 → ∀ n, Cache.evict n (c.insert k v) = none := by
    intro hlt n
    exact Cache.evict_negative hlen n _ hwf (by rw [hmb]; exact hlt)
  have htotal : 0 ≤ c.maxBytes → ∃ c1, c.Add k v = some c1 := by
    intro hmax
    exact Cache.evict_total hwf (by rw [hmb]; exact hmax)
  refine ⟨⟨?_, htotal⟩, ⟨?_, ?_⟩, ?_, ?_, ?_⟩
  · rintro ⟨c1, hc1⟩
    by_contra hlt
    have := hneg (by omega) (c.insert k v).ll.length
    unfold Cache.Add at hc1
    rw [this] at hc1
    cases hc1
  · rintro ⟨n, c1, hc1⟩
    by_contra hlt
    rw [hneg (by omega) n] at hc1
    cases hc1
  · intro hmax
    obtain ⟨c1, hc1⟩ := htotal hmax
    exact ⟨_, c1, hc1⟩
  · intro n calls hc
    exact Cache.evictCalls_some n _ _ hc
  · intro hmax
    obtain ⟨c1, hc1⟩ := htotal hmax
    exact Cache.evictCalls_of_evict _ _ c1 hc1
  · intro hlt
    refine ⟨hneg hlt _, hneg hlt, ?_, Cache.iterate_RemoveOldest_nil _ _ rfl⟩
    intro n
    obtain ⟨h1, h2⟩ := Cache.iterate_RemoveOldest n _ hwf
    have := Cache.nbytes_nonneg hlen h1
    rw [h2, hmb]
    exact ⟨by omega, by omega⟩

/-- Instance of the amended C29 on the sample cache (budget 10, two entries,
10 bytes): `Add("ccc", 3 bytes)` returns after two calls of `RemoveOldest`. -/
theorem eviction_terminates_iff_witness :
    (∃ c1, sample.Add64 "ccc" { b := [1, 2, 3] } = some c1) ∧
    Cache.evictCalls64 3 (sample.insert64 "ccc" { b := [1, 2, 3] }) = some 2 :=
  ⟨(eviction_terminates_iff sample
      (Cache.WF_insert (Cache.WF_insert (Cache.WF_New 10 false) _ _) _ _)
      (fun v => Int.ofNat_nonneg _) "ccc" { b := [1, 2, 3] } (by decide)).1.2 (by decide),
   by decide⟩

end lru

namespace geecache

theorem ByteView.Len_nonneg (v : ByteView) : 0 ≤ lru.Value.Len v :=
  Int.ofNat_nonneg _

theorem cache.cacheBytes_get (c : cache) (key : String) :
    (c.get key).2.cacheBytes = c.cacheBytes := by
  unfold cache.get
  cases c.lru <;> rfl

/-- With a budget that is not negative `add` returns. -/
theorem cache.add_total {c : cache} (h : c.WF) (hb : 0 ≤ c.cacheBytes) (key : String)
    (value : ByteView) :
    ∃ c1, c.add key value = some c1 ∧ c1.WF ∧ c1.cacheBytes = c.cacheBytes := by
  have key_fact : ∀ l : lru.Cache ByteView, l.WF → l.maxBytes = c.cacheBytes →
      ∃ c1, (l.Add key value).map (fun l1 => ({ c with lru := some l1 } : cache)) = some c1 ∧
        c1.WF ∧ c1.cacheBytes = c.cacheBytes := by
    intro l hl hmb
    obtain ⟨l1, h1, h2, h3⟩ := lru.Cache.Add_total hl (by rw [hmb]; exact hb) key value
    refine ⟨{ c with lru := some l1 }, by rw [h1]; rfl, ?_, rfl⟩
    intro l2 hl2
    cases hl2
    exact ⟨h2, h3.trans hmb⟩
  unfold cache.add
  cases hl : c.lru with
  | none => exact key_fact _ (lru.Cache.WF_New _ _) rfl
  | some l => exact key_fact l (h l hl).1 (h l hl).2

/-- An `add` of an entry that alone exceeds a positive budget returns and
leaves nothing in the cache: a `get` of the key misses. -/
theorem cache.add_oversized {c : cache} (h : c.WF) (key : String) (value : ByteView)
    (hpos : 0 < c.cacheBytes) (hbig : c.cacheBytes < lru.len key + (value.b.length : Int)) :
    ∃ c1, c.add key value = some c1 ∧ c1.WF ∧ c1.cacheBytes = c.cacheBytes ∧
      (c1.get key).1 = none := by
  have key_fact : ∀ l : lru.Cache ByteView, l.WF → l.maxBytes = c.cacheBytes →
      ∃ c1, (l.Add key value).map (fun l1 => ({ c with lru := some l1 } : cache)) = some c1 ∧
        c1.WF ∧ c1.cacheBytes = c.cacheBytes ∧ (c1.get key).1 = none := by
    intro l hl hmb
    obtain ⟨l1, h1, h2, h3, h4⟩ :=
      lru.Cache.Add_oversized ByteView.Len_nonneg hl key value (by rw [hmb]; exact hpos)
        (by rw [hmb]; exact hbig)
    refine ⟨{ c with lru := some l1 }, by rw [h1]; rfl, ?_, rfl, ?_⟩
    · intro l2 hl2
      cases hl2
      exact ⟨h2, h4.trans hmb⟩
    · show (l1.Get key).1 = none
      unfold lru.Cache.Get
      rw [(lru.Cache.empty_of_ll_nil h2 h3).2 key]
  unfold cache.add
  cases hl : c.lru with
  | none => exact key_fact _ (lru.Cache.WF_New _ _) rfl
  | some l => exact key_fact l (h l hl).1 (h l hl).2

/-- With a negative budget `add` does not return. -/
theorem cache.add_negative {c : cache} (h : c.WF) (key : String) (value : ByteView)
    (hneg : c.cacheBytes < 0) : c.add key value = none := by
  have key_fact : ∀ l : lru.Cache ByteView, l.WF → l.maxBytes = c.cacheBytes →
      (l.Add key value).map (fun l1 => ({ c with lru := some l1 } : cache)) = none := by
    intro l hl hmb
    rw [lru.Cache.Add_negative ByteView.Len_nonneg hl key value (by rw [hmb]; exact hneg)]
    rfl
  unfold cache.add
  cases hl : c.lru with
  | none => exact key_fact _ (lru.Cache.WF_New _ _) rfl
  | some l => exact key_fact l (h l hl).1 (h l hl).2

namespace Group

variable {W : Type}

/-- When the peer stage does not serve the key, `load` is `getLocally` in the
world that stage left. -/
theorem load_of_notServedByPeer {g : Group W} {key : String} {w w0 : W}
    (h : g.notServedByPeer key w w0) : g.load key w = g.getLocally key w0 := by
  unfold load
  rcases h with ⟨hp, rfl⟩ | ⟨picker, hp, hpick⟩ | ⟨picker, peer, w2, b2, err, hp, hpick, hpg⟩
  · rw [hp]
  · rw [hp]
    simp only [hpick]
  · rw [hp]
    simp only [hpick, getFromPeer, hpg]

theorem getLocally_of_value (g : Group W) (key : String) (w0 w1 : W) (bytes : List UInt8)
    (hget : g.getter key w0 = ((bytes, none), w1)) :
    g.getLocally key w0 = (g.mainCache.add key { b := bytes }).map fun mc =>
      (({ b := bytes }, none), { g with mainCache := mc }, w1) := by
  unfold getLocally
  rw [hget]
  simp only [populateCache, cloneBytes, Option.map_map]
  rfl

theorem getLocally_of_error (g : Group W) (key : String) (w0 w1 : W) (bytes : List UInt8)
    (err : String) (hget : g.getter key w0 = ((bytes, some err), w1)) :
    g.getLocally key w0 = some (({ b := [] }, some err), g, w1) := by
  unfold getLocally
  rw [hget]

/-- With a well-formed cache and a budget that is not negative `getLocally`
returns. -/
theorem getLocally_total (g : Group W) (key : String) (w : W) (hwf : g.mainCache.WF)
    (hb : 0 ≤ g.mainCache.cacheBytes) :
    ∃ r g1 w1, g.getLocally key w = some (r, g1, w1) := by
  rcases hget : g.getter key w with ⟨⟨bytes, oerr⟩, w1⟩
  cases oerr with
  | some err => exact ⟨_, _, _, getLocally_of_error g key w w1 bytes err hget⟩
  | none =>
    obtain ⟨c1, h1, _, _⟩ := cache.add_total hwf hb key { b := bytes }
    rw [getLocally_of_value g key w w1 bytes hget, h1]
    exact ⟨_, _, _, rfl⟩

/-- With a well-formed cache and a budget that is not negative `load`
returns. -/
theorem load_total (g : Group W) (key : String) (w : W) (hwf : g.mainCache.WF)
    (hb : 0 ≤ g.mainCache.cacheBytes) :
    ∃ r g1 w1, g.load key w = some (r, g1, w1) := by
  unfold load
  cases hp : g.peers with
  | none => exact getLocally_total g key w hwf hb
  | some peers =>
    simp only []
    rcases hpick : peers.PickPeer key w with ⟨op, w1⟩
    cases op with
    | none => exact getLocally_total g key w1 hwf hb
    | some peer =>
      simp only []
      rcases hpg : g.getFromPeer peer key w1 with ⟨⟨value, oerr⟩, w2⟩
      cases oerr with
      | none => exact ⟨_, _, _, rfl⟩
      | some err => exact getLocally_total g key w2 hwf hb

/-- With a well-formed cache and a budget that is not negative `Get`
returns. -/
theorem Get_total (g : Group W) (key : String) (w : W) (hwf : g.mainCache.WF)
    (hb : 0 ≤ g.mainCache.cacheBytes) :
    ∃ view oerr g1 w1, g.Get key w = some ((view, oerr), g1, w1) := by
  unfold Get
  by_cases hk : key = ""
  · rw [if_pos hk]
    exact ⟨_, _, _, _, rfl⟩
  · rw [if_neg hk]
    have hwf1 := cache.WF_get hwf key
    have hb1 : 0 ≤ (g.mainCache.get key).2.cacheBytes := by
      rw [cache.cacheBytes_get]
      exact hb
    rcases hget : g.mainCache.get key with ⟨o, mc⟩
    rw [hget] at hwf1 hb1
    cases o with
    | some v => exact ⟨_, _, _, _, rfl⟩
    | none =>
      obtain ⟨r, g1, w1, h1⟩ := load_total { g with mainCache := mc } key w hwf1 hb1
      exact ⟨r.1, r.2, g1, w1, h1⟩

end Group

/-- C1, as stated, fails when the value does not fit the budget.  On the
group "scores" with a budget of 5 bytes (no picker, empty cache) `load("Tom")`
returns "630" from the origin getter, and the entry, charged 6 bytes, is not
in the local cache afterwards: a lookup of "Tom" misses.  With a budget of
-1 the same `load` does not return. -/
theorem load_does_not_keep_oversized :
    ((NewGroup "scores" 5 dbGetter).load "Tom" []).map
        (fun r => (r.1, (r.2.1.mainCache.get "Tom").1, r.2.2))
      = some (({ b := bytesOf "630" }, none), none, ["[SlowDB] search key Tom"]) ∧
    ((NewGroup "scores" (-1) dbGetter).load "Tom" []).isNone = true := by
  decide

/-- C1, amended (`load`: peer first, then origin).  For a group whose local
cache satisfies the LRU invariant: when a picker is registered,
`PickPeer(key)` is ok and the peer's `Get` succeeds, `load` returns the
peer's bytes and leaves the group, hence the local cache, unchanged.  In
every other case (no picker, `PickPeer` not ok, the peer's `Get` fails):
when the origin getter fails, `load` returns its error and leaves the group
unchanged; when the getter succeeds with a value that fits the budget
(`cacheBytes = 0` or `len(key) + len(value) ≤ cacheBytes`), `load` returns
the value and a lookup of `key` in the local cache afterwards hits with it,
the rest of the group being unchanged; with any budget that is not negative
`load` returns the value of the getter; a value over a positive budget is
returned but not kept (a lookup of `key` misses); and with a negative budget
a `load` whose getter succeeds does not return. -/
theorem load_peer_then_origin {W : Type} (g : Group W) (key : String) (w : W)
    (hwf : g.mainCache.WF) :
    (∀ picker peer w1 bytes w2, g.peers = some picker →
      picker.PickPeer key w = (some peer, w1) →
      peer.Get g.name key w1 = ((bytes, none), w2) →
      g.load key w = some (({ b := bytes }, none), g, w2)) ∧
    (∀ w0, g.notServedByPeer key w w0 →
      (∀ bytes err w1, g.getter key w0 = ((bytes, some err), w1) →
        g.load key w = some (({ b := [] }, some err), g, w1)) ∧
      (∀ bytes w1, g.getter key w0 = ((bytes, none), w1) →
        ((g.mainCache.cacheBytes = 0 ∨
            lru.len key + (bytes.length : Int) ≤ g.mainCache.cacheBytes) →
          ∃ mc, g.load key w = some (({ b := bytes }, none), { g with mainCache := mc }, w1) ∧
            (mc.get key).1 = some { b := bytes } ∧ mc.WF ∧
            mc.cacheBytes = g.mainCache.cacheBytes) ∧
        (0 ≤ g.mainCache.cacheBytes →
          ∃ mc, g.load key w = some (({ b := bytes }, none), { g with mainCache := mc }, w1) ∧
            mc.WF ∧ mc.cacheBytes = g.mainCache.cacheBytes) ∧
        (0 < g.mainCache.cacheBytes →
          g.mainCache.cacheBytes < lru.len key + (bytes.length : Int) →
          ∃ mc, g.load key w = some (({ b := bytes }, none), { g with mainCache := mc }, w1) ∧
            (mc.get key).1 = none) ∧
        (g.mainCache.cacheBytes < 0 → g.load key w = none))) := by
  constructor
  · intro picker peer w1 bytes w2 hp hpick hget
    unfold Group.load
    rw [hp]
    simp only [hpick, Group.getFromPeer, hget]
  · intro w0 hnot
    rw [Group.load_of_notServedByPeer hnot]
    constructor
    · intro bytes err w1 hget
      exact Group.getLocally_of_error g key w0 w1 bytes err hget
    · intro bytes w1 hget
      rw [Group.getLocally_of_value g key w0 w1 bytes hget]
      refine ⟨?_, ?_, ?_, ?_⟩
      · intro hfit
        obtain ⟨c1, h1, h2, h3, h4⟩ := cache.add_fits hwf key { b := bytes } hfit
        exact ⟨c1, by rw [h1]; rfl, h4, h2, h3⟩
      · intro hb
        obtain ⟨c1, h1, h2, h3⟩ := cache.add_total hwf hb key { b := bytes }
        exact ⟨c1, by rw [h1]; rfl, h2, h3⟩
      · intro hpos hbig
        obtain ⟨c1, h1, _, _, h4⟩ := cache.add_oversized hwf key { b := bytes } hpos hbig
        exact ⟨c1, by rw [h1]; rfl, h4⟩
      · intro hneg
        rw [cache.add_negative hwf key { b := bytes } hneg]
        rfl

/-- Instance of the amended C1: on the sample group key "Tom" is served by
the peer and nothing is cached; on the group "scores" of `main.go`, without a
picker, "Tom" is loaded from the origin and is in the cache afterwards. -/
theorem load_peer_then_origin_witness :
    sampleGroup.load "Tom" [] = some (({ b := bytesOf "630" }, none), sampleGroup,
      ["peer scores/Tom"]) ∧
    ∃ mc, createGroup.load "Tom" []
        = some (({ b := bytesOf "630" }, none), { createGroup with mainCache := mc },
            ["[SlowDB] search key Tom"]) ∧
      (mc.get "Tom").1 = some { b := bytesOf "630" } :=
  ⟨(load_peer_then_origin sampleGroup "Tom" [] (fun _ hl => nomatch hl)).1 samplePicker
      samplePeer [] (bytesOf "630") ["peer scores/Tom"] rfl rfl rfl,
   match (((load_peer_then_origin createGroup "Tom" [] (fun _ hl => nomatch hl)).2 []
      (Or.inl ⟨rfl, rfl⟩)).2 (bytesOf "630") ["[SlowDB] search key Tom"] (by decide)).1
      (Or.inr (by decide)) with
   | ⟨mc, h1, h2, _⟩ => ⟨mc, h1, h2⟩⟩

/-- C18, as stated, fails, in two ways.  A request path that does not start
with the prefix gets no status 400: `ServeHTTP` panics on `/api`.  And for a
registered group whose cache budget is negative (here -1) the request
`/_geecache/scores/Tom` gets no response at all: `Group.Get` loads "630" and
then does not return from the eviction loop of the cache. -/
theorem ServeHTTP_panics_or_hangs :
    (match (NewHTTPPool "http://localhost:8001").ServeHTTP sampleGroups "/api" [] with
      | .panic msg => some msg
      | .hang => none
      | .response _ _ _ => none) = some "HTTPPool serving unexpected path: /api" ∧
    (match (NewHTTPPool "http://localhost:8001").ServeHTTP
        (fun n => if n = "scores" then some (NewGroup "scores" (-1) dbGetter) else none)
        "/_geecache/scores/Tom" [] with
      | .panic _ => 0
      | .hang => 1
      | .response _ _ _ => 2) = 1 := by
  decide

/-- C18, amended (status mapping of the cache handler).  A request path that
does not start with the prefix `basePath` makes `ServeHTTP` panic.  For every
request path that starts with it: when the rest of the path has no slash the
response is 400; otherwise, with `group` the part before the first slash and
`key` the part after it, the response is 404 when no group of that name is
registered; and for a registered group, when `Group.Get(key)` returns, the
response is 500 with the error text when it returns an error, and else 200
with the bytes of the value as body and content type
`application/octet-stream`.  `Group.Get` returns for every group whose cache
satisfies the LRU invariant and has a budget that is not negative, so that
one of the two responses is sent; when `Group.Get` does not return,
`ServeHTTP` sends no response. -/
theorem ServeHTTP_status {W : Type} (p : HTTPPool) (groups : Groups W) (path : String) (w : W) :
    (¬ (p.basePath.toList.isPrefixOf path.toList = true) →
      p.ServeHTTP groups path w = .panic ("HTTPPool serving unexpected path: " ++ path)) ∧
    (p.basePath.toList.isPrefixOf path.toList = true →
      ('/' ∉ path.toList.drop p.basePath.length →
        p.ServeHTTP groups path w = .response (httpError "bad request" 400) groups w) ∧
      (∀ groupName key, '/' ∉ groupName →
        path.toList = p.basePath.toList ++ groupName ++ '/' :: key →
        (GetGroup groups (String.mk groupName) = none →
          p.ServeHTTP groups path w
            = .response (httpError ("no such group: " ++ String.mk groupName) 404) groups w) ∧
        (∀ group, GetGroup groups (String.mk groupName) = some group →
          (∀ view err g1 w1, group.Get (String.mk key) w = some ((view, some err), g1, w1) →
            p.ServeHTTP groups path w = .response (httpError err 500)
              (fun n => if n = String.mk groupName then some g1 else groups n) w1) ∧
          (∀ view g1 w1, group.Get (String.mk key) w = some ((view, none), g1, w1) →
            p.ServeHTTP groups path w
              = .response { status := 200, contentType := "application/octet-stream",
                            body := view.b }
                (fun n => if n = String.mk groupName then some g1 else groups n) w1) ∧
          (group.Get (String.mk key) w = none → p.ServeHTTP groups path w = .hang) ∧
          (group.mainCache.WF → 0 ≤ group.mainCache.cacheBytes →
            ∃ view oerr g1 w1,
              group.Get (String.mk key) w = some ((view, oerr), g1, w1) ∧
              p.ServeHTTP groups path w
                = .response
                    (match oerr with
                     | some err => httpError err 500
                     | none => { status := 200, contentType := "application/octet-stream",
                                 body := view.b })
                    (fun n => if n = String.mk groupName then some g1 else groups n) w1)))) := by
  constructor
  · intro hpre
    unfold HTTPPool.ServeHTTP
    rw [if_pos hpre]
  · intro hpre
    have hnot : ¬ ¬ (p.basePath.toList.isPrefixOf path.toList = true) := not_not.2 hpre
    constructor
    · intro hno
      unfold HTTPPool.ServeHTTP
      rw [if_neg hnot, splitSlash_none.2 hno]
    · intro groupName key hgn hpath
      have hdrop : path.toList.drop p.basePath.length = groupName ++ '/' :: key := by
        rw [hpath, List.append_assoc]
        exact List.drop_left' rfl
      have hsplit : splitSlash (path.toList.drop p.basePath.length) = some (groupName, key) := by
        rw [hdrop]
        exact splitSlash_append key hgn
      refine ⟨?_, ?_⟩
      · intro hg
        unfold HTTPPool.ServeHTTP
        rw [if_neg hnot, hsplit]
        simp only [hg]
      · intro group hg
        have h500 : ∀ view err g1 w1,
            group.Get (String.mk key) w = some ((view, some err), g1, w1) →
            p.ServeHTTP groups path w = .response (httpError err 500)
              (fun n => if n = String.mk groupName then some g1 else groups n) w1 := by
          intro view err g1 w1 hget
          unfold HTTPPool.ServeHTTP
          rw [if_neg hnot, hsplit]
          simp only [hg, hget]
        have h200 : ∀ view g1 w1,
            group.Get (String.mk key) w = some ((view, none), g1, w1) →
            p.ServeHTTP groups path w
              = .response { status := 200, contentType := "application/octet-stream",
                            body := view.b }
                (fun n => if n = String.mk groupName then some g1 else groups n) w1 := by
          intro view g1 w1 hget
          unfold HTTPPool.ServeHTTP
          rw [if_neg hnot, hsplit]
          simp only [hg, hget]
          rfl
        refine ⟨h500, h200, ?_, ?_⟩
        · intro hget
          unfold HTTPPool.ServeHTTP
          rw [if_neg hnot, hsplit]
          simp only [hg, hget]
        · intro hwf hb
          obtain ⟨view, oerr, g1, w1, hget⟩ := Group.Get_total group (String.mk key) w hwf hb
          refine ⟨view, oerr, g1, w1, hget, ?_⟩
          cases oerr with
          | some err => exact h500 view err g1 w1 hget
          | none => exact h200 view g1 w1 hget

/-- Instance of the amended C18 on the group "scores" of `main.go`: `/api`
panics, `/_geecache/scores` gets 400, `/_geecache/ages/Tom` gets 404,
`/_geecache/scores/Nobody` gets 500 and `/_geecache/scores/Tom` gets 200 with
the body "630". -/
theorem ServeHTTP_status_witness :
    (NewHTTPPool "http://localhost:8001").ServeHTTP sampleGroups "/api" []
      = .panic "HTTPPool serving unexpected path: /api" ∧
    (NewHTTPPool "http://localhost:8001").ServeHTTP sampleGroups "/_geecache/scores" []
      = .response (httpError "bad request" 400) sampleGroups [] ∧
    (NewHTTPPool "http://localhost:8001").ServeHTTP sampleGroups "/_geecache/ages/Tom" []
      = .response (httpError "no such group: ages" 404) sampleGroups [] ∧
    (match (NewHTTPPool "http://localhost:8001").ServeHTTP sampleGroups
        "/_geecache/scores/Nobody" [] with
      | .response r _ _ => some r
      | _ => none) = some (httpError "Nobody not exist" 500) ∧
    (match (NewHTTPPool "http://localhost:8001").ServeHTTP sampleGroups
        "/_geecache/scores/Tom" [] with
      | .response r _ _ => some r
      | _ => none)
      = some { status := 200, contentType := "application/octet-stream",
               body := bytesOf "630" } :=
  ⟨(ServeHTTP_status (NewHTTPPool "http://localhost:8001") sampleGroups "/api" []).1
      (by decide),
   ((ServeHTTP_status (NewHTTPPool "http://localhost:8001") sampleGroups "/_geecache/scores"
      []).2 (by decide)).1 (by decide),
   (((ServeHTTP_status (NewHTTPPool "http://localhost:8001") sampleGroups
      "/_geecache/ages/Tom" []).2 (by decide)).2 "ages".toList "Tom".toList (by decide)
      (by decide)).1 rfl,
   by decide, by decide⟩

end geecache
